import Mathlib

/-!
Verification of the Smart Diff Engine of the roam-research-mcp repository.

The development shallowly embeds the engine's TypeScript sources:
  * `src/markdown-utils.ts`      (parseMarkdown and its helpers)
  * `src/diff/parser.ts`         (flattenExistingBlocks, markdownToBlocks)
  * `src/diff/matcher.ts`        (normalizeText, normalizeForMatching, matchBlocks)
  * `src/diff/diff.ts`           (diffBlockTrees)
  * `src/diff/actions.ts`        (generateBatchActions)
  * `src/cli/utils/output.ts`    (blocksToMarkdown)

JavaScript strings are modelled as `List Char`; JavaScript `Map`/`Set`
objects are modelled as insertion-ordered association lists; the mutable
node graph built by `parseMarkdown` is modelled as an append-only arena of
node records addressed by index.
-/

namespace RoamDiff

/-- JavaScript strings, modelled as lists of characters. -/
abbrev JStr := List Char

/-- ASCII whitespace, the fragment of `\s` relevant to this code base. -/
def isWsChar (c : Char) : Bool :=
  c = ' ' || c = '\t' || c = '\n' || c = '\r'

/-- `String.prototype.trimStart`. -/
def trimStartL (s : JStr) : JStr := s.dropWhile isWsChar

/-- `String.prototype.trimEnd`. -/
def trimEndL (s : JStr) : JStr := (s.reverse.dropWhile isWsChar).reverse

/-- `String.prototype.trim`. -/
def jtrim (s : JStr) : JStr := trimStartL (trimEndL s)

/-- The text matched by `/^\s*/`. -/
def leadWs (s : JStr) : JStr := s.takeWhile isWsChar

/-- The text matched by `/^[\t ]*/`. -/
def leadTabSpace (s : JStr) : JStr := s.takeWhile (fun c => c = ' ' || c = '\t')

/-- `s.startsWith(p)`. -/
def startsWithL (s p : JStr) : Bool :=
  decide (s.take p.length = p)

/-- The backtick character, written by code so that no backtick literal
appears in this file. -/
def tick : Char := Char.ofNat 96

/-- The three-character code fence marker. -/
def fenceMark : JStr := [tick, tick, tick]

/-- `s.indexOf(p)` for a substring `p`, returning `none` for JavaScript's `-1`. -/
def indexOfSub (s p : JStr) : Option Nat :=
  (List.range (s.length + 1)).find? (fun i => startsWithL (s.drop i) p)

/-- `s.split('\n')`. -/
def splitOnNl : JStr → List JStr
  | [] => [[]]
  | c :: rest =>
    if c = '\n' then [] :: splitOnNl rest
    else
      match splitOnNl rest with
      | [] => [[c]]
      | g :: gs => (c :: g) :: gs

/-- JavaScript `lines.join` with separator `'\n'`. -/
def joinNl : List JStr → JStr
  | [] => []
  | [l] => l
  | l :: ls => l ++ '\n' :: joinNl ls

/-! ### Inline conversions (`convertToRoamMarkdown`, markdown-utils.ts) -/

/-- Scanner for the lazy close of `(?<!m)m(?!m)` after an emphasis opener
`m` (`*` or `_`): finds the earliest close position, returning the matched
content (group 1) and the remainder after the closing mark.  `prev` is the
character preceding the scan position (for the look-behind); `.` in the
source pattern does not match a newline, which aborts the attempt. -/
def findEmphClose (m : Char) : Char → JStr → Option (JStr × JStr)
  | _, [] => none
  | prev, c :: rest =>
    if c = '\n' then none
    else if c = m && prev ≠ m && rest.head? ≠ some m then some ([], rest)
    else
      match findEmphClose m c rest with
      | some (content, rem) => some (c :: content, rem)
      | none => none

/-- One global-replace pass of
`text.replace(/(?<!m)m(?!m)(.+?)(?<!m)m(?!m)/g, '__$1__')`
for an emphasis mark `m` (used twice in `convertToRoamMarkdown`: once with
`*`, once with `_`).  `prev` tracks the previous character of the input for
the look-behind at the opener. -/
def emphPassF (m : Char) : Nat → Option Char → JStr → JStr
  | 0, _, s => s
  | _, _, [] => []
  | fuel + 1, prev, c :: rest =>
    if c = m && prev ≠ some m && rest.head? ≠ some m then
      match findEmphClose m m rest with
      | some (content, rem) =>
        '_' :: '_' :: (content ++ '_' :: '_' :: emphPassF m fuel (some m) rem)
      | none => c :: emphPassF m fuel (some c) rest
    else c :: emphPassF m fuel (some c) rest

/-- The pass at adequate fuel: each step consumes at least one input
character, so `s.length` steps always complete the scan (the fuel-0
fallback, which returns the rest of the input unchanged, is never
reached). -/
def emphPass (m : Char) (prev : Option Char) (s : JStr) : JStr :=
  emphPassF m s.length prev s

/-- Scanner for the lazy close `==` of `/==(.+?)==/g`; `ne` records whether
at least one content character has been consumed (the `.+?` group must be
non-empty before a close is allowed). -/
def findHlClose : Bool → JStr → Option (JStr × JStr)
  | ne, c :: rest =>
    if ne && c = '=' && rest.head? = some '=' then some ([], rest.tail)
    else if c = '\n' then none
    else
      match findHlClose true rest with
      | some (content, rem) => some (c :: content, rem)
      | none => none
  | _, [] => none

/-- One global-replace pass of `text.replace(/==(.+?)==/g, '^^$1^^')`. -/
def hlPassF : Nat → JStr → JStr
  | 0, s => s
  | _, [] => []
  | fuel + 1, c :: rest =>
    if c = '=' && rest.head? = some '=' then
      match findHlClose false rest.tail with
      | some (content, rem) =>
        '^' :: '^' :: (content ++ '^' :: '^' :: hlPassF fuel rem)
      | none => c :: hlPassF fuel rest
    else c :: hlPassF fuel rest

/-- The pass at adequate fuel (the fuel-0 fallback is never reached). -/
def hlPass (s : JStr) : JStr := hlPassF s.length s

/-- `text.replace(pat, rep)` for a literal (regexp-free) pattern with the
`g` flag: left-to-right, non-overlapping, continuing after each
replacement.  Used for the GFM task-marker conversions. -/
def replaceSubF (pat rep : JStr) : Nat → JStr → JStr
  | 0, s => s
  | _, [] => []
  | fuel + 1, c :: rest =>
    if startsWithL (c :: rest) pat then
      rep ++ replaceSubF pat rep fuel ((c :: rest).drop pat.length)
    else c :: replaceSubF pat rep fuel rest

/-- The replacement at adequate fuel (the patterns used here are
non-empty, so each step consumes at least one character and the fuel-0
fallback is never reached). -/
def replaceSub (pat rep : JStr) (s : JStr) : JStr :=
  replaceSubF pat rep s.length s

/-- `s.split('|')`. -/
def splitOnBar : JStr → List JStr
  | [] => [[]]
  | c :: rest =>
    if c = '|' then [] :: splitOnBar rest
    else
      match splitOnBar rest with
      | [] => [[c]]
      | g :: gs => (c :: g) :: gs

/-- Whether a single line (no newlines) matches `^\|([^|]+\|)+\s*$`:
a `|`, then one or more non-empty bar-free cells each closed by `|`,
then optional trailing whitespace.  Used for the header and data rows of
the pipe-table pattern in `convertAllTables`. -/
def isBarCells (l : JStr) : Bool :=
  match l with
  | '|' :: rest =>
    let segs := splitOnBar rest
    decide (1 ≤ segs.dropLast.length) &&
      segs.dropLast.all (fun g => decide (g ≠ [])) &&
      (segs.getLastD []).all isWsChar
  | _ => false

/-- Whether a cell body matches `\s*:?-+:?\s*` (the separator row cells). -/
def isSepCell (g : JStr) : Bool :=
  let g1 := g.dropWhile isWsChar
  let g2 := if g1.head? = some ':' then g1.tail else g1
  let ds := g2.takeWhile (fun c => c = '-')
  let g3 := g2.drop ds.length
  let g4 := if g3.head? = some ':' then g3.tail else g3
  decide (ds ≠ []) && g4.all isWsChar

/-- Whether a single line matches `^\|(\s*:?-+:?\s*\|)+\s*$`
(the separator row of a pipe table). -/
def isSepLine (l : JStr) : Bool :=
  match l with
  | '|' :: rest =>
    let segs := splitOnBar rest
    decide (1 ≤ segs.dropLast.length) &&
      segs.dropLast.all isSepCell &&
      (segs.getLastD []).all isWsChar
  | _ => false

/-- Greedy match of `(\|([^|]+\|)+\s*$\n*)+` starting at a line start:
one or more data rows, each followed by a greedy run of newlines.
Returns the consumed text and the remainder (which again starts at a line
start, or is empty).  Each recursive step consumes at least one full line,
so fuel `s.length` always suffices. -/
def takeDataRowsF : Nat → JStr → Option (JStr × JStr)
  | 0, _ => none
  | fuel + 1, s =>
    let l := s.takeWhile (fun c => c ≠ '\n')
    let rest := s.dropWhile (fun c => c ≠ '\n')
    if isBarCells l then
      if rest = [] then some (l, [])
      else
        let nls := rest.takeWhile (fun c => c = '\n')
        let rem := rest.dropWhile (fun c => c = '\n')
        match takeDataRowsF fuel rem with
        | some (consumed2, rem2) => some (l ++ nls ++ consumed2, rem2)
        | none => some (l ++ nls, rem)
    else none

def takeDataRows (s : JStr) : Option (JStr × JStr) :=
  takeDataRowsF s.length s

/-- Attempt to match the full pipe-table pattern
`^\|([^|]+\|)+\s*$\n\|(\s*:?-+:?\s*\|)+\s*$\n(\|([^|]+\|)+\s*$\n*)+`
at a line start: header row, separator row, one or more data rows.
Returns the matched text and the remainder. -/
def matchTable (s : JStr) : Option (JStr × JStr) :=
  let h := s.takeWhile (fun c => c ≠ '\n')
  let rest := s.dropWhile (fun c => c ≠ '\n')
  if isBarCells h then
    match rest with
    | '\n' :: rest2 =>
      let sep := rest2.takeWhile (fun c => c ≠ '\n')
      let rest3 := rest2.dropWhile (fun c => c ≠ '\n')
      if isSepLine sep then
        match rest3 with
        | '\n' :: rest4 =>
          match takeDataRows rest4 with
          | some (consumed, rem) =>
            some (h ++ '\n' :: sep ++ '\n' :: consumed, rem)
          | none => none
        | _ => none
      else none
    | _ => none
  else none

/-- Whether the table pattern matches at some line start of `s`
(the `tableRegex.test(text)` guard inside `convertTableToRoamFormat`,
whose regexp carries the `m` flag). -/
def tableTestAnyF : Nat → JStr → Bool
  | 0, s => (matchTable s).isSome
  | _, [] => (matchTable []).isSome
  | fuel + 1, c :: rest =>
    (matchTable (c :: rest)).isSome ||
      tableTestAnyF fuel ((rest.dropWhile (fun x => x ≠ '\n')).tail)

def tableTestAny (s : JStr) : Bool := tableTestAnyF s.length s

/-- `line.replace(/^\||\|$/g, '')`: strips one leading and one trailing
bar. -/
def stripBars (l : JStr) : JStr :=
  let a := if l.head? = some '|' then l.tail else l
  if a.getLast? = some '|' then a.dropLast else a

/-- The literal string `{{[[table]]}}`. -/
def tableMark : JStr := "\x7b\x7b[[table]]\x7d\x7d".data

/-- `'  '.repeat(n)`. -/
def indentSp (n : Nat) : JStr := List.replicate (2 * n) ' '

/-- `convertTableToRoamFormat` (markdown-utils.ts): rewrites a matched
pipe table into the nested-bullet Roam structure.  The input row cells
are re-parsed from the trimmed non-empty lines, dropping the separator
row (index 1). -/
def convertTableToRoamFormat (text : JStr) : JStr :=
  let lines := ((splitOnNl text).map jtrim).filter (fun l => decide (l ≠ []))
  if tableTestAny text then
    let rows := ((lines.enum.filter (fun p => decide (p.1 ≠ 1))).map
      (fun p => (splitOnBar (stripBars (jtrim p.2))).map jtrim))
    match rows with
    | [] => jtrim (tableMark ++ ['\n'])
    | headers :: dataRows =>
      let headerPart := (headers.enum.map
        (fun p => indentSp (p.1 + 1) ++ '-' :: ' ' :: p.2 ++ ['\n'])).flatten
      let dataPart := (dataRows.map (fun row =>
        ((row.enum.map
          (fun p => indentSp (p.1 + 1) ++ '-' :: ' ' :: p.2 ++ ['\n'])).flatten))).flatten
      jtrim (tableMark ++ '\n' :: headerPart ++ dataPart)
  else text

/-- `convertAllTables` (markdown-utils.ts): replaces every occurrence of
the block-level pipe-table pattern by
`'\n' + convertTableToRoamFormat(match) + '\n'`.  `atStart` tracks
whether the scan position is at a line start (the `^` anchor under the
`m` flag). -/
def tableGoF : Nat → Bool → JStr → JStr
  | 0, _, s => s
  | _, _, [] => []
  | fuel + 1, atStart, c :: rest =>
    if atStart then
      match matchTable (c :: rest) with
      | some (matched, rem) =>
        '\n' :: (convertTableToRoamFormat matched ++ '\n' :: tableGoF fuel true rem)
      | none => c :: tableGoF fuel (c = '\n') rest
    else c :: tableGoF fuel (c = '\n') rest

def convertAllTables (s : JStr) : JStr := tableGoF s.length true s

/-- The literal pattern and replacement of the GFM todo conversion. -/
def todoPat : JStr := "- [ ]".data
def todoRep : JStr := "- \x7b\x7b[[TODO]]\x7d\x7d".data
def donePat : JStr := "- [x]".data
def doneRep : JStr := "- \x7b\x7b[[DONE]]\x7d\x7d".data

/-- `convertToRoamMarkdown` (markdown-utils.ts).  The first source line,
`text.replace(/\*\*(.+?)\*\*/g, '**$1**')`, replaces every match by
`'**' + $1 + '**'` — the matched text itself — so that pass is the
identity and is embedded as such. -/
def convertToRoamMarkdown (t : JStr) : JStr :=
  let t1 := t
  let t2 := emphPass '*' none t1
  let t3 := emphPass '_' none t2
  let t4 := hlPass t3
  let t5 := replaceSub todoPat todoRep t4
  let t6 := replaceSub donePat doneRep t5
  convertAllTables t6

/-! ### `parseMarkdown` (markdown-utils.ts)

The mutable node objects of the source are modelled as records in an
append-only arena (`List MdNodeRec`), addressed by index; pushing a child
onto `stack[level - 1].children` becomes an index update of the parent's
record.  The level-indexed `stack` array, whose slots may be holes
(JavaScript `undefined`), is a `List (Option Nat)` of arena indices. -/

/-- An in-progress markdown node: content, level, heading level
(`0` when the optional `heading_level` field is absent) and the arena
indices of its children. -/
structure MdNodeRec where
  content : JStr
  level : Nat
  heading : Nat
  childIdx : List Nat
deriving DecidableEq, Repr

/-- Parser state: the arena, the root-node indices, the level-indexed
stack, and the code-fence state (`inCodeBlock`, `codeBlockContent`,
`codeBlockIndentation`, `codeBlockParentLevel`). -/
structure ParseSt where
  arena : List MdNodeRec
  roots : List Nat
  stack : List (Option Nat)
  inCode : Bool
  codeContent : JStr
  codeIndent : Nat
  codeParent : Nat
deriving DecidableEq, Repr

def initSt : ParseSt :=
  { arena := [], roots := [], stack := [], inCode := false,
    codeContent := [], codeIndent := 0, codeParent := 0 }

/-- Reading `stack[i]`: out-of-range and hole slots are JavaScript
`undefined`, i.e. `none`. -/
def stackGet (s : List (Option Nat)) (i : Nat) : Option Nat :=
  match s.get? i with
  | some v => v
  | none => none

/-- JavaScript array assignment `s[i] = v`, extending the array with holes
when `i ≥ s.length`. -/
def jsSet (s : List (Option Nat)) (i : Nat) (v : Nat) : List (Option Nat) :=
  let s2 := if s.length ≤ i then s ++ List.replicate (i + 1 - s.length) none else s
  s2.set i (some v)

/-- `stack[j].children.push(k)` in the arena model. -/
def pushChild (a : List MdNodeRec) (j k : Nat) : List MdNodeRec :=
  match a.get? j with
  | some r => a.set j { r with childIdx := r.childIdx ++ [k] }
  | none => a

/-- `parseMarkdownHeadingLevel` (markdown-utils.ts): matches
`/^(#{1,3})\s+(.+)$/` and returns `(heading_level, content)`;
`(0, text.trim())` for non-headings.  Callers pass single lines, so
neither the `\s+` run nor the `.+` group can involve a newline. -/
def parseMarkdownHeadingLevel (t : JStr) : Nat × JStr :=
  let r := (t.takeWhile (fun c => c = '#')).length
  let rest := t.drop r
  let ws := rest.takeWhile isWsChar
  let rem := rest.dropWhile isWsChar
  if 1 ≤ r ∧ r ≤ 3 ∧ 1 ≤ ws.length ∧ (rem ≠ [] ∨ 2 ≤ ws.length) then
    if rem = [] then (r, [])
    else (r, jtrim rem)
  else (0, jtrim t)

/-- The bullet-marker match `/^(\s*)[-*+]\s+/` on a (right-trimmed) line:
returns the marker's leading-whitespace width and the content after the
marker, or `none` when the line has no bullet marker. -/
def bulletSplit (t : JStr) : Option (Nat × JStr) :=
  let ws := leadWs t
  match t.drop ws.length with
  | c :: rest =>
    if (c = '-' ∨ c = '*' ∨ c = '+') then
      match rest with
      | d :: _ =>
        if isWsChar d then some (ws.length, rest.dropWhile isWsChar)
        else none
      | [] => none
    else none
  | [] => none

/-- Attachment of a freshly created node for a regular (non-fence) line
(markdown-utils.ts, the tail of the parse loop): truncate the stack to the
node's level; a node at level 0, or whose slot `stack[level - 1]` is
empty, becomes a new root and is also written to `stack[0]`; otherwise it
is pushed onto `stack[level - 1].children`.  Finally `stack[level]` is set
to the node. -/
def attachStep (st : ParseSt) (lvl : Nat) (content : JStr) (h : Nat) : ParseSt :=
  let node : MdNodeRec := { content := content, level := lvl, heading := h, childIdx := [] }
  let k := st.arena.length
  let stack1 := st.stack.take lvl
  if lvl = 0 ∨ stackGet stack1 (lvl - 1) = none then
    { st with arena := st.arena ++ [node], roots := st.roots ++ [k],
              stack := jsSet (jsSet stack1 0 k) lvl k }
  else
    match stackGet stack1 (lvl - 1) with
    | some j =>
      { st with arena := pushChild (st.arena ++ [node]) j k,
                stack := jsSet stack1 lvl k }
    | none => st

/-- The common leading whitespace computed on fence close: the
`/^[\t ]*/` run of the first non-blank interior line (markdown-utils.ts,
the `baseIndentation` loop). -/
def baseIndentOf (ls : List JStr) : JStr :=
  match (ls.drop 1 |>.take (ls.length - 2)).find? (fun l => decide (jtrim l ≠ [])) with
  | some l => leadTabSpace l
  | none => []

/-- The per-line dedent applied on fence close (markdown-utils.ts, the
`processedCodeLines` map): fence lines are left-trimmed, blank interior
lines become empty, interior lines starting with `base` lose exactly that
prefix, and all other interior lines are fully left-trimmed. -/
def dedentCodeLines (ls : List JStr) (base : JStr) : List JStr :=
  ls.enum.map (fun p =>
    if p.1 = 0 ∨ p.1 = ls.length - 1 then trimStartL p.2
    else if jtrim p.2 = [] then []
    else if startsWithL p.2 base then p.2.drop base.length
    else trimStartL p.2)

/-- Fence close (markdown-utils.ts): dedent the accumulated fence content,
build a single node at level `codeBlockIndentation / 2`, pop the stack to
`codeBlockParentLevel`, and attach.  Unlike `attachStep`, the level-0 case
here does not re-truncate, and the deep-level new-root case does not write
`stack[0]`. -/
def closeFence (st : ParseSt) (closeTrimmed : JStr) : ParseSt :=
  let content := st.codeContent ++ closeTrimmed
  let ls := splitOnNl content
  let base := baseIndentOf ls
  let processed := dedentCodeLines ls base
  let lvl := st.codeIndent / 2
  let node : MdNodeRec :=
    { content := joinNl processed, level := lvl, heading := 0, childIdx := [] }
  let k := st.arena.length
  let stack1 := st.stack.take st.codeParent
  if lvl = 0 then
    { arena := st.arena ++ [node], roots := st.roots ++ [k],
      stack := jsSet stack1 0 k, inCode := false, codeContent := [],
      codeIndent := st.codeIndent, codeParent := st.codeParent }
  else
    let stack2 := stack1.take lvl
    match stackGet stack2 (lvl - 1) with
    | some j =>
      { arena := pushChild (st.arena ++ [node]) j k, roots := st.roots,
        stack := jsSet stack2 lvl k, inCode := false, codeContent := [],
        codeIndent := st.codeIndent, codeParent := st.codeParent }
    | none =>
      { arena := st.arena ++ [node], roots := st.roots ++ [k],
        stack := jsSet stack2 lvl k, inCode := false, codeContent := [],
        codeIndent := st.codeIndent, codeParent := st.codeParent }

/-- One iteration of the main parse loop (markdown-utils.ts). -/
def stepLine (st : ParseSt) (line : JStr) : ParseSt :=
  let trimmedLine := trimEndL line
  if startsWithL (trimStartL trimmedLine) fenceMark then
    if !st.inCode then
      { st with inCode := true,
                codeContent := trimStartL trimmedLine ++ ['\n'],
                codeIndent := (leadWs line).length,
                codeParent := st.stack.length }
    else closeFence st (trimStartL trimmedLine)
  else if st.inCode then
    { st with codeContent := st.codeContent ++ line ++ ['\n'] }
  else if trimmedLine = [] then st
  else
    let indentation := (leadWs line).length
    let (lvl, contentToParse) :=
      match bulletSplit trimmedLine with
      | some (w, c) => (w / 2, c)
      | none => (indentation / 2, trimmedLine)
    let (h, finalContent) := parseMarkdownHeadingLevel contentToParse
    attachStep st lvl finalContent h

/-- The pre-processing pass of `parseMarkdown`: a line containing a code
fence marker at a positive column is split into two lines at the fence
boundary, both re-indented with the original leading whitespace. -/
def preprocessLine (line : JStr) : List JStr :=
  let t := trimEndL line
  match indexOfSub t fenceMark with
  | some k =>
    if 0 < k then
      let ws := leadWs line
      [ws ++ t.take k, ws ++ t.drop k]
    else [line]
  | none => [line]

/-- `parseMarkdown` up to its final state: inline conversions, the line
pre-processing pass, then the main loop. -/
def parseMarkdownSt (md : JStr) : ParseSt :=
  let md1 := convertToRoamMarkdown md
  let ls := ((splitOnNl md1).map preprocessLine).flatten
  ls.foldl stepLine initSt

/-- The tree shape returned by `parseMarkdown`. -/
inductive MarkdownNode where
  | node (content : JStr) (level : Nat) (heading : Nat)
      (children : List MarkdownNode)

/-- Materialisation of an arena index into a `MarkdownNode`; `fuel` bounds
the recursion depth (child indices always exceed their parent's index, so
`arena.length + 1` is always enough fuel). -/
def buildOne (a : List MdNodeRec) : Nat → Nat → Option MarkdownNode
  | 0, _ => none
  | fuel + 1, i =>
    match a.get? i with
    | none => none
    | some r =>
      some (.node r.content r.level r.heading
        (r.childIdx.filterMap (buildOne a fuel)))

def buildForest (a : List MdNodeRec) (fuel : Nat) (idxs : List Nat) :
    List MarkdownNode :=
  idxs.filterMap (buildOne a fuel)

/-- `parseMarkdown` (markdown-utils.ts). -/
def parseMarkdown (md : JStr) : List MarkdownNode :=
  let st := parseMarkdownSt md
  buildForest st.arena (st.arena.length + 1) st.roots

/-! ### Data model (src/diff/types.ts) and JavaScript collections -/

/-- `ExistingBlock` (types.ts): a block of the remote snapshot. -/
inductive ExistingBlock where
  | mk (uid : JStr) (text : JStr) (order : Int) (heading : Option Nat)
      (children : List ExistingBlock) (parentUid : Option JStr)

def ExistingBlock.uid : ExistingBlock → JStr
  | .mk u _ _ _ _ _ => u

def ExistingBlock.text : ExistingBlock → JStr
  | .mk _ t _ _ _ _ => t

def ExistingBlock.order : ExistingBlock → Int
  | .mk _ _ o _ _ _ => o

def ExistingBlock.heading : ExistingBlock → Option Nat
  | .mk _ _ _ h _ _ => h

def ExistingBlock.children : ExistingBlock → List ExistingBlock
  | .mk _ _ _ _ cs _ => cs

def ExistingBlock.parentUid : ExistingBlock → Option JStr
  | .mk _ _ _ _ _ p => p

/-- `BlockRef` (types.ts). -/
structure BlockRef where
  blockUid : JStr
deriving DecidableEq, Repr

/-- `NewBlock` (types.ts): a desired block produced from markdown.
The `order` field (TypeScript `number | 'last'`, always a sibling index
when produced by `markdownToBlocks`) is never read by the matcher or the
diff. -/
structure NewBlock where
  ref : BlockRef
  text : JStr
  parentRef : Option BlockRef
  order : Int
  bopen : Bool
  heading : Option Nat
deriving DecidableEq, Repr

/-- A `create` location order: a number or the `'last'` sentinel. -/
inductive JOrder where
  | num (n : Int)
  | last
deriving DecidableEq, Repr

/-- `RoamBatchAction` shapes appearing in a `DiffResult`.  Optional
payload fields (`string`/`heading` of an update, `heading`/`open` of a
create) model field presence in the emitted object. -/
inductive RoamAction where
  | create (parentUid : JStr) (order : JOrder) (uid : JStr) (string : JStr)
      (heading : Option Nat) (bopen : Option Bool)
  | update (uid : JStr) (string : Option JStr) (heading : Option Nat)
  | move (uid : JStr) (parentUid : JStr) (order : Int)
  | delete (uid : JStr)
deriving DecidableEq, Repr

/-- `DiffResult` (types.ts); the JavaScript `Set` of preserved uids is an
insertion-ordered duplicate-free list. -/
structure DiffResult where
  creates : List RoamAction
  updates : List RoamAction
  moves : List RoamAction
  deletes : List RoamAction
  preservedUids : List JStr
deriving DecidableEq, Repr

/-- JavaScript `Set.add`. -/
def sadd (l : List JStr) (x : JStr) : List JStr :=
  if x ∈ l then l else l ++ [x]

/-- JavaScript `Map` with string keys: an insertion-ordered association
list; `set` on an existing key overwrites in place. -/
structure JMap (β : Type) where
  entries : List (JStr × β)
deriving DecidableEq, Repr

def JMap.empty {β : Type} : JMap β := ⟨[]⟩

def JMap.get? {β : Type} (m : JMap β) (k : JStr) : Option β :=
  (m.entries.find? (fun e => decide (e.1 = k))).map (fun e => e.2)

def JMap.set {β : Type} (m : JMap β) (k : JStr) (v : β) : JMap β :=
  if (m.get? k).isSome then
    ⟨m.entries.map (fun e => if e.1 = k then (k, v) else e)⟩
  else ⟨m.entries ++ [(k, v)]⟩

def JMap.has {β : Type} (m : JMap β) (k : JStr) : Bool :=
  (m.get? k).isSome

/-- `map.values()` as a list (in entry order). -/
def JMap.valuesL {β : Type} (m : JMap β) : List β :=
  m.entries.map (fun e => e.2)

/-- The `if (!map.has(k)) map.set(k, []); map.get(k)!.push(v)` idiom used
to build the multimap indices (`buildTextIndex`,
`siblingsByDesiredParent`): append `val x` to the bucket under `key x`. -/
def appendFold {α β : Type} (key : α → JStr) (val : α → β)
    (m : JMap (List β)) (x : α) : JMap (List β) :=
  match m.get? (key x) with
  | some l => m.set (key x) (l ++ [val x])
  | none => m.set (key x) [val x]

/-! ### Block parser helpers (src/diff/parser.ts) -/

mutual

/-- `flattenExistingBlocks` applied to a single tree: the block followed
by its children's flattenings, depth-first. -/
def flattenOne : ExistingBlock → List ExistingBlock
  | .mk u t o h cs p => .mk u t o h cs p :: flattenList cs

def flattenList : List ExistingBlock → List ExistingBlock
  | [] => []
  | b :: bs => flattenOne b ++ flattenList bs

end

/-- `flattenExistingBlocks` (parser.ts). -/
def flattenExistingBlocks (blocks : List ExistingBlock) : List ExistingBlock :=
  flattenList blocks

/-! ### Matcher (src/diff/matcher.ts) -/

/-- `normalizeText`: trim only. -/
def normalizeText (t : JStr) : JStr := jtrim t

/-- `normalizeForMatching`: trim, then strip a numbered-list prefix
matching `/^\d+\.\s+/`. -/
def normalizeForMatching (t : JStr) : JStr :=
  let tt := jtrim t
  let ds := tt.takeWhile Char.isDigit
  let rest := tt.drop ds.length
  match rest with
  | '.' :: rest2 =>
    match rest2 with
    | c :: _ =>
      if ds ≠ [] ∧ isWsChar c then rest2.dropWhile isWsChar else tt
    | [] => tt
  | _ => tt

/-- Index construction of `matchBlocks`: existing blocks grouped under a
normalised-text key (`existingByText` / `existingByNormalized`). -/
def buildTextIndex (f : JStr → JStr) (existing : List ExistingBlock) :
    JMap (List ExistingBlock) :=
  existing.foldl (appendFold (fun eb => f eb.text) (fun eb => eb)) JMap.empty

/-- Matcher state: the `newUid -> existingUid` map and the set of used
existing uids. -/
structure MatchSt where
  mmap : JMap JStr
  used : List JStr
deriving DecidableEq, Repr

/-- The shared body of matching phases 1 and 2: look up unused candidates
under the normalised text, and keep the one whose `order` is closest to
the desired node's position index (`reduce`, keeping the later candidate
on ties).  Phase 2 (`skipMatched = true`) skips desired nodes that are
already matched; phase 1 has no such check. -/
def phaseStep (index : JMap (List ExistingBlock)) (f : JStr → JStr)
    (skipMatched : Bool) (st : MatchSt) (p : Nat × NewBlock) : MatchSt :=
  let idx := p.1
  let nb := p.2
  if skipMatched && st.mmap.has nb.ref.blockUid then st
  else
    let candidates := ((index.get? (f nb.text)).getD []).filter
      (fun e => decide (e.uid ∉ st.used))
    match candidates with
    | [] => st
    | c :: cs =>
      let best := cs.foldl
        (fun a b =>
          if (a.order - (idx : Int)).natAbs < (b.order - (idx : Int)).natAbs
          then a else b) c
      { mmap := st.mmap.set nb.ref.blockUid best.uid,
        used := sadd st.used best.uid }

/-- Stable insertion of a block into an order-sorted list: the new block
goes before the first element whose `order` is not smaller. -/
def insOrd (b : ExistingBlock) : List ExistingBlock → List ExistingBlock
  | [] => [b]
  | x :: xs => if x.order < b.order then x :: insOrd b xs else b :: x :: xs

/-- Sorting of the remaining existing blocks in phase 3
(`[...unmatchedExisting].sort((a, b) => a.order - b.order)`): JavaScript
`Array.prototype.sort` is required to be stable, and a stable sort's
output is determined uniquely by the comparator, so it is modelled by
stable insertion sort. -/
def sortByOrder : List ExistingBlock → List ExistingBlock
  | [] => []
  | b :: bs => insOrd b (sortByOrder bs)

/-- One step of the position fallback (phase 3): the i-th still-unmatched
desired node is paired with the i-th remaining existing block in order of
their `order` field, if there is one. -/
def phase3Step (sorted : List ExistingBlock) (st : MatchSt)
    (p : Nat × NewBlock) : MatchSt :=
  match sorted.get? p.1 with
  | some eb =>
    { mmap := st.mmap.set p.2.ref.blockUid eb.uid,
      used := sadd st.used eb.uid }
  | none => st

/-- `matchBlocks` (matcher.ts): exact-text phase, normalised-text phase,
then the conservative position fallback. -/
def matchBlocks (existing : List ExistingBlock) (newBlocks : List NewBlock) :
    JMap JStr :=
  let byText := buildTextIndex normalizeText existing
  let byNorm := buildTextIndex normalizeForMatching existing
  let st1 := newBlocks.enum.foldl
    (fun st p => phaseStep byText normalizeText false st (p.1, p.2))
    ⟨JMap.empty, []⟩
  let st2 := newBlocks.enum.foldl
    (fun st p => phaseStep byNorm normalizeForMatching true st (p.1, p.2)) st1
  let unmatchedNew := newBlocks.filter (fun b => !st2.mmap.has b.ref.blockUid)
  let unmatchedExisting := existing.filter (fun e => decide (e.uid ∉ st2.used))
  if unmatchedNew.length ≤ 3 ∧ unmatchedExisting.length ≤ 3 then
    let sorted := sortByOrder unmatchedExisting
    (unmatchedNew.enum.foldl (phase3Step sorted) st2).mmap
  else st2.mmap

/-! ### Diff computation (src/diff/diff.ts) -/

/-- `s.indexOf(x)` on an array, with `-1` for a missing element. -/
def jsIndexOf (l : List JStr) (x : JStr) : Int :=
  match l with
  | [] => -1
  | y :: ys =>
    if y = x then 0
    else
      let r := jsIndexOf ys x
      if r = -1 then -1 else r + 1

/-- `desiredParentUid` (diff.ts): the root uid for a missing or root
parent reference; the matched existing uid of the parent when the parent
reference was matched; otherwise the parent reference itself. -/
def desiredParentUid (parentUid : JStr) (ms : JMap JStr) (nb : NewBlock) : JStr :=
  match nb.parentRef with
  | none => parentUid
  | some r =>
    if r.blockUid = parentUid then parentUid
    else (ms.get? r.blockUid).getD r.blockUid

/-- The first loop of `diffBlockTrees`: builds `newUidToDesiredParent` and
`siblingsByDesiredParent` (each sibling list collects the `targetUid` of
every new block resolving to that desired parent, in document order). -/
def buildDesiredMaps (parentUid : JStr) (ms : JMap JStr)
    (newBlocks : List NewBlock) : JMap JStr × JMap (List JStr) :=
  newBlocks.foldl (fun maps nb =>
    (maps.1.set nb.ref.blockUid (desiredParentUid parentUid ms nb),
      appendFold (desiredParentUid parentUid ms)
        (fun nb => (ms.get? nb.ref.blockUid).getD nb.ref.blockUid)
        maps.2 nb)) (JMap.empty, JMap.empty)

/-- The staged `update-block` payload for a matched pair (diff.ts,
lines 93–117): the `string` field when the normalised texts differ, the
`heading` field when the headings differ (with `0` standing for heading
removal); `none` when nothing changed. -/
def mkUpdate (nb : NewBlock) (eb : ExistingBlock) : Option RoamAction :=
  let stringChange : Option JStr :=
    if normalizeText nb.text ≠ normalizeText eb.text then some nb.text else none
  let headingChange : Option Nat :=
    if nb.heading ≠ eb.heading then
      match nb.heading with
      | some h => some h
      | none =>
        match eb.heading with
        | some _ => some 0
        | none => none
    else none
  if stringChange.isSome ∨ headingChange.isSome then
    some (.update eb.uid stringChange headingChange)
  else none

/-- Processing of one new block in the main loop of `diffBlockTrees`.
`exByUid` is the `uid -> ExistingBlock` map over the flattened existing
blocks; the source's non-null assertions (`existingByUid.get(existUid)!`,
`newUidToDesiredParent.get(newUid)!`) are modelled by defaults on lookups
that provably cannot fail for states produced by `diffBlockTrees`. -/
def processNew (parentUid : JStr) (ms : JMap JStr) (exByUid : JMap ExistingBlock)
    (toDP : JMap JStr) (sibs : JMap (List JStr)) (acc : DiffResult)
    (nb : NewBlock) : DiffResult :=
  let newUid := nb.ref.blockUid
  match ms.get? newUid with
  | some existUid =>
    match exByUid.get? existUid with
    | some eb =>
      let currentParent := eb.parentUid.getD parentUid
      let dParent := (toDP.get? newUid).getD parentUid
      let acc1 := { acc with preservedUids := sadd acc.preservedUids existUid }
      let acc2 :=
        match mkUpdate nb eb with
        | some u => { acc1 with updates := acc1.updates ++ [u] }
        | none => acc1
      let desiredSiblings := (sibs.get? dParent).getD []
      let desiredOrder := jsIndexOf desiredSiblings existUid
      if currentParent ≠ dParent ∨ eb.order ≠ desiredOrder then
        { acc2 with moves := acc2.moves ++ [.move existUid dParent desiredOrder] }
      else acc2
    | none => acc
  | none =>
    let dParent := (toDP.get? newUid).getD parentUid
    let desiredSiblings := (sibs.get? dParent).getD []
    let desiredOrder := jsIndexOf desiredSiblings newUid
    let ord : JOrder := if 0 ≤ desiredOrder then .num desiredOrder else .last
    { acc with creates := acc.creates ++
        [.create dParent ord newUid nb.text nb.heading (some nb.bopen)] }

/-- `diffBlockTrees` (diff.ts). -/
def diffBlockTrees (existing : List ExistingBlock) (newBlocks : List NewBlock)
    (parentUid : JStr) : DiffResult :=
  let existingFlat := flattenExistingBlocks existing
  let ms := matchBlocks existingFlat newBlocks
  let exByUid := existingFlat.foldl (fun m eb => m.set eb.uid eb) JMap.empty
  let maps := buildDesiredMaps parentUid ms newBlocks
  let afterLoop := newBlocks.foldl
    (processNew parentUid ms exByUid maps.1 maps.2)
    { creates := [], updates := [], moves := [], deletes := [],
      preservedUids := [] }
  let matchedExistingUids := ms.valuesL
  existingFlat.foldl (fun acc eb =>
    if eb.uid ∈ matchedExistingUids then acc
    else { acc with deletes := acc.deletes ++ [.delete eb.uid] }) afterLoop

/-! ### Action serialisation (src/diff/actions.ts) -/

/-- `generateBatchActions` (actions.ts): creates, then moves, then
updates, then the deletes reversed. -/
def generateBatchActions (diff : DiffResult) : List RoamAction :=
  diff.creates ++ diff.moves ++ diff.updates ++ diff.deletes.reverse

/-! ### Markdown regeneration (src/cli/utils/output.ts) and
`markdownToBlocks` (src/diff/parser.ts) -/

/-- The fields of `RoamBlock` read by `blocksToMarkdown`. -/
structure RoamBlock where
  string : JStr
  heading : Option Nat
  children : List RoamBlock

mutual

/-- The markdown rendering of one block (output.ts, the body of the map
inside `blocksToMarkdown`): two-space indentation per level, a
`#`-prefixed line for heading blocks, a `- `-prefixed line otherwise,
followed by the rendering of the children one level deeper. -/
def blockToMd : RoamBlock → Nat → JStr
  | ⟨s, h, cs⟩, level =>
    let ind : JStr := List.replicate (2 * level) ' '
    let md : JStr :=
      match h with
      | some hh =>
        if 0 < hh then ind ++ List.replicate hh '#' ++ ' ' :: s
        else ind ++ '-' :: ' ' :: s
      | none => ind ++ '-' :: ' ' :: s
    match cs with
    | [] => md
    | c :: cs2 => md ++ '\n' :: joinNl (blocksToMdList (c :: cs2) (level + 1))

def blocksToMdList : List RoamBlock → Nat → List JStr
  | [], _ => []
  | b :: bs, level => blockToMd b level :: blocksToMdList bs level

end

/-- `blocksToMarkdown` (output.ts). -/
def blocksToMarkdown (blocks : List RoamBlock) (level : Nat) : JStr :=
  joinNl (blocksToMdList blocks level)

mutual

/-- The snapshot view handed to `blocksToMarkdown` when regenerating
markdown from existing blocks. -/
def existingToRoam : ExistingBlock → RoamBlock
  | .mk _ t _ h cs _ => ⟨t, h, existingToRoamList cs⟩

def existingToRoamList : List ExistingBlock → List RoamBlock
  | [] => []
  | b :: bs => existingToRoam b :: existingToRoamList bs

end

mutual

/-- `processNode` inside `markdownToBlocks` (parser.ts).  The impure
`generateBlockUid()` is modelled by the uid supply `gen` applied to a
running counter threaded in call order (parents before children,
depth-first). -/
def mtbNode (gen : Nat → JStr) (n : MarkdownNode) (pref : BlockRef)
    (sib : Nat) (ctr : Nat) : List NewBlock × Nat :=
  match n with
  | .node content _ h children =>
    let uid := gen ctr
    let ref : BlockRef := ⟨uid⟩
    let nb : NewBlock :=
      { ref := ref, text := content, parentRef := some pref,
        order := (sib : Int), bopen := true,
        heading := if 0 < h then some h else none }
    let rest := mtbChildren gen children ref 0 (ctr + 1)
    (nb :: rest.1, rest.2)

def mtbChildren (gen : Nat → JStr) (ns : List MarkdownNode) (pref : BlockRef)
    (sib : Nat) (ctr : Nat) : List NewBlock × Nat :=
  match ns with
  | [] => ([], ctr)
  | n :: rest =>
    let r1 := mtbNode gen n pref sib ctr
    let r2 := mtbChildren gen rest pref (sib + 1) r1.2
    (r1.1 ++ r2.1, r2.2)

end

/-- `markdownToBlocks` (parser.ts): parse the markdown, then convert the
node forest to flat `NewBlock`s; root nodes carry a parent reference to
the page uid. -/
def markdownToBlocks (md : JStr) (pageUid : JStr) (gen : Nat → JStr) :
    List NewBlock :=
  (mtbChildren gen (parseMarkdown md) ⟨pageUid⟩ 0 0).1


/-! ### Per-node views of the main loop of `diffBlockTrees`

The body of the main loop depends only on the pre-computed maps, never on
the accumulated result, so each of the four action lists of the result is
a `filterMap` of a per-node function over the new blocks.  The following
definitions name those per-node functions. -/

/-- The existing block a new block is matched to, if any. -/
def matchedBlock (ms : JMap JStr) (exByUid : JMap ExistingBlock)
    (nb : NewBlock) : Option (JStr × ExistingBlock) :=
  match ms.get? nb.ref.blockUid with
  | some existUid =>
    match exByUid.get? existUid with
    | some eb => some (existUid, eb)
    | none => none
  | none => none

/-- The update action the loop emits for a new block, if any. -/
def updateOf (ms : JMap JStr) (exByUid : JMap ExistingBlock)
    (nb : NewBlock) : Option RoamAction :=
  match matchedBlock ms exByUid nb with
  | some (_, eb) => mkUpdate nb eb
  | none => none

/-- The move action the loop emits for a new block, if any. -/
def moveOf (parentUid : JStr) (ms : JMap JStr) (exByUid : JMap ExistingBlock)
    (toDP : JMap JStr) (sibs : JMap (List JStr)) (nb : NewBlock) :
    Option RoamAction :=
  match matchedBlock ms exByUid nb with
  | some (existUid, eb) =>
    let currentParent := eb.parentUid.getD parentUid
    let dParent := (toDP.get? nb.ref.blockUid).getD parentUid
    let desiredSiblings := (sibs.get? dParent).getD []
    let desiredOrder := jsIndexOf desiredSiblings existUid
    if currentParent ≠ dParent ∨ eb.order ≠ desiredOrder then
      some (.move existUid dParent desiredOrder)
    else none
  | none => none

/-- The create action the loop emits for a new block, if any. -/
def createOf (parentUid : JStr) (ms : JMap JStr) (toDP : JMap JStr)
    (sibs : JMap (List JStr)) (nb : NewBlock) : Option RoamAction :=
  match ms.get? nb.ref.blockUid with
  | some _ => none
  | none =>
    let newUid := nb.ref.blockUid
    let dParent := (toDP.get? newUid).getD parentUid
    let desiredSiblings := (sibs.get? dParent).getD []
    let desiredOrder := jsIndexOf desiredSiblings newUid
    let ord : JOrder := if 0 ≤ desiredOrder then .num desiredOrder else .last
    some (.create dParent ord newUid nb.text nb.heading (some nb.bopen))

/-- The uid the loop adds to `preservedUids` for a new block, if any. -/
def preservedOf (ms : JMap JStr) (exByUid : JMap ExistingBlock)
    (nb : NewBlock) : Option JStr :=
  (matchedBlock ms exByUid nb).map (fun p => p.1)

/-- The delete actions of the final loop of `diffBlockTrees`: one per
flattened existing block whose uid was never consumed by the match, in
flattening order. -/
def unmatchedDeletes (matched : List JStr) (ex : List ExistingBlock) :
    List RoamAction :=
  (ex.filter (fun eb => decide (eb.uid ∉ matched))).map
    (fun eb => .delete eb.uid)

/-- The position of the first occurrence of `x` in `l` (the length of
`l` when `x` is absent). -/
def idxOfJ (l : List JStr) (x : JStr) : Nat :=
  match l with
  | [] => 0
  | y :: ys => if y = x then 0 else idxOfJ ys x + 1

/-- Specification-side reading of a create's order: the node's index
within its desired sibling group, i.e. the position of its reference
among the references of the new blocks resolving to the same desired
parent, in document order. -/
def desiredSiblingIndex (parentUid : JStr) (ms : JMap JStr)
    (newBlocks : List NewBlock) (nb : NewBlock) : Nat :=
  idxOfJ ((newBlocks.filter (fun b =>
      decide (desiredParentUid parentUid ms b =
        desiredParentUid parentUid ms nb))).map
    (fun b => b.ref.blockUid)) nb.ref.blockUid

/-- Concrete input blocks used to exercise the create-order analysis. -/
def exX10 : ExistingBlock :=
  ExistingBlock.mk "X".data "hello".data 0 none [] none

def nbA10 : NewBlock :=
  { ref := ⟨"A".data⟩, text := "hello".data,
    parentRef := some ⟨"page".data⟩, order := 0, bopen := true,
    heading := none }

def nbX10 : NewBlock :=
  { ref := ⟨"X".data⟩, text := "world".data,
    parentRef := some ⟨"page".data⟩, order := 1, bopen := true,
    heading := none }

def nbW10 : NewBlock :=
  { ref := ⟨"a".data⟩, text := "hi".data,
    parentRef := some ⟨"p".data⟩, order := 0, bopen := true,
    heading := none }

/-- Concrete inputs exercising the position-fallback threshold. -/
def exs54 : List ExistingBlock :=
  [ExistingBlock.mk "e1".data "alpha".data 0 none [] none,
   ExistingBlock.mk "e2".data "beta".data 1 none [] none,
   ExistingBlock.mk "e3".data "gamma".data 2 none [] none,
   ExistingBlock.mk "e4".data "delta".data 3 none [] none]

def nbs54 : List NewBlock :=
  [{ ref := ⟨"r1".data⟩, text := "epsilon".data,
     parentRef := some ⟨"page".data⟩, order := 0, bopen := true,
     heading := none },
   { ref := ⟨"r2".data⟩, text := "zeta".data,
     parentRef := some ⟨"page".data⟩, order := 1, bopen := true,
     heading := none },
   { ref := ⟨"r3".data⟩, text := "eta".data,
     parentRef := some ⟨"page".data⟩, order := 2, bopen := true,
     heading := none },
   { ref := ⟨"r4".data⟩, text := "theta".data,
     parentRef := some ⟨"page".data⟩, order := 3, bopen := true,
     heading := none }]

def exs53 : List ExistingBlock := exs54.take 3

def nbs53 : List NewBlock := nbs54.take 3

def nbs53dup : List NewBlock :=
  [{ ref := ⟨"r1".data⟩, text := "epsilon".data,
     parentRef := some ⟨"page".data⟩, order := 0, bopen := true,
     heading := none },
   { ref := ⟨"r1".data⟩, text := "zeta".data,
     parentRef := some ⟨"page".data⟩, order := 1, bopen := true,
     heading := none },
   { ref := ⟨"r3".data⟩, text := "eta".data,
     parentRef := some ⟨"page".data⟩, order := 2, bopen := true,
     heading := none }]

/-- Concrete blocks exercising a simultaneous move and update. -/
def exW6 : ExistingBlock :=
  ExistingBlock.mk "X".data "hello".data 5 none [] none

def nbW6 : NewBlock :=
  { ref := ⟨"r1".data⟩, text := "world".data,
    parentRef := some ⟨"page".data⟩, order := 0, bopen := true,
    heading := none }

/-- A desired node whose parent reference resolves to no known node. -/
def nbGhost : NewBlock :=
  { ref := ⟨"r1".data⟩, text := "hi".data,
    parentRef := some ⟨"ghost".data⟩, order := 0, bopen := true,
    heading := none }

/-- The attachment rule exactly as the specification words it: truncate
the stack to length `lvl`; root or append under `stack[lvl - 1]`; then
assign only `stack[lvl]`. -/
def attachStepSpec (st : ParseSt) (lvl : Nat) (content : JStr) (h : Nat) :
    ParseSt :=
  let node : MdNodeRec :=
    { content := content, level := lvl, heading := h, childIdx := [] }
  let k := st.arena.length
  let stack1 := st.stack.take lvl
  if lvl = 0 ∨ stackGet stack1 (lvl - 1) = none then
    { st with arena := st.arena ++ [node], roots := st.roots ++ [k],
              stack := jsSet stack1 lvl k }
  else
    match stackGet stack1 (lvl - 1) with
    | some j =>
      { st with arena := pushChild (st.arena ++ [node]) j k,
                stack := jsSet stack1 lvl k }
    | none => st

/-- `stepLine` with the specification's attachment rule substituted. -/
def stepLineSpec (st : ParseSt) (line : JStr) : ParseSt :=
  let trimmedLine := trimEndL line
  if startsWithL (trimStartL trimmedLine) fenceMark then
    if !st.inCode then
      { st with inCode := true,
                codeContent := trimStartL trimmedLine ++ ['\n'],
                codeIndent := (leadWs line).length,
                codeParent := st.stack.length }
    else closeFence st (trimStartL trimmedLine)
  else if st.inCode then
    { st with codeContent := st.codeContent ++ line ++ ['\n'] }
  else if trimmedLine = [] then st
  else
    let (lvl, contentToParse) :=
      match bulletSplit trimmedLine with
      | some (w, c) => (w / 2, c)
      | none => ((leadWs line).length / 2, trimmedLine)
    let (h, finalContent) := parseMarkdownHeadingLevel contentToParse
    attachStepSpec st lvl finalContent h

/-- `parseMarkdown` with the specification's attachment rule. -/
def parseMarkdownSpec (md : JStr) : List MarkdownNode :=
  let md1 := convertToRoamMarkdown md
  let ls := ((splitOnNl md1).map preprocessLine).flatten
  let st := ls.foldl stepLineSpec initSt
  buildForest st.arena (st.arena.length + 1) st.roots

/-- The fenced input whose interior lines have indentations 4 and 2. -/
def c4input : JStr :=
  fenceMark ++ ('\n' :: "    a\n  b\n".data) ++ fenceMark

/-- The minimum indentation over the non-blank interior lines of a fence
(the specification's reading of the common leading whitespace). -/
def minIndentLen (ls : List JStr) : Nat :=
  match ((ls.drop 1).take (ls.length - 2)).filter
      (fun l => decide (jtrim l ≠ [])) with
  | [] => 0
  | l :: rest =>
    rest.foldl (fun m l2 => min m (leadTabSpace l2).length)
      (leadTabSpace l).length

/-- The dedent exactly as the specification words it: strip the common
minimum indentation from every interior line. -/
def dedentCodeLinesSpec (ls : List JStr) : List JStr :=
  ls.enum.map (fun p =>
    if p.1 = 0 ∨ p.1 = ls.length - 1 then trimStartL p.2
    else p.2.drop (minIndentLen ls))

/-- The single rendered line of a heading-less block at depth `d`. -/
def lineOf (d : Nat) (t : JStr) : JStr :=
  List.replicate (2 * d) ' ' ++ '-' :: ' ' :: t

mutual

/-- The individual lines of the rendering of one block subtree. -/
def linesNode (d : Nat) : ExistingBlock → List JStr
  | .mk _ t _ _ cs _ => lineOf d t :: linesList (d + 1) cs

def linesList (d : Nat) : List ExistingBlock → List JStr
  | [] => []
  | b :: bs => linesNode d b ++ linesList d bs

end

/-- Characters that keep a text inert for every inline conversion pass
and unambiguous for the line parser. -/
def cleanChars (t : JStr) : Bool :=
  t.all (fun c => !(c = '*' || c = '_' || c = '=' || c = tick ||
    c = '|' || c = '#' || c = '[' || c = '\n' || c = '\r' || c = '\t'))

mutual

/-- The clean-snapshot check: parent stamp and order as recorded, no
heading, inert trimmed non-empty text, recursively for the children. -/
def snapNode (pu : Option JStr) (ord : Int) : ExistingBlock → Bool
  | .mk u t o h cs p =>
    (p == pu) && (o == ord) && (h == none) && cleanChars t &&
      (jtrim t == t) && !(t == []) && snapList (some u) 0 cs

def snapList (pu : Option JStr) (ord : Int) : List ExistingBlock → Bool
  | [] => true
  | b :: bs => snapNode pu ord b && snapList pu (ord + 1) bs

end

/-- Repeated `children.push` onto the node at index `j`. -/
def pushAll (a : List MdNodeRec) (j : Nat) (idxs : List Nat) :
    List MdNodeRec :=
  idxs.foldl (fun a k => pushChild a j k) a

/-- The arena indices at which consecutive sibling subtrees start when
laid out from `base`. -/
def childStarts (base : Nat) : List ExistingBlock → List Nat
  | [] => []
  | b :: bs => base :: childStarts (base + (flattenOne b).length) bs

mutual

/-- The arena segment the parse loop builds for one clean subtree laid
out from index `base` at depth `d`. -/
def arenaNode (d base : Nat) : ExistingBlock → List MdNodeRec
  | .mk _ t _ _ cs _ =>
    { content := t, level := d, heading := 0,
      childIdx := childStarts (base + 1) cs } ::
      arenaList (d + 1) (base + 1) cs

def arenaList (d base : Nat) : List ExistingBlock → List MdNodeRec
  | [] => []
  | b :: bs => arenaNode d base b ++ arenaList d (base + (flattenOne b).length) bs

end

mutual

/-- The markdown node a clean subtree parses back to. -/
def mirrorNode (d : Nat) : ExistingBlock → MarkdownNode
  | .mk _ t _ _ cs _ => .node t d 0 (mirrorList (d + 1) cs)

def mirrorList (d : Nat) : List ExistingBlock → List MarkdownNode
  | [] => []
  | b :: bs => mirrorNode d b :: mirrorList d bs

end

mutual

/-- The desired blocks `markdownToBlocks` produces for the reparsed
mirror of one clean subtree, with the uid counter at `ctr`. -/
def nbsNode (gen : Nat → JStr) (pref : BlockRef) (sib ctr : Nat) :
    ExistingBlock → List NewBlock
  | .mk _ t _ _ cs _ =>
    { ref := ⟨gen ctr⟩, text := t, parentRef := some pref,
      order := (sib : Int), bopen := true, heading := none } ::
      nbsList gen ⟨gen ctr⟩ 0 (ctr + 1) cs

def nbsList (gen : Nat → JStr) (pref : BlockRef) (sib ctr : Nat) :
    List ExistingBlock → List NewBlock
  | [] => []
  | b :: bs =>
    nbsNode gen pref sib ctr b ++
      nbsList gen pref (sib + 1) (ctr + (flattenOne b).length) bs

end

/-! ### General lemmas about the string model -/

theorem splitOnNl_ne_nil (s : JStr) : splitOnNl s ≠ [] := by
  induction s with
  | nil => simp [splitOnNl]
  | cons c rest ih =>
    simp only [splitOnNl]
    by_cases h : c = '\n'
    · simp [h]
    · simp only [h, if_false]
      cases hr : splitOnNl rest <;> simp

theorem joinNl_splitOnNl (s : JStr) : joinNl (splitOnNl s) = s := by
  induction s with
  | nil => simp [splitOnNl, joinNl]
  | cons c rest ih =>
    simp only [splitOnNl]
    by_cases h : c = '\n'
    · subst h
      cases hr : splitOnNl rest with
      | nil => exact absurd hr (splitOnNl_ne_nil rest)
      | cons g gs =>
        simp only [joinNl]
        cases gs with
        | nil => simpa [joinNl, hr] using ih
        | cons g2 gs2 => simpa [joinNl, hr] using ih
    · simp only [h, if_false]
      cases hr : splitOnNl rest with
      | nil => exact absurd hr (splitOnNl_ne_nil rest)
      | cons g gs =>
        cases gs with
        | nil => simpa [joinNl, hr] using ih
        | cons g2 gs2 => simpa [joinNl, hr] using ih

theorem splitOnNl_single (l : JStr) (hl : '\n' ∉ l) : splitOnNl l = [l] := by
  induction l with
  | nil => simp [splitOnNl]
  | cons c cs ih =>
    have hc : c ≠ '\n' := fun h => hl (by simp [h])
    have hcs : '\n' ∉ cs := fun h => hl (by simp [h])
    simp [splitOnNl, hc, ih hcs]

theorem splitOnNl_append_nl (l rest : JStr) (hl : '\n' ∉ l) :
    splitOnNl (l ++ '\n' :: rest) = l :: splitOnNl rest := by
  induction l with
  | nil => simp [splitOnNl]
  | cons c cs ih =>
    have hc : c ≠ '\n' := fun h => hl (by simp [h])
    have hcs : '\n' ∉ cs := fun h => hl (by simp [h])
    simp only [List.cons_append, splitOnNl, hc, if_false]
    rw [show cs.append ('\n' :: rest) = cs ++ '\n' :: rest from rfl, ih hcs]

theorem splitOnNl_joinNl (ls : List JStr) (hne : ls ≠ [])
    (hnl : ∀ l ∈ ls, '\n' ∉ l) : splitOnNl (joinNl ls) = ls := by
  induction ls with
  | nil => exact absurd rfl hne
  | cons l ls ih =>
    have hl : '\n' ∉ l := hnl l (by simp)
    cases ls with
    | nil => simpa [joinNl] using splitOnNl_single l hl
    | cons l2 ls2 =>
      have ihtail : splitOnNl (joinNl (l2 :: ls2)) = l2 :: ls2 :=
        ih (by simp) (fun x hx => hnl x (by simp [hx]))
      simp only [joinNl]
      rw [splitOnNl_append_nl l _ hl, ihtail]

theorem findEmphClose_len (m : Char) :
    ∀ (prev : Char) (s content rem : JStr),
      findEmphClose m prev s = some (content, rem) → rem.length < s.length := by
  intro prev s
  induction s generalizing prev with
  | nil => intro content rem h; simp [findEmphClose] at h
  | cons c rest ih =>
    intro content rem h
    simp only [findEmphClose] at h
    by_cases h1 : c = '\n'
    · simp [h1] at h
    · simp only [h1, if_false] at h
      by_cases h2 : (c = m && prev ≠ m && rest.head? ≠ some m) = true
      · simp only [h2, if_true] at h
        cases h
        simp [Nat.lt_succ_self]
      · simp only [h2, if_false] at h
        cases hf : findEmphClose m c rest with
        | none => simp [hf] at h
        | some p =>
          cases p with
          | mk ct rm =>
            simp only [hf] at h
            cases h
            exact Nat.lt_succ_of_lt (ih c ct rem hf)

theorem findHlClose_len :
    ∀ (ne : Bool) (s content rem : JStr),
      findHlClose ne s = some (content, rem) → rem.length < s.length := by
  intro ne s
  induction s generalizing ne with
  | nil => intro content rem h; simp [findHlClose] at h
  | cons c rest ih =>
    intro content rem h
    simp only [findHlClose] at h
    by_cases h1 : (ne && c = '=' && rest.head? = some '=') = true
    · simp only [h1, if_true] at h
      cases h
      simp only [List.length_cons]
      calc rest.tail.length ≤ rest.length := by
            cases rest <;> simp [Nat.le_succ]
        _ < rest.length + 1 := Nat.lt_succ_self _
    · simp only [h1, if_false] at h
      by_cases h2 : c = '\n'
      · simp [h2] at h
      · simp only [h2, if_false] at h
        cases hf : findHlClose true rest with
        | none => simp [hf] at h
        | some p =>
          cases p with
          | mk ct rm =>
            simp only [hf] at h
            cases h
            exact Nat.lt_succ_of_lt (ih true ct rem hf)

theorem len_dropWhile_le (p : Char → Bool) (l : JStr) :
    (l.dropWhile p).length ≤ l.length := by
  induction l with
  | nil => simp [List.dropWhile]
  | cons c cs ih =>
    simp only [List.dropWhile]
    by_cases h : p c
    · simp only [h, if_true]
      exact Nat.le_succ_of_le ih
    · simp [h]

theorem double_drop_lt (s : JStr)
    (h : s.dropWhile (fun c => c ≠ '\n') ≠ []) :
    ((s.dropWhile (fun c => c ≠ '\n')).dropWhile (fun c => c = '\n')).length
      < s.length := by
  induction s with
  | nil => simp [List.dropWhile] at h
  | cons c cs ih =>
    by_cases hc : c = '\n'
    · subst hc
      simp only [List.dropWhile, decide_not, decide_True, Bool.not_true,
        Bool.false_eq_true, if_false, if_true]
      calc (cs.dropWhile (fun c => c = '\n')).length
          ≤ cs.length := len_dropWhile_le _ _
        _ < cs.length + 1 := Nat.lt_succ_self _
    · have hstep : (c :: cs).dropWhile (fun c => c ≠ '\n') =
          cs.dropWhile (fun c => c ≠ '\n') := by
        simp [List.dropWhile, hc]
      rw [hstep] at h ⊢
      exact Nat.lt_succ_of_lt (ih h)

/-! ### Closed forms of the `diffBlockTrees` loops -/

theorem processNew_step (parentUid : JStr) (ms : JMap JStr)
    (exByUid : JMap ExistingBlock) (toDP : JMap JStr)
    (sibs : JMap (List JStr)) (acc : DiffResult) (nb : NewBlock) :
    processNew parentUid ms exByUid toDP sibs acc nb =
      { creates := acc.creates ++ (createOf parentUid ms toDP sibs nb).toList,
        updates := acc.updates ++ (updateOf ms exByUid nb).toList,
        moves := acc.moves ++ (moveOf parentUid ms exByUid toDP sibs nb).toList,
        deletes := acc.deletes,
        preservedUids :=
          match preservedOf ms exByUid nb with
          | some u => sadd acc.preservedUids u
          | none => acc.preservedUids } := by
  unfold processNew createOf updateOf moveOf preservedOf matchedBlock
  cases hm : ms.get? nb.ref.blockUid with
  | none => simp [hm]
  | some existUid =>
    cases he : exByUid.get? existUid with
    | none => simp [hm, he]
    | some eb =>
      simp only [hm, he]
      cases hu : mkUpdate nb eb with
      | none =>
        simp only [hu]
        split
        · simp
        · simp
      | some u =>
        simp only [hu]
        split
        · simp
        · simp

theorem foldl_processNew (parentUid : JStr) (ms : JMap JStr)
    (exByUid : JMap ExistingBlock) (toDP : JMap JStr)
    (sibs : JMap (List JStr)) (nbs : List NewBlock) (acc : DiffResult) :
    nbs.foldl (processNew parentUid ms exByUid toDP sibs) acc =
      { creates := acc.creates ++ nbs.filterMap (createOf parentUid ms toDP sibs),
        updates := acc.updates ++ nbs.filterMap (updateOf ms exByUid),
        moves := acc.moves ++ nbs.filterMap (moveOf parentUid ms exByUid toDP sibs),
        deletes := acc.deletes,
        preservedUids :=
          (nbs.filterMap (preservedOf ms exByUid)).foldl sadd acc.preservedUids } := by
  induction nbs generalizing acc with
  | nil => simp
  | cons nb nbs ih =>
    rw [List.foldl_cons, ih, processNew_step]
    cases hp : preservedOf ms exByUid nb with
    | none =>
      simp only [List.filterMap_cons, hp]
      cases createOf parentUid ms toDP sibs nb <;>
        cases updateOf ms exByUid nb <;>
          cases moveOf parentUid ms exByUid toDP sibs nb <;> simp
    | some u =>
      simp only [List.filterMap_cons, hp]
      cases createOf parentUid ms toDP sibs nb <;>
        cases updateOf ms exByUid nb <;>
          cases moveOf parentUid ms exByUid toDP sibs nb <;> simp

theorem foldl_deletes (matched : List JStr) (ex : List ExistingBlock)
    (acc : DiffResult) :
    ex.foldl (fun acc eb =>
        if eb.uid ∈ matched then acc
        else { acc with deletes := acc.deletes ++ [.delete eb.uid] }) acc =
      { acc with deletes := acc.deletes ++ unmatchedDeletes matched ex } := by
  induction ex generalizing acc with
  | nil => simp [unmatchedDeletes]
  | cons eb ex ih =>
    rw [List.foldl_cons]
    by_cases h : eb.uid ∈ matched
    · simp only [h, if_true, ih]
      simp [unmatchedDeletes, List.filter_cons, h]
    · simp only [h, if_false, ih]
      simp [unmatchedDeletes, List.filter_cons, h]

/-- The result of `diffBlockTrees` written as per-node `filterMap`s. -/
theorem diffBlockTrees_eq (existing : List ExistingBlock)
    (newBlocks : List NewBlock) (parentUid : JStr) :
    diffBlockTrees existing newBlocks parentUid =
      { creates := newBlocks.filterMap
          (createOf parentUid (matchBlocks (flattenExistingBlocks existing) newBlocks)
            (buildDesiredMaps parentUid (matchBlocks (flattenExistingBlocks existing) newBlocks) newBlocks).1
            (buildDesiredMaps parentUid (matchBlocks (flattenExistingBlocks existing) newBlocks) newBlocks).2),
        updates := newBlocks.filterMap
          (updateOf (matchBlocks (flattenExistingBlocks existing) newBlocks)
            ((flattenExistingBlocks existing).foldl (fun m eb => m.set eb.uid eb) JMap.empty)),
        moves := newBlocks.filterMap
          (moveOf parentUid (matchBlocks (flattenExistingBlocks existing) newBlocks)
            ((flattenExistingBlocks existing).foldl (fun m eb => m.set eb.uid eb) JMap.empty)
            (buildDesiredMaps parentUid (matchBlocks (flattenExistingBlocks existing) newBlocks) newBlocks).1
            (buildDesiredMaps parentUid (matchBlocks (flattenExistingBlocks existing) newBlocks) newBlocks).2),
        deletes := unmatchedDeletes
          (matchBlocks (flattenExistingBlocks existing) newBlocks).valuesL
          (flattenExistingBlocks existing),
        preservedUids := (newBlocks.filterMap
          (preservedOf (matchBlocks (flattenExistingBlocks existing) newBlocks)
            ((flattenExistingBlocks existing).foldl (fun m eb => m.set eb.uid eb) JMap.empty))).foldl
          sadd [] } := by
  unfold diffBlockTrees
  simp only []
  rw [foldl_processNew, foldl_deletes]
  simp

/-! ### Lemmas about the JavaScript collection models -/

theorem JMap.get?_empty {β : Type} (k : JStr) :
    (JMap.empty : JMap β).get? k = none := rfl

theorem find_replace_self {β : Type} (l : List (JStr × β)) (k : JStr) (v : β)
    (h : (l.find? (fun e => decide (e.1 = k))).isSome) :
    (l.map (fun e => if e.1 = k then (k, v) else e)).find?
      (fun e => decide (e.1 = k)) = some (k, v) := by
  induction l with
  | nil => simp at h
  | cons e l ih =>
    by_cases he : e.1 = k
    · simp only [List.map_cons, he, if_true]
      exact List.find?_cons_of_pos _ (by simp)
    · simp only [List.map_cons, he, if_false]
      rw [List.find?_cons_of_neg _ (by simpa using he)]
      apply ih
      rw [List.find?_cons_of_neg _ (by simpa using he)] at h
      exact h

theorem find_replace_ne {β : Type} (l : List (JStr × β)) (k k2 : JStr) (v : β)
    (h : k2 ≠ k) :
    (l.map (fun e => if e.1 = k then (k, v) else e)).find?
      (fun e => decide (e.1 = k2)) = l.find? (fun e => decide (e.1 = k2)) := by
  induction l with
  | nil => simp
  | cons e l ih =>
    by_cases he : e.1 = k
    · simp only [List.map_cons, he, if_true]
      rw [List.find?_cons_of_neg _ (by simp [Ne.symm h]),
        List.find?_cons_of_neg _ (by simp [he, Ne.symm h]), ih]
    · simp only [List.map_cons, he, if_false]
      by_cases he2 : e.1 = k2
      · rw [List.find?_cons_of_pos _ (by simpa using he2),
          List.find?_cons_of_pos _ (by simpa using he2)]
      · rw [List.find?_cons_of_neg _ (by simpa using he2),
          List.find?_cons_of_neg _ (by simpa using he2), ih]

theorem JMap.get?_set_self {β : Type} (m : JMap β) (k : JStr) (v : β) :
    (m.set k v).get? k = some v := by
  by_cases hs : (m.get? k).isSome
  · have hf : (m.entries.find? (fun e => decide (e.1 = k))).isSome := by
      unfold JMap.get? at hs
      cases hx : m.entries.find? (fun e => decide (e.1 = k)) with
      | none => rw [hx] at hs; simp at hs
      | some e => rfl
    unfold JMap.set
    rw [if_pos hs]
    unfold JMap.get?
    dsimp only
    simp [find_replace_self m.entries k v hf]
  · unfold JMap.set
    rw [if_neg hs]
    have hf : m.entries.find? (fun e => decide (e.1 = k)) = none := by
      cases hx : m.entries.find? (fun e => decide (e.1 = k)) with
      | none => rfl
      | some e => exact absurd (by simp [JMap.get?, hx]) hs
    unfold JMap.get?
    dsimp only
    rw [List.find?_append, hf]
    simp [List.find?]

theorem JMap.get?_set_ne {β : Type} (m : JMap β) (k k2 : JStr) (v : β)
    (h : k2 ≠ k) : (m.set k v).get? k2 = m.get? k2 := by
  by_cases hs : (m.get? k).isSome
  · unfold JMap.set
    rw [if_pos hs]
    unfold JMap.get?
    dsimp only
    rw [find_replace_ne m.entries k k2 v h]
  · unfold JMap.set
    rw [if_neg hs]
    unfold JMap.get?
    dsimp only
    rw [List.find?_append]
    cases hf2 : m.entries.find? (fun e => decide (e.1 = k2)) with
    | none => simp [List.find?, Ne.symm h]
    | some e => simp

theorem mem_sadd (l : List JStr) (x y : JStr) :
    y ∈ sadd l x ↔ y ∈ l ∨ y = x := by
  unfold sadd
  by_cases h : x ∈ l
  · simp only [h, if_true]
    constructor
    · exact fun hy => Or.inl hy
    · rintro (hy | rfl)
      · exact hy
      · exact h
  · simp [h]

theorem mem_foldl_sadd (xs : List JStr) (l : List JStr) (y : JStr) :
    y ∈ xs.foldl sadd l ↔ y ∈ l ∨ y ∈ xs := by
  induction xs generalizing l with
  | nil => simp
  | cons x xs ih =>
    rw [List.foldl_cons, ih, mem_sadd]
    constructor
    · rintro ((hy | rfl) | hy)
      · exact Or.inl hy
      · exact Or.inr (by simp)
      · exact Or.inr (by simp [hy])
    · rintro (hy | hy)
      · exact Or.inl (Or.inl hy)
      · rcases List.mem_cons.mp hy with rfl | hy
        · exact Or.inl (Or.inr rfl)
        · exact Or.inr hy

theorem jsIndexOf_notMem (l : List JStr) (x : JStr) (h : x ∉ l) :
    jsIndexOf l x = -1 := by
  induction l with
  | nil => rfl
  | cons y ys ih =>
    have hy : y ≠ x := fun hh => h (by simp [hh])
    have hx : x ∉ ys := fun hh => h (by simp [hh])
    simp [jsIndexOf, hy, ih hx]

theorem jsIndexOf_append_cons (pre post : List JStr) (x : JStr)
    (h : x ∉ pre) : jsIndexOf (pre ++ x :: post) x = (pre.length : Int) := by
  induction pre with
  | nil => simp [jsIndexOf]
  | cons y ys ih =>
    have hy : y ≠ x := fun hh => h (by simp [hh])
    have hx : x ∉ ys := fun hh => h (by simp [hh])
    have hrec := ih hx
    simp only [List.cons_append, jsIndexOf, hy, if_false, List.length_cons,
      List.append_eq]
    rw [hrec, if_neg (by omega)]
    push_cast
    ring

theorem jsIndexOf_cases (l : List JStr) (x : JStr) :
    jsIndexOf l x = -1 ∨ 0 ≤ jsIndexOf l x := by
  induction l with
  | nil => left; rfl
  | cons y ys ih =>
    by_cases hy : y = x
    · right; simp [jsIndexOf, hy]
    · simp only [jsIndexOf, hy, if_false]
      rcases ih with h | h
      · left; simp [h]
      · right
        have hne : jsIndexOf ys x ≠ -1 := by omega
        simp only [hne, if_false]
        omega

theorem jsIndexOf_nonneg_iff (l : List JStr) (x : JStr) :
    0 ≤ jsIndexOf l x ↔ x ∈ l := by
  induction l with
  | nil => simp [jsIndexOf]
  | cons y ys ih =>
    by_cases hy : y = x
    · simp [jsIndexOf, hy]
    · simp only [jsIndexOf, hy, if_false]
      rcases jsIndexOf_cases ys x with h | h
      · have hys : x ∉ ys := fun hm => by
          have := ih.mpr hm
          omega
        have hxy : x ≠ y := fun hh => hy hh.symm
        simp [h, hxy, hys]
      · have hne : jsIndexOf ys x ≠ -1 := by omega
        simp only [hne, if_false]
        have hmem := ih.mp h
        constructor
        · intro _
          exact List.mem_cons_of_mem _ hmem
        · intro _
          omega

/-! ### The `uid -> ExistingBlock` lookup map of `diffBlockTrees` -/

theorem exByUid_get_notin (ex : List ExistingBlock) (m0 : JMap ExistingBlock)
    (u : JStr) (h : u ∉ ex.map ExistingBlock.uid) :
    (ex.foldl (fun m eb => m.set eb.uid eb) m0).get? u = m0.get? u := by
  induction ex generalizing m0 with
  | nil => rfl
  | cons e es ih =>
    have hu : u ≠ e.uid := by
      intro hh
      exact h (by simp [hh])
    have hes : u ∉ es.map ExistingBlock.uid := fun hh => h (by simp [hh])
    rw [List.foldl_cons, ih _ hes, JMap.get?_set_ne _ _ _ _ hu]

theorem exByUid_get_mem (ex : List ExistingBlock) (m0 : JMap ExistingBlock)
    (eb : ExistingBlock) (hnd : (ex.map ExistingBlock.uid).Nodup)
    (hmem : eb ∈ ex) :
    (ex.foldl (fun m eb => m.set eb.uid eb) m0).get? eb.uid = some eb := by
  induction ex generalizing m0 with
  | nil => simp at hmem
  | cons e es ih =>
    rw [List.foldl_cons]
    rcases List.mem_cons.mp hmem with rfl | hmem2
    · have hnin : eb.uid ∉ es.map ExistingBlock.uid := by
        simpa using (List.nodup_cons.mp hnd).1
      rw [exByUid_get_notin es _ _ hnin, JMap.get?_set_self]
    · exact ih _ (List.nodup_cons.mp hnd).2 hmem2

/-! ### Claim C7: the heading-removal sentinel -/

/-- **C7.** A desired node with `heading = null` matched against an
existing block with `heading = 2` produces an update operation (emitted by
`diffBlockTrees`) whose heading field is present and equal to `0`; and an
update's heading field is present only when the desired and existing
headings differ. -/
theorem c7_heading_sentinel
    (existing : List ExistingBlock) (newBlocks : List NewBlock)
    (parentUid : JStr) (nb : NewBlock) (eb : ExistingBlock)
    (hnb : nb ∈ newBlocks)
    (hnd : ((flattenExistingBlocks existing).map ExistingBlock.uid).Nodup)
    (hmem : eb ∈ flattenExistingBlocks existing)
    (hmatch : (matchBlocks (flattenExistingBlocks existing) newBlocks).get?
        nb.ref.blockUid = some eb.uid)
    (hnbh : nb.heading = none) (hebh : eb.heading = some 2) :
    (∃ s, RoamAction.update eb.uid s (some 0) ∈
        (diffBlockTrees existing newBlocks parentUid).updates) ∧
      (∀ (nb2 : NewBlock) (eb2 : ExistingBlock) (u : JStr) (s : Option JStr)
          (hh : Nat), mkUpdate nb2 eb2 = some (.update u s (some hh)) →
            nb2.heading ≠ eb2.heading) := by
  constructor
  · have hup : mkUpdate nb eb =
        some (.update eb.uid
          (if normalizeText nb.text ≠ normalizeText eb.text
           then some nb.text else none) (some 0)) := by
      unfold mkUpdate
      rw [hnbh, hebh]
      simp
    refine ⟨(if normalizeText nb.text ≠ normalizeText eb.text
             then some nb.text else none), ?_⟩
    rw [diffBlockTrees_eq]
    apply List.mem_filterMap.mpr
    refine ⟨nb, hnb, ?_⟩
    unfold updateOf matchedBlock
    simp only [hmatch, exByUid_get_mem _ _ _ hnd hmem, hup]
  · intro nb2 eb2 u s hh hmk heq
    unfold mkUpdate at hmk
    rw [heq] at hmk
    simp at hmk

/-- Witness for C7: the heading-2 block `uid1` matched against a
heading-less desired node yields an update carrying heading `0`. -/
theorem c7_heading_sentinel_witness :
    ∃ s, RoamAction.update "uid1".data s (some 0) ∈
      (diffBlockTrees
        [ExistingBlock.mk "uid1".data "Title".data 0 (some 2) [] none]
        [{ ref := ⟨"new1".data⟩, text := "Title".data,
           parentRef := some ⟨"page123".data⟩, order := 0, bopen := true,
           heading := none }] "page123".data).updates :=
  (c7_heading_sentinel
    [ExistingBlock.mk "uid1".data "Title".data 0 (some 2) [] none]
    [{ ref := ⟨"new1".data⟩, text := "Title".data,
       parentRef := some ⟨"page123".data⟩, order := 0, bopen := true,
       heading := none }]
    "page123".data
    { ref := ⟨"new1".data⟩, text := "Title".data,
      parentRef := some ⟨"page123".data⟩, order := 0, bopen := true,
      heading := none }
    (ExistingBlock.mk "uid1".data "Title".data 0 (some 2) [] none)
    (by decide) (by decide)
    (show _ ∈ [ExistingBlock.mk "uid1".data "Title".data 0 (some 2) [] none]
      from List.mem_singleton.mpr rfl)
    (by decide) rfl rfl).1

/-! ### Claim C1: child deletes precede parent deletes after serialisation -/

theorem flattenList_append (a b : List ExistingBlock) :
    flattenList (a ++ b) = flattenList a ++ flattenList b := by
  induction a with
  | nil => simp [flattenList]
  | cons x xs ih => simp [flattenList, ih]

/-- Any member of a flattened forest contributes its own flattening as a
contiguous segment. -/
theorem flattenOne_infix_of_mem_aux (n : Nat) :
    ∀ (ex : List ExistingBlock), sizeOf ex ≤ n →
      ∀ P ∈ flattenList ex,
        ∃ l1 l2, flattenList ex = l1 ++ (flattenOne P ++ l2) := by
  induction n with
  | zero =>
    intro ex hex P hP
    cases ex with
    | nil => simp [flattenList] at hP
    | cons b bs => simp at hex
  | succ n ih =>
    intro ex hex P hP
    cases ex with
    | nil => simp [flattenList] at hP
    | cons b bs =>
      rw [show flattenList (b :: bs) = flattenOne b ++ flattenList bs from rfl]
        at hP ⊢
      rcases List.mem_append.mp hP with hPb | hPbs
      · cases b with
        | mk u t o h cs p =>
          rw [show flattenOne (.mk u t o h cs p) =
              .mk u t o h cs p :: flattenList cs from rfl] at hPb
          rcases List.mem_cons.mp hPb with rfl | hPcs
          · exact ⟨[], flattenList bs, by simp⟩
          · have hsz : sizeOf cs ≤ n := by
              have : sizeOf (ExistingBlock.mk u t o h cs p :: bs) ≤ n + 1 := hex
              simp only [List.cons.sizeOf_spec, ExistingBlock.mk.sizeOf_spec]
                at this
              omega
            obtain ⟨l1, l2, hdec⟩ := ih cs hsz P hPcs
            refine ⟨.mk u t o h cs p :: l1, l2 ++ flattenList bs, ?_⟩
            rw [show flattenOne (.mk u t o h cs p) =
                .mk u t o h cs p :: flattenList cs from rfl, hdec]
            simp
      · have hsz : sizeOf bs ≤ n := by
          have : sizeOf (b :: bs) ≤ n + 1 := hex
          simp only [List.cons.sizeOf_spec] at this
          have hb : 1 ≤ sizeOf b := by
            cases b
            simp only [ExistingBlock.mk.sizeOf_spec]
            omega
          omega
        obtain ⟨l1, l2, hdec⟩ := ih bs hsz P hPbs
        exact ⟨flattenOne b ++ l1, l2, by rw [hdec]; simp⟩

theorem flattenOne_infix_of_mem (ex : List ExistingBlock) (P : ExistingBlock)
    (hP : P ∈ flattenList ex) :
    ∃ l1 l2, flattenList ex = l1 ++ (flattenOne P ++ l2) :=
  flattenOne_infix_of_mem_aux (sizeOf ex) ex (Nat.le_refl _) P hP

/-- An ancestor precedes each of its strict descendants in the flattening:
the flattened forest splits as `A ++ P :: (B ++ C :: D)`. -/
theorem ancestor_before_descendant (ex : List ExistingBlock)
    (P C : ExistingBlock) (hP : P ∈ flattenList ex)
    (hC : C ∈ flattenList P.children) :
    ∃ A B D, flattenList ex = A ++ P :: (B ++ C :: D) := by
  obtain ⟨l1, l2, h1⟩ := flattenOne_infix_of_mem ex P hP
  obtain ⟨m1, m2, h2⟩ := flattenOne_infix_of_mem P.children C hC
  cases P with
  | mk u t o h cs p =>
    rw [show flattenOne (.mk u t o h cs p) =
        .mk u t o h cs p :: flattenList cs from rfl] at h1
    rw [show (ExistingBlock.mk u t o h cs p).children = cs from rfl] at h2
    cases C with
    | mk u2 t2 o2 h2h cs2 p2 =>
      rw [show flattenOne (.mk u2 t2 o2 h2h cs2 p2) =
          .mk u2 t2 o2 h2h cs2 p2 :: flattenList cs2 from rfl] at h2
      refine ⟨l1, m1, flattenList cs2 ++ m2 ++ l2, ?_⟩
      rw [h1, h2]
      simp

/-- The first three segments of `generateBatchActions` contain no delete
action. -/
theorem no_delete_in_prefix (existing : List ExistingBlock)
    (newBlocks : List NewBlock) (parentUid : JStr) (u : JStr) :
    RoamAction.delete u ∉
      (diffBlockTrees existing newBlocks parentUid).creates ++
        (diffBlockTrees existing newBlocks parentUid).moves ++
          (diffBlockTrees existing newBlocks parentUid).updates := by
  rw [diffBlockTrees_eq]
  intro hmem
  simp only [List.mem_append, List.mem_filterMap] at hmem
  rcases hmem with (⟨nb, _, hcr⟩ | ⟨nb, _, hmv⟩) | ⟨nb, _, hup⟩
  · unfold createOf at hcr
    split at hcr
    · simp at hcr
    · simp at hcr
  · unfold moveOf at hmv
    split at hmv
    · simp only [] at hmv
      split at hmv <;> simp at hmv
    · simp at hmv
  · unfold updateOf at hup
    split at hup
    next _ eb _ =>
      unfold mkUpdate at hup
      split at hup <;> simp at hup
    next => simp at hup

/-- In `u ++ x :: v` with `x` absent from `u` and `v`, the only index
holding `x` is `u.length`. -/
theorem get?_unique {α : Type} (u v : List α) (x : α) (hu : x ∉ u)
    (hv : x ∉ v) (i : Nat) (h : (u ++ x :: v).get? i = some x) :
    i = u.length := by
  rcases Nat.lt_trichotomy i u.length with hlt | heq | hgt
  · rw [List.get?_append hlt] at h
    exact absurd (List.get?_mem h) hu
  · exact heq
  · rw [List.get?_append_right (Nat.le_of_lt hgt)] at h
    have : i - u.length ≠ 0 := by omega
    cases hd : i - u.length with
    | zero => exact absurd hd this
    | succ k =>
      rw [hd] at h
      simp only [List.get?_cons_succ] at h
      exact absurd (List.get?_mem h) hv

/-- Members of the first segment force indices below its length. -/
theorem get?_append_cases {α : Type} (l1 l2 : List α) (x : α) (i : Nat)
    (hx : x ∉ l1) (h : (l1 ++ l2).get? i = some x) :
    l1.length ≤ i ∧ l2.get? (i - l1.length) = some x := by
  rcases Nat.lt_or_ge i l1.length with hlt | hge
  · rw [List.get?_append hlt] at h
    exact absurd (List.get?_mem h) hx
  · exact ⟨hge, by rw [← List.get?_append_right hge]; exact h⟩

/-- **C1.** If existing block `P` is an ancestor of existing block `C`
(`C` occurs in the flattening of `P`'s children), the snapshot's
identifiers are pairwise distinct, and both blocks' delete operations
appear in the diff, then in the serialized action sequence produced by
`generateBatchActions` every occurrence of `C`'s delete precedes every
occurrence of `P`'s delete. -/
theorem c1_delete_child_before_parent
    (existing : List ExistingBlock) (newBlocks : List NewBlock)
    (parentUid : JStr) (P C : ExistingBlock)
    (hnd : ((flattenExistingBlocks existing).map ExistingBlock.uid).Nodup)
    (hP : P ∈ flattenExistingBlocks existing)
    (hC : C ∈ flattenList P.children)
    (hPdel : RoamAction.delete P.uid ∈
      (diffBlockTrees existing newBlocks parentUid).deletes)
    (hCdel : RoamAction.delete C.uid ∈
      (diffBlockTrees existing newBlocks parentUid).deletes)
    (i j : Nat)
    (hi : (generateBatchActions
        (diffBlockTrees existing newBlocks parentUid)).get? i =
      some (.delete C.uid))
    (hj : (generateBatchActions
        (diffBlockTrees existing newBlocks parentUid)).get? j =
      some (.delete P.uid)) :
    i < j := by
  obtain ⟨A, B, D, hdec⟩ := ancestor_before_descendant existing P C hP hC
  have hflat : flattenExistingBlocks existing = A ++ P :: (B ++ C :: D) := hdec
  -- uid distinctness facts
  rw [hflat] at hnd
  simp only [List.map_append, List.map_cons] at hnd
  have hCP : C.uid ≠ P.uid := by
    have := hnd
    rw [List.nodup_append] at this
    have h2 := this.2.1
    rw [List.nodup_cons] at h2
    intro heq
    exact h2.1 (by rw [← heq]; simp)
  have hCA : C.uid ∉ A.map ExistingBlock.uid := by
    rw [List.nodup_append] at hnd
    intro hmem
    exact hnd.2.2 hmem (by simp)
  have hPA : P.uid ∉ A.map ExistingBlock.uid := by
    rw [List.nodup_append] at hnd
    intro hmem
    exact hnd.2.2 hmem (by simp)
  have hCB : C.uid ∉ B.map ExistingBlock.uid := by
    rw [List.nodup_append] at hnd
    have h2 := hnd.2.1
    rw [List.nodup_cons, List.nodup_append] at h2
    intro hmem
    exact h2.2.2.2 hmem (by simp)
  have hCD : C.uid ∉ D.map ExistingBlock.uid := by
    rw [List.nodup_append] at hnd
    have h2 := hnd.2.1
    rw [List.nodup_cons, List.nodup_append] at h2
    have h3 := h2.2.2.1
    rw [List.nodup_cons] at h3
    exact h3.1
  have hPB : P.uid ∉ B.map ExistingBlock.uid := by
    rw [List.nodup_append] at hnd
    have h2 := hnd.2.1
    rw [List.nodup_cons] at h2
    intro hmem
    exact h2.1 (by simp [hmem])
  have hPD : P.uid ∉ D.map ExistingBlock.uid := by
    rw [List.nodup_append] at hnd
    have h2 := hnd.2.1
    rw [List.nodup_cons] at h2
    intro hmem
    exact h2.1 (by simp [hmem])
  -- the deletes list decomposes along the flattening
  set ms := matchBlocks (flattenExistingBlocks existing) newBlocks with hms
  have hdel : (diffBlockTrees existing newBlocks parentUid).deletes =
      unmatchedDeletes ms.valuesL (A ++ P :: (B ++ C :: D)) := by
    rw [diffBlockTrees_eq]
    rw [← hflat]
  have hPun : P.uid ∉ ms.valuesL := by
    rw [hdel] at hPdel
    unfold unmatchedDeletes at hPdel
    simp only [List.mem_map, List.mem_filter] at hPdel
    obtain ⟨b, ⟨_, hbun⟩, hbu⟩ := hPdel
    have : b.uid = P.uid := by
      injection hbu
    rw [← this]
    simpa using hbun
  have hCun : C.uid ∉ ms.valuesL := by
    rw [hdel] at hCdel
    unfold unmatchedDeletes at hCdel
    simp only [List.mem_map, List.mem_filter] at hCdel
    obtain ⟨b, ⟨_, hbun⟩, hbu⟩ := hCdel
    have : b.uid = C.uid := by
      injection hbu
    rw [← this]
    simpa using hbun
  -- split the deletes into segments
  have hsplit : (diffBlockTrees existing newBlocks parentUid).deletes =
      unmatchedDeletes ms.valuesL A ++
        RoamAction.delete P.uid ::
          (unmatchedDeletes ms.valuesL B ++
            RoamAction.delete C.uid :: unmatchedDeletes ms.valuesL D) := by
    rw [hdel]
    unfold unmatchedDeletes
    simp only [List.filter_append, List.filter_cons, List.map_append]
    rw [if_pos (by simpa using hPun), if_pos (by simpa using hCun)]
    simp
  -- membership of a delete action in a segment forces its uid into it
  have seg_mem : ∀ (l : List ExistingBlock) (u : JStr),
      u ∉ l.map ExistingBlock.uid →
        RoamAction.delete u ∉ unmatchedDeletes ms.valuesL l := by
    intro l u hu hmem
    unfold unmatchedDeletes at hmem
    simp only [List.mem_map, List.mem_filter] at hmem
    obtain ⟨b, ⟨hbl, _⟩, hbu⟩ := hmem
    have : b.uid = u := by injection hbu
    exact hu (by rw [← this]; exact List.mem_map_of_mem _ hbl)
  -- now work inside the serialized sequence
  unfold generateBatchActions at hi hj
  rw [hsplit] at hi hj
  have hpre := no_delete_in_prefix existing newBlocks parentUid
  have hiC := get?_append_cases _ _ _ i (hpre C.uid) hi
  have hjP := get?_append_cases _ _ _ j (hpre P.uid) hj
  obtain ⟨hiN, hiR⟩ := hiC
  obtain ⟨hjN, hjR⟩ := hjP
  -- the reversed deletes: rev D' ++ delC :: (rev B' ++ delP :: rev A')
  have hrev : (unmatchedDeletes ms.valuesL A ++
      RoamAction.delete P.uid ::
        (unmatchedDeletes ms.valuesL B ++
          RoamAction.delete C.uid :: unmatchedDeletes ms.valuesL D)).reverse =
      (unmatchedDeletes ms.valuesL D).reverse ++
        RoamAction.delete C.uid ::
          ((unmatchedDeletes ms.valuesL B).reverse ++
            RoamAction.delete P.uid ::
              (unmatchedDeletes ms.valuesL A).reverse) := by
    simp
  rw [hrev] at hiR hjR
  have hiPos := get?_unique _ _ _
    (by simpa using seg_mem D C.uid hCD)
    (by
      intro hmem
      simp only [List.mem_append, List.mem_cons, List.mem_reverse] at hmem
      rcases hmem with h | h | h
      · exact seg_mem B C.uid hCB h
      · exact hCP (by injection h)
      · exact seg_mem A C.uid hCA h)
    _ hiR
  rw [show (unmatchedDeletes ms.valuesL D).reverse ++
      RoamAction.delete C.uid ::
        ((unmatchedDeletes ms.valuesL B).reverse ++
          RoamAction.delete P.uid ::
            (unmatchedDeletes ms.valuesL A).reverse) =
      ((unmatchedDeletes ms.valuesL D).reverse ++
        RoamAction.delete C.uid ::
          (unmatchedDeletes ms.valuesL B).reverse) ++
        RoamAction.delete P.uid ::
          (unmatchedDeletes ms.valuesL A).reverse from by simp] at hjR
  have hjPos := get?_unique _ _ _
    (by
      intro hmem
      simp only [List.mem_append, List.mem_cons, List.mem_reverse] at hmem
      rcases hmem with h | h | h
      · exact seg_mem D P.uid hPD h
      · exact hCP.symm (by injection h)
      · exact seg_mem B P.uid hPB h)
    (by simpa using seg_mem A P.uid hPA)
    _ hjR
  simp only [List.length_append, List.length_cons, List.length_reverse]
    at hiPos hjPos
  omega

/-- Witness for C1: a parent/child pair that is entirely deleted; the
serialized sequence holds the child's delete at index 0 and the parent's
at index 1. -/
theorem c1_delete_child_before_parent_witness :
    (generateBatchActions (diffBlockTrees
        [ExistingBlock.mk "P1".data "ppp".data 0 none
          [ExistingBlock.mk "C2".data "ccc".data 0 none [] (some "P1".data)]
          none] [] "page".data)).get? 0 = some (.delete "C2".data) ∧
    (generateBatchActions (diffBlockTrees
        [ExistingBlock.mk "P1".data "ppp".data 0 none
          [ExistingBlock.mk "C2".data "ccc".data 0 none [] (some "P1".data)]
          none] [] "page".data)).get? 1 = some (.delete "P1".data) ∧
    0 < 1 :=
  ⟨by decide, by decide,
    c1_delete_child_before_parent
      [ExistingBlock.mk "P1".data "ppp".data 0 none
        [ExistingBlock.mk "C2".data "ccc".data 0 none [] (some "P1".data)]
        none] [] "page".data
      (ExistingBlock.mk "P1".data "ppp".data 0 none
        [ExistingBlock.mk "C2".data "ccc".data 0 none [] (some "P1".data)]
        none)
      (ExistingBlock.mk "C2".data "ccc".data 0 none [] (some "P1".data))
      (by decide)
      (List.mem_cons_self _ _)
      (List.mem_cons_self _ _)
      (by decide) (by decide) 0 1 (by decide) (by decide)⟩

/-! ### Characterisation of the fold-built maps -/

theorem appendFold_get {α β : Type} (key : α → JStr) (val : α → β)
    (l : List α) (m : JMap (List β)) (g : JStr) :
    (l.foldl (appendFold key val) m).get? g =
      match m.get? g with
      | some xs => some (xs ++ (l.filter (fun x => decide (key x = g))).map val)
      | none =>
        match (l.filter (fun x => decide (key x = g))).map val with
        | [] => none
        | y :: ys => some (y :: ys) := by
  induction l generalizing m with
  | nil =>
    simp only [List.foldl_nil, List.filter_nil, List.map_nil, List.append_nil]
    cases m.get? g <;> rfl
  | cons x xs ih =>
    rw [List.foldl_cons, ih]
    by_cases hk : key x = g
    · subst hk
      unfold appendFold
      cases hm : m.get? (key x) with
      | some cur =>
        rw [JMap.get?_set_self]
        simp [List.filter_cons]
      | none =>
        rw [JMap.get?_set_self]
        simp [List.filter_cons]
    · unfold appendFold
      cases hm : m.get? (key x) with
      | some cur =>
        rw [JMap.get?_set_ne _ _ _ _ (fun hh => hk hh.symm)]
        simp [List.filter_cons, hk]
      | none =>
        rw [JMap.get?_set_ne _ _ _ _ (fun hh => hk hh.symm)]
        simp [List.filter_cons, hk]

theorem setfold_get_notin {α β : Type} (key : α → JStr) (val : α → β)
    (l : List α) (m0 : JMap β) (u : JStr) (h : u ∉ l.map key) :
    (l.foldl (fun m x => m.set (key x) (val x)) m0).get? u = m0.get? u := by
  induction l generalizing m0 with
  | nil => rfl
  | cons x xs ih =>
    have hu : u ≠ key x := fun hh => h (by simp [hh])
    have hxs : u ∉ xs.map key := fun hh => h (by simp [hh])
    rw [List.foldl_cons, ih _ hxs, JMap.get?_set_ne _ _ _ _ hu]

theorem setfold_get_mem {α β : Type} (key : α → JStr) (val : α → β)
    (l : List α) (m0 : JMap β) (x : α) (hnd : (l.map key).Nodup)
    (hx : x ∈ l) :
    (l.foldl (fun m x => m.set (key x) (val x)) m0).get? (key x) =
      some (val x) := by
  induction l generalizing m0 with
  | nil => simp at hx
  | cons y ys ih =>
    rw [List.foldl_cons]
    rcases List.mem_cons.mp hx with rfl | hx2
    · have hnin : key x ∉ ys.map key := by
        simpa using (List.nodup_cons.mp hnd).1
      rw [setfold_get_notin _ _ _ _ _ hnin, JMap.get?_set_self]
    · by_cases hkey : key x = key y
      · exact absurd (hkey ▸ List.mem_map_of_mem key hx2)
          (by simpa using (List.nodup_cons.mp hnd).1)
      · exact ih _ (List.nodup_cons.mp hnd).2 hx2

/-- The pairwise fold of `buildDesiredMaps`, projected to its first
component. -/
theorem buildDesiredMaps_fst (p : JStr) (ms : JMap JStr)
    (nbs : List NewBlock) :
    (buildDesiredMaps p ms nbs).1 =
      nbs.foldl (fun m nb => m.set nb.ref.blockUid (desiredParentUid p ms nb))
        JMap.empty := by
  unfold buildDesiredMaps
  suffices h : ∀ (m1 : JMap JStr) (m2 : JMap (List JStr)),
      (nbs.foldl (fun (maps : JMap JStr × JMap (List JStr)) (nb : NewBlock) =>
        (maps.1.set nb.ref.blockUid (desiredParentUid p ms nb),
          appendFold (desiredParentUid p ms)
            (fun nb => (ms.get? nb.ref.blockUid).getD nb.ref.blockUid)
            maps.2 nb)) (m1, m2)).1 =
      nbs.foldl (fun m nb => m.set nb.ref.blockUid (desiredParentUid p ms nb)) m1 by
    exact h JMap.empty JMap.empty
  induction nbs with
  | nil => intro m1 m2; rfl
  | cons nb rest ih => intro m1 m2; exact ih _ _

/-- The pairwise fold of `buildDesiredMaps`, projected to its second
component: an `appendFold` keyed by the resolved desired parent, whose
values are the target uids. -/
theorem buildDesiredMaps_snd (p : JStr) (ms : JMap JStr)
    (nbs : List NewBlock) :
    (buildDesiredMaps p ms nbs).2 =
      nbs.foldl (appendFold (desiredParentUid p ms)
        (fun nb => (ms.get? nb.ref.blockUid).getD nb.ref.blockUid))
        JMap.empty := by
  unfold buildDesiredMaps
  suffices h : ∀ (m1 : JMap JStr) (m2 : JMap (List JStr)),
      (nbs.foldl (fun (maps : JMap JStr × JMap (List JStr)) (nb : NewBlock) =>
        (maps.1.set nb.ref.blockUid (desiredParentUid p ms nb),
          appendFold (desiredParentUid p ms)
            (fun nb => (ms.get? nb.ref.blockUid).getD nb.ref.blockUid)
            maps.2 nb)) (m1, m2)).2 =
      nbs.foldl (appendFold (desiredParentUid p ms)
        (fun nb => (ms.get? nb.ref.blockUid).getD nb.ref.blockUid)) m2 by
    exact h JMap.empty JMap.empty
  induction nbs with
  | nil => intro m1 m2; rfl
  | cons nb rest ih =>
    intro m1 m2
    rw [List.foldl_cons, List.foldl_cons]
    exact ih _ _

/-! ### Values of the match map come from existing blocks -/

theorem get?_mem_valuesL {β : Type} (m : JMap β) (k : JStr) (v : β)
    (h : m.get? k = some v) : v ∈ m.valuesL := by
  unfold JMap.get? at h
  cases hf : m.entries.find? (fun e => decide (e.1 = k)) with
  | none => rw [hf] at h; simp at h
  | some e =>
    rw [hf] at h
    simp at h
    have he := List.mem_of_find?_eq_some hf
    have := List.mem_map_of_mem (fun e => e.2) he
    exact h ▸ this

theorem valuesL_set_mem {β : Type} (m : JMap β) (k : JStr) (v w : β)
    (h : w ∈ (m.set k v).valuesL) : w = v ∨ w ∈ m.valuesL := by
  unfold JMap.set at h
  by_cases hs : (m.get? k).isSome
  · rw [if_pos hs] at h
    unfold JMap.valuesL at h ⊢
    rcases List.mem_map.mp h with ⟨e, he, hev⟩
    rcases List.mem_map.mp he with ⟨e0, he0, rfl⟩
    by_cases h0 : e0.1 = k
    · left; rw [← hev]; simp [h0]
    · right
      rw [← hev]
      simp only [h0, if_false]
      exact List.mem_map_of_mem _ he0
  · rw [if_neg hs] at h
    unfold JMap.valuesL at h ⊢
    rw [List.map_append] at h
    rcases List.mem_append.mp h with h1 | h1
    · right; exact h1
    · left; simpa using h1

theorem foldl_binary_mem {α : Type} (g : α → α → α)
    (hg : ∀ a b, g a b = a ∨ g a b = b) (cs : List α) :
    ∀ c, cs.foldl g c ∈ c :: cs := by
  induction cs with
  | nil => intro c; simp
  | cons b bs ih =>
    intro c
    rw [List.foldl_cons]
    rcases List.mem_cons.mp (ih (g c b)) with h | h
    · rw [h]
      rcases hg c b with h2 | h2 <;> rw [h2] <;> simp
    · exact List.mem_cons_of_mem _ (List.mem_cons_of_mem _ h)

theorem foldl_inv {α σ : Type} (Inv : σ → Prop) (f : σ → α → σ)
    (h : ∀ st x, Inv st → Inv (f st x)) :
    ∀ (l : List α) (st : σ), Inv st → Inv (l.foldl f st)
  | [], _, hst => hst
  | x :: xs, st, hst => foldl_inv Inv f h xs (f st x) (h st x hst)

theorem buildTextIndex_get (f : JStr → JStr) (ex : List ExistingBlock)
    (g : JStr) (l : List ExistingBlock)
    (h : (buildTextIndex f ex).get? g = some l) :
    l = ex.filter (fun eb => decide (f eb.text = g)) := by
  unfold buildTextIndex at h
  rw [appendFold_get] at h
  have hid : (ex.filter (fun eb => decide (f eb.text = g))).map
      (fun eb => eb) = ex.filter (fun eb => decide (f eb.text = g)) := by
    simp
  rw [JMap.get?_empty] at h
  cases hfl : ex.filter (fun eb => decide (f eb.text = g)) with
  | nil => rw [hfl] at hid; rw [hfl, hid] at h; simp at h
  | cons y ys =>
    rw [hfl] at hid
    rw [hfl, hid] at h
    simp only [Option.some_inj] at h
    rw [← h]

theorem phaseStep_values_sub (ex : List ExistingBlock)
    (index : JMap (List ExistingBlock)) (f : JStr → JStr) (sk : Bool)
    (hidx : ∀ g l, index.get? g = some l → ∀ e, e ∈ l → e ∈ ex)
    (st : MatchSt) (p : Nat × NewBlock)
    (hst : ∀ v, v ∈ st.mmap.valuesL → ∃ eb, eb ∈ ex ∧ v = eb.uid) :
    ∀ v, v ∈ (phaseStep index f sk st p).mmap.valuesL →
      ∃ eb, eb ∈ ex ∧ v = eb.uid := by
  unfold phaseStep
  simp only []
  split
  · exact hst
  · cases hc : ((index.get? (f p.2.text)).getD []).filter
        (fun e => decide (e.uid ∉ st.used)) with
    | nil => exact hst
    | cons c cs =>
      intro v hv
      rcases valuesL_set_mem _ _ _ _ hv with rfl | hv2
      · -- the chosen candidate is one of c :: cs, hence an existing block
        have hbest : cs.foldl
            (fun a b =>
              if (a.order - (p.1 : Int)).natAbs < (b.order - (p.1 : Int)).natAbs
              then a else b) c ∈ c :: cs := by
          apply foldl_binary_mem
          intro a b
          by_cases hab : (a.order - (p.1 : Int)).natAbs <
              (b.order - (p.1 : Int)).natAbs
          · left; simp [hab]
          · right; simp [hab]
        rw [← hc] at hbest
        have hmem := List.mem_of_mem_filter hbest
        cases hg : index.get? (f p.2.text) with
        | none => rw [hg] at hmem; simp at hmem
        | some bucket =>
          rw [hg] at hmem
          simp only [Option.getD_some] at hmem
          exact ⟨_, hidx _ _ hg _ hmem, rfl⟩
      · exact hst v hv2

theorem phase3Step_values_sub (ex : List ExistingBlock)
    (sorted : List ExistingBlock) (hs : ∀ e, e ∈ sorted → e ∈ ex)
    (st : MatchSt) (p : Nat × NewBlock)
    (hst : ∀ v, v ∈ st.mmap.valuesL → ∃ eb, eb ∈ ex ∧ v = eb.uid) :
    ∀ v, v ∈ (phase3Step sorted st p).mmap.valuesL →
      ∃ eb, eb ∈ ex ∧ v = eb.uid := by
  unfold phase3Step
  cases hg : sorted.get? p.1 with
  | none => exact hst
  | some eb =>
    intro v hv
    simp only [] at hv
    rcases valuesL_set_mem _ _ _ _ hv with rfl | hv2
    · exact ⟨eb, hs _ (List.get?_mem hg), rfl⟩
    · exact hst v hv2

theorem mem_insOrd (b x : ExistingBlock) (l : List ExistingBlock) :
    x ∈ insOrd b l ↔ x = b ∨ x ∈ l := by
  induction l with
  | nil => simp [insOrd]
  | cons y ys ih =>
    unfold insOrd
    by_cases h : y.order < b.order
    · rw [if_pos h]
      simp only [List.mem_cons, ih]
      tauto
    · rw [if_neg h]
      simp only [List.mem_cons]

theorem mem_sortByOrder (x : ExistingBlock) (l : List ExistingBlock) :
    x ∈ sortByOrder l ↔ x ∈ l := by
  induction l with
  | nil => simp [sortByOrder]
  | cons b bs ih =>
    unfold sortByOrder
    rw [mem_insOrd, ih]
    simp

/-- Every value the matcher ever records is the uid of some flattened
existing block. -/
theorem matchBlocks_values_sub (ex : List ExistingBlock)
    (nbs : List NewBlock) :
    ∀ v, v ∈ (matchBlocks ex nbs).valuesL →
      ∃ eb, eb ∈ ex ∧ v = eb.uid := by
  unfold matchBlocks
  simp only []
  have hbt : ∀ (f : JStr → JStr) (g : JStr) (l : List ExistingBlock),
      (buildTextIndex f ex).get? g = some l → ∀ e, e ∈ l → e ∈ ex := by
    intro f g l h e he
    rw [buildTextIndex_get f ex g l h] at he
    exact List.mem_of_mem_filter he
  have inv0 : ∀ v, v ∈ (MatchSt.mk JMap.empty []).mmap.valuesL →
      ∃ eb, eb ∈ ex ∧ v = eb.uid := by
    intro v hv
    simp [JMap.valuesL, JMap.empty] at hv
  have inv1 := foldl_inv
    (fun st => ∀ v, v ∈ st.mmap.valuesL → ∃ eb, eb ∈ ex ∧ v = eb.uid)
    (fun st p => phaseStep (buildTextIndex normalizeText ex)
      normalizeText false st (p.1, p.2))
    (fun st x hst =>
      phaseStep_values_sub ex _ _ _ (hbt normalizeText) st (x.1, x.2) hst)
    nbs.enum _ inv0
  have inv2 := foldl_inv
    (fun st => ∀ v, v ∈ st.mmap.valuesL → ∃ eb, eb ∈ ex ∧ v = eb.uid)
    (fun st p => phaseStep (buildTextIndex normalizeForMatching ex)
      normalizeForMatching true st (p.1, p.2))
    (fun st x hst =>
      phaseStep_values_sub ex _ _ _ (hbt normalizeForMatching) st
        (x.1, x.2) hst)
    nbs.enum _ inv1
  split
  · exact foldl_inv
      (fun st => ∀ v, v ∈ st.mmap.valuesL → ∃ eb, eb ∈ ex ∧ v = eb.uid)
      (phase3Step (sortByOrder (ex.filter (fun e => decide (e.uid ∉
        (nbs.enum.foldl (fun st p => phaseStep
          (buildTextIndex normalizeForMatching ex) normalizeForMatching true
          st (p.1, p.2)) (nbs.enum.foldl (fun st p => phaseStep
            (buildTextIndex normalizeText ex) normalizeText false st
            (p.1, p.2)) (MatchSt.mk JMap.empty []))).used)))))
      (fun st x hst => phase3Step_values_sub ex _
        (fun e he => List.mem_of_mem_filter ((mem_sortByOrder e _).mp he))
        st x hst)
      _ _ inv2
  · exact inv2

/-! ### Claim C10: create order and the sibling index -/

theorem jsIndexOf_congr {α : Type} (l : List α) (f g : α → JStr) (key : JStr)
    (h : ∀ x, x ∈ l → (f x = key ↔ g x = key)) :
    jsIndexOf (l.map f) key = jsIndexOf (l.map g) key := by
  induction l with
  | nil => rfl
  | cons x xs ih =>
    simp only [List.map_cons, jsIndexOf]
    have hx := h x (by simp)
    by_cases hf : f x = key
    · rw [if_pos hf, if_pos (hx.mp hf)]
    · rw [if_neg hf, if_neg (fun hg => hf (hx.mpr hg)),
        ih (fun y hy => h y (by simp [hy]))]

theorem jsIndexOf_mem_eq_idxOfJ (l : List JStr) (x : JStr) (h : x ∈ l) :
    jsIndexOf l x = (idxOfJ l x : Int) := by
  induction l with
  | nil => simp at h
  | cons y ys ih =>
    by_cases hy : y = x
    · simp [jsIndexOf, idxOfJ, hy]
    · have hx : x ∈ ys := by
        rcases List.mem_cons.mp h with h1 | h1
        · exact absurd h1.symm hy
        · exact h1
      have hnn : 0 ≤ jsIndexOf ys x := (jsIndexOf_nonneg_iff ys x).mpr hx
      simp only [jsIndexOf, idxOfJ]
      rw [if_neg hy, if_neg (by omega), if_neg hy, ih hx]
      push_cast
      ring

/-- C10 (amended): when the desired references are pairwise distinct and
none of them collides with an existing uid, every create operation's
location order is the node's index within its desired sibling group (a
non-negative number), and the `'last'` fallback is never taken. -/
theorem c10_create_order (existing : List ExistingBlock)
    (newBlocks : List NewBlock) (parentUid : JStr)
    (hnd : (newBlocks.map (fun nb => nb.ref.blockUid)).Nodup)
    (hdisj : ∀ nb, nb ∈ newBlocks →
      ∀ eb, eb ∈ flattenExistingBlocks existing → nb.ref.blockUid ≠ eb.uid) :
    ∀ act, act ∈ (diffBlockTrees existing newBlocks parentUid).creates →
      ∃ nb, nb ∈ newBlocks ∧
        act = RoamAction.create
          (desiredParentUid parentUid
            (matchBlocks (flattenExistingBlocks existing) newBlocks) nb)
          (JOrder.num (desiredSiblingIndex parentUid
            (matchBlocks (flattenExistingBlocks existing) newBlocks)
            newBlocks nb))
          nb.ref.blockUid nb.text nb.heading (some nb.bopen) := by
  intro act hact
  rw [diffBlockTrees_eq] at hact
  rcases List.mem_filterMap.mp hact with ⟨nb, hnb, hcreate⟩
  refine ⟨nb, hnb, ?_⟩
  set ms := matchBlocks (flattenExistingBlocks existing) newBlocks with hms
  unfold createOf at hcreate
  cases hget : ms.get? nb.ref.blockUid with
  | some u => rw [hget] at hcreate; simp at hcreate
  | none =>
    rw [hget] at hcreate
    simp only [] at hcreate
    have htoDP : (buildDesiredMaps parentUid ms newBlocks).1.get?
        nb.ref.blockUid = some (desiredParentUid parentUid ms nb) := by
      rw [buildDesiredMaps_fst]
      exact setfold_get_mem (fun nb => nb.ref.blockUid)
        (desiredParentUid parentUid ms) newBlocks JMap.empty nb hnd hnb
    rw [htoDP] at hcreate
    simp only [Option.getD_some] at hcreate
    have hF : nb ∈ newBlocks.filter (fun b =>
        decide (desiredParentUid parentUid ms b =
          desiredParentUid parentUid ms nb)) :=
      List.mem_filter.mpr ⟨hnb, by simp⟩
    have hL : (buildDesiredMaps parentUid ms newBlocks).2.get?
        (desiredParentUid parentUid ms nb) =
        some ((newBlocks.filter (fun b =>
          decide (desiredParentUid parentUid ms b =
            desiredParentUid parentUid ms nb))).map
          (fun b => (ms.get? b.ref.blockUid).getD b.ref.blockUid)) := by
      rw [buildDesiredMaps_snd, appendFold_get, JMap.get?_empty]
      cases hFl : newBlocks.filter (fun b =>
          decide (desiredParentUid parentUid ms b =
            desiredParentUid parentUid ms nb)) with
      | nil => rw [hFl] at hF; simp at hF
      | cons y ys => simp
    rw [hL] at hcreate
    simp only [Option.getD_some] at hcreate
    have hiff : ∀ b, b ∈ newBlocks.filter (fun b =>
        decide (desiredParentUid parentUid ms b =
          desiredParentUid parentUid ms nb)) →
        (((ms.get? b.ref.blockUid).getD b.ref.blockUid = nb.ref.blockUid) ↔
          (b.ref.blockUid = nb.ref.blockUid)) := by
      intro b hb
      cases hgb : ms.get? b.ref.blockUid with
      | none => simp
      | some u =>
        simp only [Option.getD_some]
        constructor
        · intro hu
          exfalso
          have hv := get?_mem_valuesL ms b.ref.blockUid u hgb
          rcases matchBlocks_values_sub (flattenExistingBlocks existing)
            newBlocks u hv with ⟨eb, hebm, rfl⟩
          exact hdisj nb hnb eb hebm hu.symm
        · intro hb2
          rw [hb2] at hgb
          rw [hget] at hgb
          exact absurd hgb (by simp)
    have hidx : jsIndexOf ((newBlocks.filter (fun b =>
        decide (desiredParentUid parentUid ms b =
          desiredParentUid parentUid ms nb))).map
        (fun b => (ms.get? b.ref.blockUid).getD b.ref.blockUid))
        nb.ref.blockUid =
        ((desiredSiblingIndex parentUid ms newBlocks nb : Nat) : Int) := by
      rw [jsIndexOf_congr _ _ (fun b => b.ref.blockUid) _ hiff]
      rw [jsIndexOf_mem_eq_idxOfJ _ _
        (List.mem_map_of_mem (fun b => b.ref.blockUid) hF)]
      rfl
    rw [hidx] at hcreate
    rw [if_pos (by positivity)] at hcreate
    simp only [Option.some_inj] at hcreate
    exact hcreate.symm

/-- C10 is false as stated: with pairwise-distinct desired references, a
desired reference that collides with an existing uid corrupts the
`indexOf` lookup of the create branch; here the second sibling's create
is staged with order `0` although its index within its desired sibling
group is `1`. -/
theorem c10_counterexample :
    (([nbA10, nbX10]).map (fun nb => nb.ref.blockUid)).Nodup ∧
    (diffBlockTrees [exX10] [nbA10, nbX10] "page".data).creates =
      [RoamAction.create "page".data (JOrder.num 0) "X".data "world".data
        none (some true)] ∧
    desiredSiblingIndex "page".data
      (matchBlocks (flattenExistingBlocks [exX10]) [nbA10, nbX10])
      [nbA10, nbX10] nbX10 = 1 := by
  refine ⟨by decide, by decide, by decide⟩

/-- Witness for the amended C10 at a concrete input: the only create of
a one-node document is staged at its sibling index. -/
theorem c10_create_order_witness :
    ∃ nb, nb ∈ [nbW10] ∧
      RoamAction.create "p".data (JOrder.num 0) "a".data "hi".data none
        (some true) =
      RoamAction.create
        (desiredParentUid "p".data
          (matchBlocks (flattenExistingBlocks []) [nbW10]) nb)
        (JOrder.num (desiredSiblingIndex "p".data
          (matchBlocks (flattenExistingBlocks []) [nbW10]) [nbW10] nb))
        nb.ref.blockUid nb.text nb.heading (some nb.bopen) :=
  c10_create_order [] [nbW10] "p".data (by decide) (by decide)
    (RoamAction.create "p".data (JOrder.num 0) "a".data "hi".data none
      (some true)) (by decide)

/-! ### Claim C8: the match map is injective -/

theorem get?_none_iff {β : Type} (m : JMap β) (k : JStr) :
    m.get? k = none ↔ k ∉ m.entries.map Prod.fst := by
  unfold JMap.get?
  rw [Option.map_eq_none']
  rw [List.find?_eq_none]
  constructor
  · intro h hk
    rcases List.mem_map.mp hk with ⟨e, he, hek⟩
    have h2 := h e he
    simp only [decide_eq_true_eq] at h2
    exact h2 hek
  · intro h e he
    simp only [decide_eq_true_eq]
    intro hek
    exact h (hek ▸ List.mem_map_of_mem Prod.fst he)

theorem set_keys_of_isSome {β : Type} (m : JMap β) (k : JStr) (v : β)
    (h : (m.get? k).isSome) :
    (m.set k v).entries.map Prod.fst = m.entries.map Prod.fst := by
  unfold JMap.set
  rw [if_pos h, List.map_map]
  apply List.map_congr_left
  intro e he
  by_cases hek : e.1 = k
  · simp [hek]
  · simp [hek]

theorem set_entries_of_none {β : Type} (m : JMap β) (k : JStr) (v : β)
    (h : ¬(m.get? k).isSome) :
    (m.set k v).entries = m.entries ++ [(k, v)] := by
  unfold JMap.set
  rw [if_neg h]

theorem map_replace_values {β : Type} (l : List (JStr × β)) (k : JStr) (v : β)
    (hnd : (l.map Prod.fst).Nodup) (hmem : k ∈ l.map Prod.fst) :
    ∃ l1 l2 w, l.map (fun e => e.2) = l1 ++ w :: l2 ∧
      (l.map (fun e => if e.1 = k then (k, v) else e)).map (fun e => e.2) =
        l1 ++ v :: l2 := by
  induction l with
  | nil => simp at hmem
  | cons e es ih =>
    by_cases hek : e.1 = k
    · refine ⟨[], List.map (fun e => e.2) es, e.2, ?_, ?_⟩
      · rfl
      have hkes : k ∉ es.map Prod.fst := by
        rw [← hek]
        rw [List.map_cons] at hnd
        exact (List.nodup_cons.mp hnd).1
      have hes : es.map (fun e => if e.1 = k then (k, v) else e) =
          es.map id := by
        apply List.map_congr_left
        intro e2 he2
        have hne : e2.1 ≠ k := fun hh =>
          hkes (hh ▸ List.mem_map_of_mem Prod.fst he2)
        simp [hne]
      rw [List.map_id] at hes
      rw [List.map_cons, List.map_cons, if_pos hek, hes]
      rfl
    · have hmem2 : k ∈ es.map Prod.fst := by
        rcases List.mem_map.mp hmem with ⟨e2, he2, hee⟩
        rcases List.mem_cons.mp he2 with rfl | he3
        · exact absurd hee hek
        · exact hee ▸ List.mem_map_of_mem Prod.fst he3
      have hnd2 : (es.map Prod.fst).Nodup := by
        rw [List.map_cons] at hnd
        exact (List.nodup_cons.mp hnd).2
      obtain ⟨l1, l2, w, h1, h2⟩ := ih hnd2 hmem2
      refine ⟨e.2 :: l1, l2, w, ?_, ?_⟩
      · rw [List.map_cons, h1]
        rfl
      · rw [List.map_cons, List.map_cons, if_neg hek, h2]
        rfl

theorem get?_inj_of_values_nodup {β : Type} (m : JMap β)
    (hv : m.valuesL.Nodup) (k1 k2 : JStr) (v : β)
    (h1 : m.get? k1 = some v) (h2 : m.get? k2 = some v) : k1 = k2 := by
  unfold JMap.get? at h1 h2
  cases hf1 : m.entries.find? (fun e => decide (e.1 = k1)) with
  | none => rw [hf1] at h1; simp at h1
  | some e1 =>
    cases hf2 : m.entries.find? (fun e => decide (e.1 = k2)) with
    | none => rw [hf2] at h2; simp at h2
    | some e2 =>
      rw [hf1] at h1
      rw [hf2] at h2
      simp at h1 h2
      have he1 := List.mem_of_find?_eq_some hf1
      have he2 := List.mem_of_find?_eq_some hf2
      have hk1 : e1.1 = k1 := by simpa using List.find?_some hf1
      have hk2 : e2.1 = k2 := by simpa using List.find?_some hf2
      have he : e1 = e2 := List.inj_on_of_nodup_map hv he1 he2 (by rw [h1, h2])
      rw [← hk1, ← hk2, he]

theorem nodup_append_singleton {α : Type} (l : List α) (x : α)
    (hx : x ∉ l) (hl : l.Nodup) : (l ++ [x]).Nodup := by
  induction l with
  | nil => simp
  | cons y ys ih =>
    rw [List.cons_append, List.nodup_cons]
    rw [List.nodup_cons] at hl
    refine ⟨?_, ih (fun h => hx (List.mem_cons_of_mem _ h)) hl.2⟩
    intro hy
    rcases List.mem_append.mp hy with h1 | h1
    · exact hl.1 h1
    · apply hx
      have hyx : y = x := by simpa using h1
      rw [← hyx]
      exact List.mem_cons_self y ys

theorem matchInv_set (mm : JMap JStr) (used : List JStr) (k u : JStr)
    (hkeys : (mm.entries.map Prod.fst).Nodup)
    (hvals : mm.valuesL.Nodup)
    (hsub : ∀ v, v ∈ mm.valuesL → v ∈ used)
    (hu : u ∉ used) :
    ((mm.set k u).entries.map Prod.fst).Nodup ∧
      (mm.set k u).valuesL.Nodup ∧
      (∀ v, v ∈ (mm.set k u).valuesL → v ∈ sadd used u) := by
  by_cases h : (mm.get? k).isSome
  · have hkeq := set_keys_of_isSome mm k u h
    have hkmem : k ∈ mm.entries.map Prod.fst := by
      by_contra hkn
      rw [← get?_none_iff] at hkn
      rw [hkn] at h
      simp at h
    obtain ⟨l1, l2, w, hold, hnew⟩ :=
      map_replace_values mm.entries k u hkeys hkmem
    have hvold : mm.valuesL = l1 ++ w :: l2 := hold
    have hvnew : (mm.set k u).valuesL = l1 ++ u :: l2 := by
      unfold JMap.set JMap.valuesL
      rw [if_pos h]
      exact hnew
    have hunotin : u ∉ l1 ++ l2 := by
      intro hmem
      apply hu
      apply hsub
      rw [hvold]
      rcases List.mem_append.mp hmem with h1 | h1
      · exact List.mem_append.mpr (Or.inl h1)
      · exact List.mem_append.mpr (Or.inr (List.mem_cons_of_mem _ h1))
    refine ⟨hkeq ▸ hkeys, ?_, ?_⟩
    · rw [hvnew, List.nodup_middle, List.nodup_cons]
      rw [hvold, List.nodup_middle, List.nodup_cons] at hvals
      exact ⟨hunotin, hvals.2⟩
    · intro v hv
      rw [hvnew] at hv
      rcases List.mem_append.mp hv with h1 | h1
      · exact (mem_sadd _ _ _).mpr (Or.inl (hsub v (by
          rw [hvold]; exact List.mem_append.mpr (Or.inl h1))))
      · rcases List.mem_cons.mp h1 with rfl | h2
        · exact (mem_sadd _ _ _).mpr (Or.inr rfl)
        · exact (mem_sadd _ _ _).mpr (Or.inl (hsub v (by
            rw [hvold]
            exact List.mem_append.mpr
              (Or.inr (List.mem_cons_of_mem _ h2)))))
  · have hent := set_entries_of_none mm k u h
    have hknot : k ∉ mm.entries.map Prod.fst := by
      rw [← get?_none_iff]
      exact Option.not_isSome_iff_eq_none.mp h
    have hkeys2 : (mm.set k u).entries.map Prod.fst =
        mm.entries.map Prod.fst ++ [k] := by
      rw [hent, List.map_append]
      rfl
    have hvals2 : (mm.set k u).valuesL = mm.valuesL ++ [u] := by
      unfold JMap.valuesL
      rw [hent, List.map_append]
      rfl
    have hunotin : u ∉ mm.valuesL := fun hm => hu (hsub u hm)
    refine ⟨?_, ?_, ?_⟩
    · rw [hkeys2]
      exact nodup_append_singleton _ _ hknot hkeys
    · rw [hvals2]
      exact nodup_append_singleton _ _ hunotin hvals
    · intro v hv
      rw [hvals2] at hv
      rcases List.mem_append.mp hv with h1 | h1
      · exact (mem_sadd _ _ _).mpr (Or.inl (hsub v h1))
      · exact (mem_sadd _ _ _).mpr (Or.inr (by simpa using h1))

theorem phaseStep_inv (index : JMap (List ExistingBlock))
    (f : JStr → JStr) (sk : Bool) (st : MatchSt) (p : Nat × NewBlock)
    (hkeys : (st.mmap.entries.map Prod.fst).Nodup)
    (hvals : st.mmap.valuesL.Nodup)
    (hsub : ∀ v, v ∈ st.mmap.valuesL → v ∈ st.used) :
    ((phaseStep index f sk st p).mmap.entries.map Prod.fst).Nodup ∧
      (phaseStep index f sk st p).mmap.valuesL.Nodup ∧
      ∀ v, v ∈ (phaseStep index f sk st p).mmap.valuesL →
        v ∈ (phaseStep index f sk st p).used := by
  unfold phaseStep
  simp only []
  split
  · exact ⟨hkeys, hvals, hsub⟩
  · cases hc : ((index.get? (f p.2.text)).getD []).filter
        (fun e => decide (e.uid ∉ st.used)) with
    | nil => exact ⟨hkeys, hvals, hsub⟩
    | cons c cs =>
      have hbest : cs.foldl
          (fun a b =>
            if (a.order - (p.1 : Int)).natAbs < (b.order - (p.1 : Int)).natAbs
            then a else b) c ∈ c :: cs := by
        apply foldl_binary_mem
        intro a b
        by_cases hab : (a.order - (p.1 : Int)).natAbs <
            (b.order - (p.1 : Int)).natAbs
        · left; simp [hab]
        · right; simp [hab]
      rw [← hc] at hbest
      have hu : (cs.foldl
          (fun a b =>
            if (a.order - (p.1 : Int)).natAbs < (b.order - (p.1 : Int)).natAbs
            then a else b) c).uid ∉ st.used := by
        have h2 := (List.mem_filter.mp hbest).2
        simpa using h2
      exact matchInv_set st.mmap st.used p.2.ref.blockUid _ hkeys hvals
        hsub hu

theorem insOrd_perm (b : ExistingBlock) (l : List ExistingBlock) :
    (insOrd b l).Perm (b :: l) := by
  induction l with
  | nil => simp [insOrd]
  | cons y ys ih =>
    unfold insOrd
    by_cases h : y.order < b.order
    · rw [if_pos h]
      exact List.Perm.trans (List.Perm.cons y ih) (List.Perm.swap b y ys)
    · rw [if_neg h]

theorem sortByOrder_perm (l : List ExistingBlock) :
    (sortByOrder l).Perm l := by
  induction l with
  | nil => simp [sortByOrder]
  | cons b bs ih =>
    unfold sortByOrder
    exact List.Perm.trans (insOrd_perm b (sortByOrder bs))
      (List.Perm.cons b ih)

theorem phase3_fold_inv (sorted : List ExistingBlock)
    (hnds : (sorted.map ExistingBlock.uid).Nodup) :
    ∀ (l : List NewBlock) (n : Nat) (st : MatchSt),
      (st.mmap.entries.map Prod.fst).Nodup →
      st.mmap.valuesL.Nodup →
      (∀ v, v ∈ st.mmap.valuesL → v ∈ st.used) →
      (∀ i eb, n ≤ i → sorted.get? i = some eb → eb.uid ∉ st.used) →
      (((List.enumFrom n l).foldl (phase3Step sorted)
          st).mmap.entries.map Prod.fst).Nodup ∧
        ((List.enumFrom n l).foldl (phase3Step sorted) st).mmap.valuesL.Nodup := by
  intro l
  induction l with
  | nil => intro n st hkeys hvals hsub hfresh; exact ⟨hkeys, hvals⟩
  | cons nb rest ih =>
    intro n st hkeys hvals hsub hfresh
    rw [show List.enumFrom n (nb :: rest) =
      (n, nb) :: List.enumFrom (n + 1) rest from rfl, List.foldl_cons]
    cases hg : sorted.get? n with
    | none =>
      have hstep : phase3Step sorted st (n, nb) = st := by
        unfold phase3Step
        rw [show ((n, nb) : Nat × NewBlock).1 = n from rfl, hg]
      rw [hstep]
      exact ih (n + 1) st hkeys hvals hsub
        (fun i eb hi hgi => hfresh i eb (by omega) hgi)
    | some eb =>
      have hstep : phase3Step sorted st (n, nb) =
          ⟨st.mmap.set nb.ref.blockUid eb.uid, sadd st.used eb.uid⟩ := by
        unfold phase3Step
        rw [show ((n, nb) : Nat × NewBlock).1 = n from rfl, hg]
      rw [hstep]
      have hu : eb.uid ∉ st.used := hfresh n eb (Nat.le_refl n) hg
      obtain ⟨hk2, hv2, hs2⟩ := matchInv_set st.mmap st.used
        nb.ref.blockUid eb.uid hkeys hvals hsub hu
      apply ih (n + 1) ⟨st.mmap.set nb.ref.blockUid eb.uid,
        sadd st.used eb.uid⟩ hk2 hv2 hs2
      intro i eb2 hi hgi
      rw [mem_sadd]
      rintro (hmem | heq)
      · exact hfresh i eb2 (by omega) hgi hmem
      · have hgm1 : (sorted.map ExistingBlock.uid).get? n = some eb.uid := by
          rw [List.get?_map, hg]
          rfl
        have hgm2 : (sorted.map ExistingBlock.uid).get? i =
            some eb.uid := by
          rw [List.get?_map, hgi]
          simpa using heq
        have hlen : i < (sorted.map ExistingBlock.uid).length := by
          by_contra hge
          rw [List.get?_eq_none.mpr (by omega)] at hgm2
          exact absurd hgm2 (by simp)
        have : i = n := List.get?_inj hlen hnds (hgm2.trans hgm1.symm)
        omega

theorem phase3_branch_nodup (ex : List ExistingBlock) (st2 : MatchSt)
    (un : List NewBlock) (hnd : (ex.map ExistingBlock.uid).Nodup)
    (hk : (st2.mmap.entries.map Prod.fst).Nodup)
    (hv : st2.mmap.valuesL.Nodup)
    (hs : ∀ v, v ∈ st2.mmap.valuesL → v ∈ st2.used) :
    (un.enum.foldl (phase3Step (sortByOrder (ex.filter
      (fun e => decide (e.uid ∉ st2.used))))) st2).mmap.valuesL.Nodup := by
  have hnds : ((sortByOrder (ex.filter
      (fun e => decide (e.uid ∉ st2.used)))).map ExistingBlock.uid).Nodup := by
    apply List.Perm.nodup
    · exact (List.Perm.map ExistingBlock.uid (sortByOrder_perm
        (ex.filter (fun e => decide (e.uid ∉ st2.used))))).symm
    · exact List.Nodup.sublist
        (List.Sublist.map ExistingBlock.uid (List.filter_sublist ex)) hnd
  have hfresh : ∀ i eb, 0 ≤ i →
      (sortByOrder (ex.filter (fun e => decide (e.uid ∉ st2.used)))).get? i =
        some eb → eb.uid ∉ st2.used := by
    intro i eb _ hgi
    have hmem := (mem_sortByOrder eb _).mp (List.get?_mem hgi)
    have := (List.mem_filter.mp hmem).2
    simpa using this
  exact (phase3_fold_inv _ hnds un 0 st2 hk hv hs hfresh).2

/-- With pairwise-distinct existing uids the values recorded by the
matcher are pairwise distinct. -/
theorem matchBlocks_values_nodup (ex : List ExistingBlock)
    (nbs : List NewBlock) (hnd : (ex.map ExistingBlock.uid).Nodup) :
    (matchBlocks ex nbs).valuesL.Nodup := by
  unfold matchBlocks
  simp only []
  have hinv0 : ((MatchSt.mk JMap.empty
        []).mmap.entries.map Prod.fst).Nodup ∧
      (MatchSt.mk JMap.empty []).mmap.valuesL.Nodup ∧
      ∀ v, v ∈ (MatchSt.mk JMap.empty []).mmap.valuesL →
        v ∈ (MatchSt.mk JMap.empty []).used := by
    refine ⟨by simp [JMap.empty], by simp [JMap.empty, JMap.valuesL], ?_⟩
    intro v hv
    simp [JMap.empty, JMap.valuesL] at hv
  have hinv1 := foldl_inv
    (fun st => ((st.mmap.entries.map Prod.fst).Nodup ∧
      st.mmap.valuesL.Nodup ∧
      ∀ v, v ∈ st.mmap.valuesL → v ∈ st.used))
    (fun st p => phaseStep (buildTextIndex normalizeText ex)
      normalizeText false st (p.1, p.2))
    (fun st x hst => phaseStep_inv _ _ _ st (x.1, x.2) hst.1 hst.2.1
      hst.2.2)
    nbs.enum _ hinv0
  have hinv2 := foldl_inv
    (fun st => ((st.mmap.entries.map Prod.fst).Nodup ∧
      st.mmap.valuesL.Nodup ∧
      ∀ v, v ∈ st.mmap.valuesL → v ∈ st.used))
    (fun st p => phaseStep (buildTextIndex normalizeForMatching ex)
      normalizeForMatching true st (p.1, p.2))
    (fun st x hst => phaseStep_inv _ _ _ st (x.1, x.2) hst.1 hst.2.1
      hst.2.2)
    nbs.enum _ hinv1
  split
  · exact phase3_branch_nodup ex _ _ hnd hinv2.1 hinv2.2.1 hinv2.2.2
  · exact hinv2.2.1

/-- C8: with pairwise-distinct existing uids, the map returned by
`matchBlocks` never sends two desired references to the same existing
uid. -/
theorem c8_match_injective (ex : List ExistingBlock) (nbs : List NewBlock)
    (hnd : (ex.map ExistingBlock.uid).Nodup) (k1 k2 v : JStr)
    (h1 : (matchBlocks ex nbs).get? k1 = some v)
    (h2 : (matchBlocks ex nbs).get? k2 = some v) : k1 = k2 :=
  get?_inj_of_values_nodup (matchBlocks ex nbs)
    (matchBlocks_values_nodup ex nbs hnd) k1 k2 v h1 h2

/-- Witness for C8: a concrete one-block match where the theorem's
hypotheses all hold. -/
theorem c8_match_injective_witness : "A".data = "A".data :=
  c8_match_injective [exX10] [nbA10] (by decide) "A".data "A".data
    "X".data (by decide) (by decide)

/-! ### Claim C5: the position-fallback threshold -/

theorem buildTextIndex_get_none (f : JStr → JStr) (ex : List ExistingBlock)
    (g : JStr) (h : ∀ eb, eb ∈ ex → f eb.text ≠ g) :
    (buildTextIndex f ex).get? g = none := by
  unfold buildTextIndex
  rw [appendFold_get, JMap.get?_empty]
  have hf : ex.filter (fun eb => decide (f eb.text = g)) = [] := by
    rw [List.filter_eq_nil]
    intro eb hm
    simpa using h eb hm
  rw [hf]
  rfl

theorem phaseStep_noop (index : JMap (List ExistingBlock)) (f : JStr → JStr)
    (sk : Bool) (st : MatchSt) (p : Nat × NewBlock)
    (h : index.get? (f p.2.text) = none) :
    phaseStep index f sk st p = st := by
  unfold phaseStep
  simp only []
  split
  · rfl
  · rw [h]
    rfl

theorem foldl_mem_id {α σ : Type} (f : σ → α → σ) (l : List α)
    (h : ∀ s x, x ∈ l → f s x = s) : ∀ st, l.foldl f st = st := by
  induction l with
  | nil => intro st; rfl
  | cons x xs ih =>
    intro st
    rw [List.foldl_cons, h st x (by simp)]
    exact ih (fun s y hy => h s y (List.mem_cons_of_mem _ hy)) st

theorem snd_mem_of_mem_enumFrom {α : Type} :
    ∀ (l : List α) (n : Nat) (p : Nat × α), p ∈ List.enumFrom n l → p.2 ∈ l
  | [], _, _, h => by simp [List.enumFrom] at h
  | x :: xs, n, p, h => by
    rw [show List.enumFrom n (x :: xs) =
      (n, x) :: List.enumFrom (n + 1) xs from rfl] at h
    rcases List.mem_cons.mp h with rfl | h2
    · simp
    · exact List.mem_cons_of_mem _ (snd_mem_of_mem_enumFrom xs (n + 1) p h2)

theorem drop_cons_of_get? {α : Type} (l : List α) (n : Nat) (e : α)
    (h : l.get? n = some e) : l.drop n = e :: l.drop (n + 1) := by
  induction l generalizing n with
  | nil => simp at h
  | cons x xs ih =>
    cases n with
    | zero =>
      simp at h
      subst h
      rfl
    | succ m =>
      have h2 := ih m (by simpa using h)
      simpa using h2

theorem phase3_zip (sorted : List ExistingBlock) :
    ∀ (l : List NewBlock) (n : Nat) (mm : JMap JStr) (used : List JStr),
      (∀ b, b ∈ l → mm.get? b.ref.blockUid = none) →
      (l.map (fun b => b.ref.blockUid)).Nodup →
      n + l.length ≤ sorted.length →
      ((List.enumFrom n l).foldl (phase3Step sorted)
        (MatchSt.mk mm used)).mmap.entries =
        mm.entries ++ List.zip (l.map (fun b => b.ref.blockUid))
          (((sorted.drop n).take l.length).map ExistingBlock.uid) := by
  intro l
  induction l with
  | nil => intro n mm used _ _ _; simp
  | cons b rest ih =>
    intro n mm used hfresh hnd hlen
    rw [show List.enumFrom n (b :: rest) =
      (n, b) :: List.enumFrom (n + 1) rest from rfl, List.foldl_cons]
    obtain ⟨e, hg⟩ : ∃ e, sorted.get? n = some e := by
      cases hg : sorted.get? n with
      | none =>
        have h2 := List.get?_eq_none.mp hg
        simp at hlen
        omega
      | some e => exact ⟨e, rfl⟩
    have hstep : phase3Step sorted (MatchSt.mk mm used) (n, b) =
        MatchSt.mk (mm.set b.ref.blockUid e.uid) (sadd used e.uid) := by
      unfold phase3Step
      rw [show ((n, b) : Nat × NewBlock).1 = n from rfl, hg]
    rw [hstep]
    have hfresh2 : ∀ b2, b2 ∈ rest →
        (mm.set b.ref.blockUid e.uid).get? b2.ref.blockUid = none := by
      intro b2 hb2
      have hne : b2.ref.blockUid ≠ b.ref.blockUid := by
        rw [List.map_cons] at hnd
        intro heq
        exact (List.nodup_cons.mp hnd).1
          (heq ▸ List.mem_map_of_mem _ hb2)
      rw [JMap.get?_set_ne _ _ _ _ hne]
      exact hfresh b2 (List.mem_cons_of_mem _ hb2)
    have hnd2 : (rest.map (fun b => b.ref.blockUid)).Nodup := by
      rw [List.map_cons] at hnd
      exact (List.nodup_cons.mp hnd).2
    have hlen2 : (n + 1) + rest.length ≤ sorted.length := by
      simp at hlen
      omega
    rw [ih (n + 1) (mm.set b.ref.blockUid e.uid) (sadd used e.uid)
      hfresh2 hnd2 hlen2]
    have hset : (mm.set b.ref.blockUid e.uid).entries =
        mm.entries ++ [(b.ref.blockUid, e.uid)] := by
      apply set_entries_of_none
      rw [hfresh b (List.mem_cons_self b rest)]
      simp
    rw [hset, drop_cons_of_get? sorted n e hg]
    simp

theorem matchBlocks_phases_noop (ex : List ExistingBlock)
    (nbs : List NewBlock)
    (hdisj : ∀ nb, nb ∈ nbs → ∀ eb, eb ∈ ex →
      normalizeText nb.text ≠ normalizeText eb.text ∧
      normalizeForMatching nb.text ≠ normalizeForMatching eb.text) :
    matchBlocks ex nbs =
      if nbs.length ≤ 3 ∧ ex.length ≤ 3 then
        (nbs.enum.foldl (phase3Step (sortByOrder ex))
          (MatchSt.mk JMap.empty [])).mmap
      else JMap.empty := by
  unfold matchBlocks
  simp only []
  have h1 : nbs.enum.foldl (fun st p => phaseStep
      (buildTextIndex normalizeText ex) normalizeText false st (p.1, p.2))
      (MatchSt.mk JMap.empty []) = MatchSt.mk JMap.empty [] := by
    apply foldl_mem_id
    intro s x hx
    apply phaseStep_noop
    apply buildTextIndex_get_none
    intro eb hm
    exact ((hdisj x.2 (snd_mem_of_mem_enumFrom nbs 0 x hx) eb hm).1).symm
  rw [h1]
  have h2 : nbs.enum.foldl (fun st p => phaseStep
      (buildTextIndex normalizeForMatching ex) normalizeForMatching true st
      (p.1, p.2)) (MatchSt.mk JMap.empty []) = MatchSt.mk JMap.empty [] := by
    apply foldl_mem_id
    intro s x hx
    apply phaseStep_noop
    apply buildTextIndex_get_none
    intro eb hm
    exact ((hdisj x.2 (snd_mem_of_mem_enumFrom nbs 0 x hx) eb hm).2).symm
  rw [h2]
  have h3 : nbs.filter (fun b =>
      !(MatchSt.mk JMap.empty []).mmap.has b.ref.blockUid) = nbs := by
    apply List.filter_eq_self.mpr
    intro a _
    rfl
  have h4 : ex.filter (fun e =>
      decide (e.uid ∉ (MatchSt.mk JMap.empty
        ([] : List JStr)).used)) = ex := by
    apply List.filter_eq_self.mpr
    intro a _
    simp
  rw [h3, h4]

/-- C5 (amended): with all normalised texts disjoint, a 4-by-4 remainder
yields an empty mapping, and a 3-by-3 remainder with pairwise-distinct
desired references yields the full positional pairing of the order-sorted
existing blocks against the desired nodes in document order. -/
theorem c5_position_fallback :
    (∀ (ex : List ExistingBlock) (nbs : List NewBlock),
      ex.length = 4 → nbs.length = 4 →
      (∀ nb, nb ∈ nbs → ∀ eb, eb ∈ ex →
        normalizeText nb.text ≠ normalizeText eb.text ∧
        normalizeForMatching nb.text ≠ normalizeForMatching eb.text) →
      matchBlocks ex nbs = JMap.empty) ∧
    (∀ (ex : List ExistingBlock) (nbs : List NewBlock),
      ex.length = 3 → nbs.length = 3 →
      (nbs.map (fun b => b.ref.blockUid)).Nodup →
      (∀ nb, nb ∈ nbs → ∀ eb, eb ∈ ex →
        normalizeText nb.text ≠ normalizeText eb.text ∧
        normalizeForMatching nb.text ≠ normalizeForMatching eb.text) →
      (matchBlocks ex nbs).entries =
        List.zip (nbs.map (fun b => b.ref.blockUid))
          ((sortByOrder ex).map ExistingBlock.uid)) := by
  constructor
  · intro ex nbs hex hnbs hdisj
    rw [matchBlocks_phases_noop ex nbs hdisj]
    rw [if_neg]
    intro hc
    omega
  · intro ex nbs hex hnbs hndref hdisj
    rw [matchBlocks_phases_noop ex nbs hdisj]
    rw [if_pos (by omega)]
    have hslen : (sortByOrder ex).length = nbs.length := by
      rw [(sortByOrder_perm ex).length_eq]
      omega
    have hz := phase3_zip (sortByOrder ex) nbs 0 JMap.empty []
      (fun b _ => rfl) hndref (by omega)
    rw [List.drop_zero, ← hslen, List.take_length] at hz
    exact hz

/-- C5 is false as stated for the 3-by-3 half: when two desired nodes
share a reference, the second positional assignment overwrites the
first, so the returned mapping has only two entries instead of a full
pairing of all three. -/
theorem c5_counterexample :
    nbs53dup.length = 3 ∧ exs53.length = 3 ∧
    (matchBlocks exs53 nbs53dup).entries =
      [("r1".data, "e2".data), ("r3".data, "e3".data)] ∧
    (matchBlocks exs53 nbs53dup).entries.length = 2 := by
  refine ⟨rfl, rfl, by decide, by decide⟩

/-- Witness for the amended C5 at concrete 4-by-4 and 3-by-3 inputs. -/
theorem c5_position_fallback_witness :
    matchBlocks exs54 nbs54 = JMap.empty ∧
    (matchBlocks exs53 nbs53).entries =
      List.zip (nbs53.map (fun b => b.ref.blockUid))
        ((sortByOrder exs53).map ExistingBlock.uid) :=
  ⟨c5_position_fallback.1 exs54 nbs54 (by decide) (by decide)
      (by decide),
   c5_position_fallback.2 exs53 nbs53 (by decide) (by decide)
      (by decide) (by decide)⟩

/-! ### Claim C6: move emission -/

theorem jsIndexOf_congr2 {α : Type} (l : List α) (f g : α → JStr)
    (k1 k2 : JStr) (h : ∀ x, x ∈ l → (f x = k1 ↔ g x = k2)) :
    jsIndexOf (l.map f) k1 = jsIndexOf (l.map g) k2 := by
  induction l with
  | nil => rfl
  | cons x xs ih =>
    simp only [List.map_cons, jsIndexOf]
    have hx := h x (by simp)
    by_cases hf : f x = k1
    · rw [if_pos hf, if_pos (hx.mp hf)]
    · rw [if_neg hf, if_neg (fun hg => hf (hx.mpr hg)),
        ih (fun y hy => h y (by simp [hy]))]

/-- C6: for a matched pair, a move (carrying the desired parent and the
node's sibling index) is staged exactly when the desired parent differs
from the current parent or the sibling index differs from the current
order; and an update staged for the same node is pushed independently. -/
theorem c6_move_iff (existing : List ExistingBlock)
    (newBlocks : List NewBlock) (parentUid : JStr) (nb : NewBlock)
    (eb : ExistingBlock) (hnb : nb ∈ newBlocks)
    (hnd : ((flattenExistingBlocks existing).map ExistingBlock.uid).Nodup)
    (hndref : (newBlocks.map (fun b => b.ref.blockUid)).Nodup)
    (hdisj : ∀ b, b ∈ newBlocks →
      ∀ e2, e2 ∈ flattenExistingBlocks existing → b.ref.blockUid ≠ e2.uid)
    (hmem : eb ∈ flattenExistingBlocks existing)
    (hmatch : (matchBlocks (flattenExistingBlocks existing) newBlocks).get?
      nb.ref.blockUid = some eb.uid) :
    (RoamAction.move eb.uid
        (desiredParentUid parentUid
          (matchBlocks (flattenExistingBlocks existing) newBlocks) nb)
        ((desiredSiblingIndex parentUid
          (matchBlocks (flattenExistingBlocks existing) newBlocks)
          newBlocks nb : Nat) : Int) ∈
        (diffBlockTrees existing newBlocks parentUid).moves ↔
      (eb.parentUid.getD parentUid ≠ desiredParentUid parentUid
          (matchBlocks (flattenExistingBlocks existing) newBlocks) nb ∨
        eb.order ≠ ((desiredSiblingIndex parentUid
          (matchBlocks (flattenExistingBlocks existing) newBlocks)
          newBlocks nb : Nat) : Int))) ∧
    (∀ u, mkUpdate nb eb = some u →
      u ∈ (diffBlockTrees existing newBlocks parentUid).updates) := by
  have hvn := matchBlocks_values_nodup (flattenExistingBlocks existing)
    newBlocks hnd
  set ms := matchBlocks (flattenExistingBlocks existing) newBlocks with hms
  have hexmap : ((flattenExistingBlocks existing).foldl
      (fun m eb => m.set eb.uid eb) JMap.empty).get? eb.uid = some eb :=
    exByUid_get_mem _ _ _ hnd hmem
  have hmb : matchedBlock ms ((flattenExistingBlocks existing).foldl
      (fun m eb => m.set eb.uid eb) JMap.empty) nb = some (eb.uid, eb) := by
    unfold matchedBlock
    simp only [hmatch, hexmap]
  have htoDP : (buildDesiredMaps parentUid ms newBlocks).1.get?
      nb.ref.blockUid = some (desiredParentUid parentUid ms nb) := by
    rw [buildDesiredMaps_fst]
    exact setfold_get_mem (fun nb => nb.ref.blockUid)
      (desiredParentUid parentUid ms) newBlocks JMap.empty nb hndref hnb
  have hF : nb ∈ newBlocks.filter (fun b =>
      decide (desiredParentUid parentUid ms b =
        desiredParentUid parentUid ms nb)) :=
    List.mem_filter.mpr ⟨hnb, by simp⟩
  have hL : (buildDesiredMaps parentUid ms newBlocks).2.get?
      (desiredParentUid parentUid ms nb) =
      some ((newBlocks.filter (fun b =>
        decide (desiredParentUid parentUid ms b =
          desiredParentUid parentUid ms nb))).map
        (fun b => (ms.get? b.ref.blockUid).getD b.ref.blockUid)) := by
    rw [buildDesiredMaps_snd, appendFold_get, JMap.get?_empty]
    cases hFl : newBlocks.filter (fun b =>
        decide (desiredParentUid parentUid ms b =
          desiredParentUid parentUid ms nb)) with
    | nil => rw [hFl] at hF; simp at hF
    | cons y ys => simp
  have hiff : ∀ b, b ∈ newBlocks.filter (fun b =>
      decide (desiredParentUid parentUid ms b =
        desiredParentUid parentUid ms nb)) →
      (((ms.get? b.ref.blockUid).getD b.ref.blockUid = eb.uid) ↔
        (b.ref.blockUid = nb.ref.blockUid)) := by
    intro b hb
    have hbmem : b ∈ newBlocks := List.mem_of_mem_filter hb
    constructor
    · intro htgt
      cases hgb : ms.get? b.ref.blockUid with
      | none =>
        rw [hgb] at htgt
        simp only [Option.getD_none] at htgt
        exact absurd htgt (hdisj b hbmem eb hmem)
      | some u =>
        rw [hgb] at htgt
        simp only [Option.getD_some] at htgt
        subst htgt
        exact get?_inj_of_values_nodup ms hvn _ _ _ hgb hmatch
    · intro heq
      rw [heq, hmatch]
      rfl
  have hidx : jsIndexOf ((newBlocks.filter (fun b =>
      decide (desiredParentUid parentUid ms b =
        desiredParentUid parentUid ms nb))).map
      (fun b => (ms.get? b.ref.blockUid).getD b.ref.blockUid)) eb.uid =
      ((desiredSiblingIndex parentUid ms newBlocks nb : Nat) : Int) := by
    rw [jsIndexOf_congr2 _ _ (fun b => b.ref.blockUid) _ _ hiff]
    rw [jsIndexOf_mem_eq_idxOfJ _ _
      (List.mem_map_of_mem (fun b => b.ref.blockUid) hF)]
    rfl
  constructor
  · constructor
    · intro hmv
      rw [diffBlockTrees_eq] at hmv
      rcases List.mem_filterMap.mp hmv with ⟨b, hbmem, hbeq⟩
      unfold moveOf at hbeq
      cases hmb2 : matchedBlock ms ((flattenExistingBlocks existing).foldl
          (fun m eb => m.set eb.uid eb) JMap.empty) b with
      | none => rw [hmb2] at hbeq; simp at hbeq
      | some pr =>
        obtain ⟨u, eb2⟩ := pr
        rw [hmb2] at hbeq
        simp only [] at hbeq
        split at hbeq
        · simp only [Option.some_inj] at hbeq
          have hu : u = eb.uid := by
            have := congrArg (fun a => match a with
              | RoamAction.move x _ _ => x
              | _ => "".data) hbeq
            simpa using this
          subst hu
          have hmsb : ms.get? b.ref.blockUid = some eb.uid := by
            unfold matchedBlock at hmb2
            cases hgb : ms.get? b.ref.blockUid with
            | none =>
              simp only [hgb] at hmb2
              exact Option.noConfusion hmb2
            | some u2 =>
              simp only [hgb] at hmb2
              cases hx2 : ((flattenExistingBlocks existing).foldl
                  (fun m eb => m.set eb.uid eb) JMap.empty).get? u2 with
              | none =>
                simp only [hx2] at hmb2
                exact Option.noConfusion hmb2
              | some e3 =>
                simp only [hx2, Option.some_inj] at hmb2
                have hu2 : u2 = eb.uid := congrArg Prod.fst hmb2
                rw [hu2]
          have hrefs : b.ref.blockUid = nb.ref.blockUid :=
            get?_inj_of_values_nodup ms hvn _ _ _ hmsb hmatch
          have hbnb : b = nb :=
            List.inj_on_of_nodup_map hndref hbmem hnb hrefs
          subst hbnb
          have hprs : eb2 = eb := by
            rw [hmb] at hmb2
            injection hmb2 with hpair
            exact (congrArg Prod.snd hpair).symm
          subst hprs
          rename_i hc
          rw [htoDP] at hc
          simp only [Option.getD_some] at hc
          rw [hL] at hc
          simp only [Option.getD_some] at hc
          rw [hidx] at hc
          exact hc
        · exact absurd hbeq (by simp)
    · intro hcond
      rw [diffBlockTrees_eq]
      apply List.mem_filterMap.mpr
      refine ⟨nb, hnb, ?_⟩
      unfold moveOf
      rw [hmb]
      simp only []
      rw [htoDP]
      simp only [Option.getD_some]
      rw [hL]
      simp only [Option.getD_some]
      rw [hidx]
      rw [if_pos hcond]
  · intro u hu
    rw [diffBlockTrees_eq]
    apply List.mem_filterMap.mpr
    refine ⟨nb, hnb, ?_⟩
    unfold updateOf
    rw [hmb]
    exact hu

/-- Witness for C6: one node for which both a move (parent kept, order 5
to 0) and a text update are staged. -/
theorem c6_move_iff_witness :
    RoamAction.move "X".data
        (desiredParentUid "page".data
          (matchBlocks (flattenExistingBlocks [exW6]) [nbW6]) nbW6)
        ((desiredSiblingIndex "page".data
          (matchBlocks (flattenExistingBlocks [exW6]) [nbW6])
          [nbW6] nbW6 : Nat) : Int) ∈
      (diffBlockTrees [exW6] [nbW6] "page".data).moves ∧
    RoamAction.update "X".data (some "world".data) none ∈
      (diffBlockTrees [exW6] [nbW6] "page".data).updates :=
  ⟨(c6_move_iff [exW6] [nbW6] "page".data nbW6 exW6 (by decide)
      (by decide) (by decide) (by decide)
      (by simp [flattenExistingBlocks, flattenList, flattenOne, exW6])
      (by decide)).1.mpr (by decide),
   (c6_move_iff [exW6] [nbW6] "page".data nbW6 exW6 (by decide)
      (by decide) (by decide) (by decide)
      (by simp [flattenExistingBlocks, flattenList, flattenOne, exW6])
      (by decide)).2
      (RoamAction.update "X".data (some "world".data) none) (by decide)⟩

/-! ### Claim C9: unknown parent references are silently resolved -/

/-- A desired node whose parent reference (`"ghost"`) names neither the
page nor any desired or existing node produces an ordinary result: a
create targeted at the unknown uid itself, with no error signal of any
kind (the result type has no error channel and `desiredParentUid` falls
back to the unresolved reference). -/
theorem c9_ghost_parent_silent :
    diffBlockTrees [] [nbGhost] "page".data =
      { creates := [RoamAction.create "ghost".data (JOrder.num 0)
          "r1".data "hi".data none (some true)],
        updates := [], moves := [], deletes := [],
        preservedUids := [] } := by
  decide

/-! ### Claim C3: the attachment rule of the parser -/

theorem getq_set (l : List (Option Nat)) (i : Nat) (a : Option Nat)
    (n : Nat) : (l.set i a).get? n =
      if n = i ∧ n < l.length then some a else l.get? n := by
  induction l generalizing i n with
  | nil => simp
  | cons x xs ih =>
    cases i with
    | zero =>
      cases n with
      | zero => simp [List.set]
      | succ n2 => simp [List.set]
    | succ i2 =>
      cases n with
      | zero => simp [List.set]
      | succ n2 =>
        have hL : ((x :: xs).set (i2 + 1) a).get? (n2 + 1) =
            (xs.set i2 a).get? n2 := rfl
        have hR : (x :: xs).get? (n2 + 1) = xs.get? n2 := rfl
        rw [hL, ih, hR]
        have hcond : (n2 = i2 ∧ n2 < xs.length) ↔
            ((n2 + 1 = i2 + 1) ∧ (n2 + 1 < (x :: xs).length)) := by
          simp [Nat.succ_lt_succ_iff]
        by_cases hc : n2 = i2 ∧ n2 < xs.length
        · rw [if_pos hc, if_pos (hcond.mp hc)]
        · rw [if_neg hc, if_neg (fun hcc => hc (hcond.mpr hcc))]

theorem getq_replicate (m j : Nat) :
    (List.replicate m (none : Option Nat)).get? j =
      if j < m then some none else none := by
  induction m generalizing j with
  | zero => simp
  | succ k ih =>
    cases j with
    | zero => simp [List.replicate]
    | succ j2 =>
      simp only [List.replicate, List.get?_cons_succ, ih,
        Nat.succ_lt_succ_iff]

theorem jsSet_getq (s : List (Option Nat)) (i : Nat) (v : Nat) (n : Nat) :
    (jsSet s i v).get? n =
      if n = i then some (some v)
      else if n < s.length then s.get? n
      else if n < i then some none
      else none := by
  unfold jsSet
  by_cases h : s.length ≤ i
  · simp only [h, if_true]
    rw [getq_set]
    by_cases hn : n = i
    · subst hn
      rw [if_pos ⟨rfl, by simp [List.length_replicate]; omega⟩, if_pos rfl]
    · rw [if_neg (fun hc => hn hc.1), if_neg hn]
      by_cases h2 : n < s.length
      · rw [List.get?_append h2, if_pos h2]
      · rw [List.get?_append_right (by omega), getq_replicate]
        by_cases h3 : n < i
        · rw [if_pos (by omega), if_neg h2, if_pos h3]
        · rw [if_neg (by omega), if_neg h2, if_neg h3]
  · simp only [h, if_false]
    rw [getq_set]
    by_cases hn : n = i
    · subst hn
      rw [if_pos ⟨rfl, by omega⟩, if_pos rfl]
    · rw [if_neg (fun hc => hn hc.1), if_neg hn]
      by_cases h2 : n < s.length
      · rw [if_pos h2]
      · rw [if_neg h2, if_neg (by omega)]
        exact List.get?_eq_none.mpr (by omega)

theorem jsSet_length (s : List (Option Nat)) (i : Nat) (v : Nat) :
    (jsSet s i v).length = max s.length (i + 1) := by
  unfold jsSet
  by_cases h : s.length ≤ i
  · simp only [h, if_true, List.length_set, List.length_append,
      List.length_replicate]
    omega
  · simp only [h, if_false, List.length_set]
    omega

theorem jsSet_jsSet_self (s : List (Option Nat)) (i v : Nat) :
    jsSet (jsSet s i v) i v = jsSet s i v := by
  apply List.ext_get?
  intro n
  simp only [jsSet_getq, jsSet_length]
  split_ifs <;> first | rfl | omega

theorem jsSet_comm (s : List (Option Nat)) (i j v w : Nat) (hij : i ≠ j) :
    jsSet (jsSet s i v) j w = jsSet (jsSet s j w) i v := by
  apply List.ext_get?
  intro n
  simp only [jsSet_getq, jsSet_length]
  split_ifs <;> first | rfl | omega

/-- C3 (amended): the parser follows the specification's attachment rule
in the non-root and level-0 cases, but a new root created at a level
`L > 0` additionally assigns `stack[0]` (so a later shallower line can
attach under a root created at a deeper level). -/
theorem c3_attach_rule (st : ParseSt) (lvl : Nat) (content : JStr)
    (h : Nat) :
    (¬(lvl = 0 ∨ stackGet (st.stack.take lvl) (lvl - 1) = none) →
      attachStep st lvl content h = attachStepSpec st lvl content h) ∧
    (lvl = 0 →
      attachStep st lvl content h = attachStepSpec st lvl content h) ∧
    ((lvl ≠ 0 ∧ stackGet (st.stack.take lvl) (lvl - 1) = none) →
      attachStep st lvl content h =
        { attachStepSpec st lvl content h with
            stack := jsSet (attachStepSpec st lvl content h).stack 0
              st.arena.length }) := by
  refine ⟨?_, ?_, ?_⟩
  · intro hc
    unfold attachStep attachStepSpec
    simp only []
    rw [if_neg hc, if_neg hc]
  · intro h0
    subst h0
    unfold attachStep attachStepSpec
    simp only []
    split
    · rw [jsSet_jsSet_self]
    · rfl
  · intro hc
    unfold attachStep attachStepSpec
    simp only []
    split
    · rw [jsSet_comm _ _ _ _ _ (fun hz => hc.1 hz.symm)]
    · rename_i hfalse
      exact absurd (Or.inr hc.2) hfalse

/-- C3 is false as stated: a bullet at indentation 4 creates a root at
level 2 and also fills `stack[0]`, so the following bullet at level 1
attaches under it; the specification's rule would have produced two
roots. -/
theorem c3_counterexample :
    parseMarkdown "    - deep\n  - shallow".data =
      [MarkdownNode.node "deep".data 2 0
        [MarkdownNode.node "shallow".data 1 0 []]] ∧
    parseMarkdownSpec "    - deep\n  - shallow".data =
      [MarkdownNode.node "deep".data 2 0 [],
       MarkdownNode.node "shallow".data 1 0 []] :=
  ⟨rfl, rfl⟩

/-- Witness for the amended C3 at the deep-root input: the deep-level
root case rewrites the spec-rule stack with an additional `stack[0]`
assignment. -/
theorem c3_attach_rule_witness :
    attachStep initSt 2 "deep".data 0 =
      { attachStepSpec initSt 2 "deep".data 0 with
          stack := jsSet (attachStepSpec initSt 2 "deep".data 0).stack 0
            initSt.arena.length } :=
  (c3_attach_rule initSt 2 "deep".data 0).2.2 ⟨by decide, by decide⟩

/-! ### Claim C4: the fence dedent -/

theorem enumFrom_getq {α : Type} :
    ∀ (l : List α) (k n : Nat),
      (List.enumFrom k l).get? n = (l.get? n).map (fun a => (k + n, a))
  | [], _, _ => by simp
  | _ :: _, _, 0 => by simp
  | x :: xs, k, n + 1 => by
    rw [show List.enumFrom k (x :: xs) =
      (k, x) :: List.enumFrom (k + 1) xs from rfl]
    rw [List.get?_cons_succ, enumFrom_getq xs (k + 1) n,
      List.get?_cons_succ]
    cases xs.get? n with
    | none => rfl
    | some a =>
      simp only [Option.map_some']
      rw [show k + 1 + n = k + (n + 1) by omega]

/-- C4 (amended): the common leading whitespace is the `[\t ]*` run of
the FIRST non-blank interior line; an interior line keeps its tail after
that prefix when it starts with it, a blank interior line becomes empty,
and any other interior line is fully left-trimmed. -/
theorem c4_dedent_rule (ls : List JStr) (i : Nat) (l : JStr)
    (hi : 0 < i) (hlast : i < ls.length - 1) (hget : ls.get? i = some l) :
    ((dedentCodeLines ls (baseIndentOf ls)).get? i =
      some (if jtrim l = [] then []
        else if startsWithL l (baseIndentOf ls) then
          l.drop (baseIndentOf ls).length
        else trimStartL l)) ∧
    baseIndentOf ls =
      (match ((ls.drop 1).take (ls.length - 2)).find?
          (fun l2 => decide (jtrim l2 ≠ [])) with
        | some l2 => leadTabSpace l2
        | none => []) := by
  constructor
  · unfold dedentCodeLines
    rw [List.get?_map]
    have henum : ls.enum.get? i = (ls.get? i).map (fun a => (0 + i, a)) :=
      enumFrom_getq ls 0 i
    rw [henum, hget]
    simp only [Option.map_some', Nat.zero_add]
    rw [if_neg (by omega)]
  · rfl

/-- C4 is false as stated: with interior indentations 4 (first) and 2,
the code strips 4 from the first and fully trims the second, collapsing
the relative indentation, while the claimed minimum-dedent would strip 2
from both. -/
theorem c4_counterexample :
    parseMarkdown c4input =
      [MarkdownNode.node (fenceMark ++ ('\n' :: "a\nb\n".data) ++
        fenceMark) 0 0 []] ∧
    joinNl (dedentCodeLinesSpec (splitOnNl c4input)) =
      fenceMark ++ ('\n' :: "  a\nb\n".data) ++ fenceMark ∧
    ¬(fenceMark ++ ('\n' :: "a\nb\n".data) ++ fenceMark =
      fenceMark ++ ('\n' :: "  a\nb\n".data) ++ fenceMark) :=
  ⟨rfl, by decide, by decide⟩

/-- Witness for the amended C4 at the interior line `"  b"` of the
concrete fence: it does not start with the 4-space base, so it is fully
left-trimmed. -/
theorem c4_dedent_rule_witness :
    (dedentCodeLines (splitOnNl c4input)
        (baseIndentOf (splitOnNl c4input))).get? 2 =
      some (if jtrim "  b".data = [] then []
        else if startsWithL "  b".data (baseIndentOf (splitOnNl c4input))
          then "  b".data.drop (baseIndentOf (splitOnNl c4input)).length
        else trimStartL "  b".data) :=
  (c4_dedent_rule (splitOnNl c4input) 2 "  b".data (by decide) (by decide)
    (by decide)).1

/-! ### Claim C2: inline passes are the identity on clean text -/

theorem mem_of_mem_takeWhileJ {α : Type} (p : α → Bool) :
    ∀ (l : List α) (x : α), x ∈ l.takeWhile p → x ∈ l
  | [], x, h => by simp at h
  | a :: as, x, h => by
    rw [List.takeWhile_cons] at h
    split at h
    · rcases List.mem_cons.mp h with rfl | h2
      · simp
      · exact List.mem_cons_of_mem _ (mem_of_mem_takeWhileJ p as x h2)
    · simp at h

theorem emphPassF_id (m : Char) :
    ∀ (fuel : Nat) (prev : Option Char) (s : JStr), m ∉ s →
      emphPassF m fuel prev s = s
  | 0, _, s, _ => by cases s <;> rfl
  | _ + 1, _, [], _ => rfl
  | fuel + 1, prev, c :: rest, h => by
    have hc : ¬(c = m) := fun hh => h (hh ▸ List.mem_cons_self c rest)
    have hr : m ∉ rest := fun hh => h (List.mem_cons_of_mem _ hh)
    unfold emphPassF
    rw [if_neg (by simp [hc])]
    rw [emphPassF_id m fuel (some c) rest hr]

theorem hlPassF_id :
    ∀ (fuel : Nat) (s : JStr), '=' ∉ s → hlPassF fuel s = s
  | 0, s, _ => by cases s <;> rfl
  | _ + 1, [], _ => rfl
  | fuel + 1, c :: rest, h => by
    have hc : ¬(c = '=') := fun hh => h (hh ▸ List.mem_cons_self c rest)
    have hr : ('=' : Char) ∉ rest := fun hh => h (List.mem_cons_of_mem _ hh)
    unfold hlPassF
    rw [if_neg (by simp [hc])]
    rw [hlPassF_id fuel rest hr]

theorem startsWithL_mem (s p : JStr) (h : startsWithL s p = true) :
    ∀ c, c ∈ p → c ∈ s := by
  intro c hc
  unfold startsWithL at h
  have hp : s.take p.length = p := of_decide_eq_true h
  rw [← hp] at hc
  exact List.mem_of_mem_take hc

theorem replaceSubF_id (pat rep : JStr) (x : Char) (hx : x ∈ pat) :
    ∀ (fuel : Nat) (s : JStr), x ∉ s → replaceSubF pat rep fuel s = s
  | 0, s, _ => by cases s <;> rfl
  | _ + 1, [], _ => rfl
  | fuel + 1, c :: rest, h => by
    have hns : ¬(startsWithL (c :: rest) pat = true) := fun hh =>
      h (startsWithL_mem _ _ hh x hx)
    have hr : x ∉ rest := fun hh => h (List.mem_cons_of_mem _ hh)
    unfold replaceSubF
    rw [if_neg hns]
    rw [replaceSubF_id pat rep x hx fuel rest hr]

theorem matchTable_none (s : JStr) (h : '|' ∉ s) : matchTable s = none := by
  unfold matchTable
  have hbc : isBarCells (s.takeWhile (fun c => decide (c ≠ '\n'))) = false := by
    cases hs : s.takeWhile (fun c => decide (c ≠ '\n')) with
    | nil => rfl
    | cons c rest =>
      unfold isBarCells
      by_cases hc : c = '|'
      · exfalso
        apply h
        have : c ∈ s.takeWhile (fun c => decide (c ≠ '\n')) := by
          rw [hs]; simp
        exact hc ▸ mem_of_mem_takeWhileJ _ _ _ this
      · simp only []
        split
        · rename_i heq
          exact absurd (congrArg (fun l => l.head?) heq) (by simpa using hc)
        · rfl
  simp only [hbc]
  rfl

theorem tableGoF_id :
    ∀ (fuel : Nat) (b : Bool) (s : JStr), '|' ∉ s → tableGoF fuel b s = s
  | 0, _, s, _ => by cases s <;> rfl
  | _ + 1, _, [], _ => rfl
  | fuel + 1, b, c :: rest, h => by
    have hr : ('|' : Char) ∉ rest := fun hh => h (List.mem_cons_of_mem _ hh)
    unfold tableGoF
    cases b with
    | false =>
      rw [if_neg (by simp)]
      rw [tableGoF_id fuel (c = '\n') rest hr]
    | true =>
      rw [if_pos rfl]
      rw [matchTable_none _ h]
      rw [tableGoF_id fuel (c = '\n') rest hr]

theorem convertToRoamMarkdown_id (s : JStr)
    (h : ∀ c, c ∈ s → (c = '*' ∨ c = '_' ∨ c = '=' ∨ c = '[' ∨ c = '|') →
      False) :
    convertToRoamMarkdown s = s := by
  unfold convertToRoamMarkdown
  simp only []
  unfold emphPass hlPass replaceSub convertAllTables
  rw [emphPassF_id '*' s.length none s (fun hm => h _ hm (by simp))]
  rw [emphPassF_id '_' s.length none s (fun hm => h _ hm (by simp))]
  rw [hlPassF_id s.length s (fun hm => h _ hm (by simp))]
  rw [replaceSubF_id todoPat todoRep '[' (by decide) s.length s
    (fun hm => h _ hm (by simp))]
  rw [replaceSubF_id donePat doneRep '[' (by decide) s.length s
    (fun hm => h _ hm (by simp))]
  rw [tableGoF_id s.length true s (fun hm => h _ hm (by simp))]

/-! ### Clean texts and the shape of rendered lines -/

theorem dropWhile_len_eq (p : Char → Bool) (l : JStr)
    (h : (l.dropWhile p).length = l.length) : l.dropWhile p = l := by
  induction l with
  | nil => rfl
  | cons a as ih =>
    rw [List.dropWhile_cons]
    by_cases hp : p a
    · exfalso
      rw [List.dropWhile_cons, if_pos hp] at h
      have := len_dropWhile_le p as
      simp at h
      omega
    · rw [if_neg hp]

theorem jtrim_self_parts (t : JStr) (h : jtrim t = t) :
    trimStartL t = t ∧ trimEndL t = t := by
  have h1 : (trimEndL t).length ≤ t.length := by
    unfold trimEndL
    rw [List.length_reverse]
    have := len_dropWhile_le isWsChar t.reverse
    simpa using this
  have h2 : (jtrim t).length ≤ (trimEndL t).length := by
    unfold jtrim trimStartL
    exact len_dropWhile_le _ _
  rw [h] at h2
  have hEnd : trimEndL t = t := by
    unfold trimEndL
    have : (t.reverse.dropWhile isWsChar).length = t.reverse.length := by
      have hh : (trimEndL t).length = t.length := by omega
      unfold trimEndL at hh
      rw [List.length_reverse] at hh ⊢
      simpa using hh
    rw [dropWhile_len_eq _ _ this]
    exact List.reverse_reverse t
  refine ⟨?_, hEnd⟩
  have := h
  unfold jtrim at this
  rw [hEnd] at this
  exact this

theorem head_not_ws_of_trimStart (t : JStr) (h : trimStartL t = t)
    (c : Char) (rest : JStr) (ht : t = c :: rest) : isWsChar c = false := by
  subst ht
  unfold trimStartL at h
  rw [List.dropWhile_cons] at h
  by_cases hw : isWsChar c
  · rw [if_pos hw] at h
    have := len_dropWhile_le isWsChar rest
    have hlen := congrArg List.length h
    simp at hlen
    omega
  · simpa using hw

theorem dropWhile_cons_neg {α : Type} (p : α → Bool) (c : α) (rest : List α)
    (h : ¬p c) : (c :: rest).dropWhile p = c :: rest := by
  rw [List.dropWhile_cons, if_neg h]

theorem takeWhile_replicate_stop (n : Nat) (c : Char) (rest : JStr)
    (hc : ¬isWsChar c) :
    (List.replicate n ' ' ++ c :: rest).takeWhile isWsChar =
      List.replicate n ' ' := by
  induction n with
  | zero =>
    simp only [List.replicate, List.nil_append, List.takeWhile_cons]
    rw [if_neg hc]
  | succ m ih =>
    rw [List.replicate_succ, List.cons_append, List.takeWhile_cons,
      if_pos (by decide), ih]

theorem dropWhile_replicate_stop (n : Nat) (c : Char) (rest : JStr)
    (hc : ¬isWsChar c) :
    (List.replicate n ' ' ++ c :: rest).dropWhile isWsChar = c :: rest := by
  induction n with
  | zero =>
    simp only [List.replicate, List.nil_append]
    exact dropWhile_cons_neg _ _ _ hc
  | succ m ih =>
    rw [List.replicate_succ, List.cons_append, List.dropWhile_cons,
      if_pos (by decide), ih]

theorem trimEnd_append_clean (pre t : JStr) (hend : trimEndL t = t)
    (hne : t ≠ []) : trimEndL (pre ++ t) = pre ++ t := by
  unfold trimEndL
  rw [List.reverse_append]
  cases hr : t.reverse with
  | nil => exact absurd (by simpa using congrArg List.reverse hr) hne
  | cons h hs =>
    have hh : isWsChar h = false := by
      unfold trimEndL at hend
      rw [hr] at hend
      by_cases hw : isWsChar h
      · exfalso
        rw [List.dropWhile_cons, if_pos hw] at hend
        have hlen := congrArg List.length hend
        have := len_dropWhile_le isWsChar hs
        rw [List.length_reverse] at hlen
        have hlr : t.length = hs.length + 1 := by
          have := congrArg List.length hr
          simp at this
          omega
        omega
      · simpa using hw
    rw [List.cons_append, dropWhile_cons_neg _ _ _ (by simp [hh])]
    rw [← List.cons_append, ← hr, List.reverse_append]
    simp

theorem lineOf_trimEnd (d : Nat) (t : JStr) (hend : trimEndL t = t)
    (hne : t ≠ []) : trimEndL (lineOf d t) = lineOf d t := by
  unfold lineOf
  have h2 : trimEndL ('-' :: ' ' :: t) = '-' :: ' ' :: t := by
    have := trimEnd_append_clean ['-', ' '] t hend hne
    simpa using this
  have := trimEnd_append_clean (List.replicate (2 * d) ' ')
    ('-' :: ' ' :: t) h2 (by simp)
  exact this

theorem lineOf_trimStart (d : Nat) (t : JStr) :
    trimStartL (lineOf d t) = '-' :: ' ' :: t := by
  unfold lineOf trimStartL
  exact dropWhile_replicate_stop _ _ _ (by decide)

theorem lineOf_ne_nil (d : Nat) (t : JStr) : lineOf d t ≠ [] := by
  unfold lineOf
  cases h : List.replicate (2 * d) ' ' <;> simp

theorem lineOf_not_fence (d : Nat) (t : JStr) :
    startsWithL (trimStartL (lineOf d t)) fenceMark = false := by
  rw [lineOf_trimStart]
  unfold startsWithL
  apply decide_eq_false
  intro h
  have hh : some '-' = some tick := by
    have := congrArg (fun l => l.head?) h
    simpa [fenceMark] using this
  simp at hh
  exact absurd hh (by decide)
theorem bulletSplit_lineOf (d : Nat) (t : JStr) (c0 : Char) (r0 : JStr)
    (ht : t = c0 :: r0) (hhd : isWsChar c0 = false) :
    bulletSplit (lineOf d t) = some (2 * d, t) := by
  unfold bulletSplit
  have hws : leadWs (lineOf d t) = List.replicate (2 * d) ' ' := by
    unfold leadWs lineOf
    exact takeWhile_replicate_stop _ _ _ (by decide)
  rw [hws]
  have hdrop : (lineOf d t).drop (List.replicate (2 * d) ' ').length =
      '-' :: ' ' :: t := by
    unfold lineOf
    rw [List.length_replicate, List.drop_append_of_le_length (by simp)]
    simp
  simp only []
  simp only [hdrop]
  rw [if_pos (Or.inl trivial)]
  rw [if_pos (show isWsChar ' ' = true from by decide)]
  rw [List.length_replicate]
  subst ht
  rw [show ((' ' :: c0 :: r0).dropWhile isWsChar) = c0 :: r0 from by
    rw [List.dropWhile_cons, if_pos (by decide),
      dropWhile_cons_neg _ _ _ (by simp [hhd])]]

theorem headingLevel_clean (t : JStr) (c0 : Char) (r0 : JStr)
    (ht : t = c0 :: r0) (hc0 : ¬c0 = '#') (htr : jtrim t = t) :
    parseMarkdownHeadingLevel t = (0, t) := by
  unfold parseMarkdownHeadingLevel
  subst ht
  have hr : ((c0 :: r0).takeWhile (fun c => decide (c = '#'))).length = 0 := by
    rw [List.takeWhile_cons, if_neg (by simpa using hc0)]
    rfl
  rw [hr]
  simp only []
  rw [if_neg (by omega)]
  rw [htr]

theorem no_tick_no_fence (s : JStr) (h : tick ∉ s) (i : Nat) :
    startsWithL (s.drop i) fenceMark = false := by
  apply decide_eq_false
  intro hh
  cases hs : s.drop i with
  | nil =>
    rw [hs] at hh
    simp [fenceMark] at hh
  | cons c rest =>
    rw [hs] at hh
    have hc : c = tick := by
      have := congrArg (fun l => l.head?) hh
      simpa [fenceMark] using this
    apply h
    rw [← hc]
    have : c ∈ s.drop i := by rw [hs]; simp
    exact List.mem_of_mem_drop this

theorem preprocessLine_clean (l : JStr) (h : tick ∉ l)
    (hte : trimEndL l = l) : preprocessLine l = [l] := by
  unfold preprocessLine
  rw [hte]
  have hnone : indexOfSub l fenceMark = none := by
    unfold indexOfSub
    rw [List.find?_eq_none]
    intro i hi
    simp [no_tick_no_fence l h i]
  simp only []
  rw [hnone]
theorem cleanChars_mem (t : JStr) (h : cleanChars t = true) (c : Char)
    (hc : c ∈ t) :
    ¬c = '*' ∧ ¬c = '_' ∧ ¬c = '=' ∧ ¬c = tick ∧ ¬c = '|' ∧ ¬c = '#' ∧
      ¬c = '[' ∧ ¬c = '\n' ∧ ¬c = '\r' ∧ ¬c = '\t' := by
  unfold cleanChars at h
  have h2 := List.all_eq_true.mp h c hc
  simp at h2
  exact ⟨h2.1.1.1.1.1.1.1.1.1, h2.1.1.1.1.1.1.1.1.2, h2.1.1.1.1.1.1.1.2,
    h2.1.1.1.1.1.1.2, h2.1.1.1.1.1.2, h2.1.1.1.1.2, h2.1.1.1.2, h2.1.1.2,
    h2.1.2, h2.2⟩

theorem stepLine_clean (st : ParseSt) (d : Nat) (t : JStr)
    (hin : st.inCode = false) (hcc : cleanChars t = true)
    (htr : jtrim t = t) (hne : t ≠ []) :
    stepLine st (lineOf d t) = attachStep st d t 0 := by
  obtain ⟨c0, r0, ht⟩ : ∃ c0 r0, t = c0 :: r0 := by
    cases t with
    | nil => exact absurd rfl hne
    | cons a b => exact ⟨a, b, rfl⟩
  have hparts := jtrim_self_parts t htr
  have hhd : isWsChar c0 = false :=
    head_not_ws_of_trimStart t hparts.1 c0 r0 ht
  have hc0f := cleanChars_mem t hcc c0 (ht ▸ List.mem_cons_self c0 r0)
  unfold stepLine
  simp only []
  rw [lineOf_trimEnd d t hparts.2 hne]
  rw [if_neg (show ¬(startsWithL (trimStartL (lineOf d t)) fenceMark =
    true) from by rw [lineOf_not_fence]; simp)]
  rw [if_neg (show ¬(st.inCode = true) from by rw [hin]; simp)]
  rw [if_neg (lineOf_ne_nil d t)]
  rw [bulletSplit_lineOf d t c0 r0 ht hhd]
  simp only []
  rw [headingLevel_clean t c0 r0 ht hc0f.2.2.2.2.2.1 htr]
  simp only []
  rw [show 2 * d / 2 = d from by omega]
theorem snapNode_parts (pu : Option JStr) (ord : Int) (u t : JStr)
    (o : Int) (h : Option Nat) (cs : List ExistingBlock) (p : Option JStr)
    (hs : snapNode pu ord (.mk u t o h cs p) = true) :
    p = pu ∧ o = ord ∧ h = none ∧ cleanChars t = true ∧ jtrim t = t ∧
      t ≠ [] ∧ snapList (some u) 0 cs = true := by
  unfold snapNode at hs
  simp only [Bool.and_eq_true, beq_iff_eq, Bool.not_eq_true',
    decide_eq_true_eq] at hs
  refine ⟨hs.1.1.1.1.1.1, hs.1.1.1.1.1.2, hs.1.1.1.1.2, hs.1.1.1.2,
    hs.1.1.2, ?_, hs.2⟩
  have := hs.1.2
  simp at this
  exact this

theorem snapList_parts (pu : Option JStr) (ord : Int) (b : ExistingBlock)
    (bs : List ExistingBlock) (hs : snapList pu ord (b :: bs) = true) :
    snapNode pu ord b = true ∧ snapList pu (ord + 1) bs = true := by
  unfold snapList at hs
  simpa using hs

theorem linesNode_ne_nil (d : Nat) (b : ExistingBlock) :
    linesNode d b ≠ [] := by
  cases b
  unfold linesNode
  simp

theorem linesList_ne_nil (d : Nat) (b : ExistingBlock)
    (bs : List ExistingBlock) : linesList d (b :: bs) ≠ [] := by
  unfold linesList
  intro h
  rcases List.append_eq_nil.mp h with ⟨h1, _⟩
  exact linesNode_ne_nil d b h1

theorem joinNl_append (a b : List JStr) (ha : a ≠ []) (hb : b ≠ []) :
    joinNl (a ++ b) = joinNl a ++ '\n' :: joinNl b := by
  induction a with
  | nil => exact absurd rfl ha
  | cons a0 as ih =>
    cases as with
    | nil =>
      cases b with
      | nil => exact absurd rfl hb
      | cons b0 bs => rfl
    | cons a1 as2 =>
      have h2 := ih (by simp)
      rw [show (a0 :: a1 :: as2) ++ b = a0 :: ((a1 :: as2) ++ b) from rfl]
      rw [show joinNl (a0 :: (a1 :: as2 ++ b)) =
        a0 ++ '\n' :: joinNl (a1 :: as2 ++ b) from by
          cases as2 <;> cases b <;> rfl]
      rw [h2]
      rw [show joinNl (a0 :: a1 :: as2) = a0 ++ '\n' :: joinNl (a1 :: as2)
        from rfl]
      simp

theorem mem_lineOf (d : Nat) (t : JStr) (c : Char) (hc : c ∈ lineOf d t) :
    c = ' ' ∨ c = '-' ∨ c ∈ t := by
  unfold lineOf at hc
  rcases List.mem_append.mp hc with h1 | h1
  · exact Or.inl (List.eq_of_mem_replicate h1)
  · rcases List.mem_cons.mp h1 with rfl | h2
    · exact Or.inr (Or.inl rfl)
    · rcases List.mem_cons.mp h2 with rfl | h3
      · exact Or.inl rfl
      · exact Or.inr (Or.inr h3)

theorem mem_joinNl (ls : List JStr) (c : Char) (hc : c ∈ joinNl ls) :
    c = '\n' ∨ ∃ l, l ∈ ls ∧ c ∈ l := by
  induction ls with
  | nil => simp [joinNl] at hc
  | cons l rest ih =>
    cases rest with
    | nil => exact Or.inr ⟨l, by simp, hc⟩
    | cons l2 rest2 =>
      rw [show joinNl (l :: l2 :: rest2) =
        l ++ '\n' :: joinNl (l2 :: rest2) from rfl] at hc
      rcases List.mem_append.mp hc with h1 | h1
      · exact Or.inr ⟨l, by simp, h1⟩
      · rcases List.mem_cons.mp h1 with rfl | h2
        · exact Or.inl rfl
        · rcases ih h2 with h3 | ⟨l3, hl3, hcl3⟩
          · exact Or.inl h3
          · exact Or.inr ⟨l3, List.mem_cons_of_mem _ hl3, hcl3⟩

theorem render_lines (n : Nat) :
    (∀ (b : ExistingBlock), sizeOf b ≤ n →
      ∀ (pu : Option JStr) (ord : Int) (d : Nat),
        snapNode pu ord b = true →
        blockToMd (existingToRoam b) d = joinNl (linesNode d b)) ∧
    (∀ (F : List ExistingBlock), sizeOf F ≤ n →
      ∀ (pu : Option JStr) (ord : Int) (d : Nat),
        snapList pu ord F = true → F ≠ [] →
        joinNl (blocksToMdList (existingToRoamList F) d) =
          joinNl (linesList d F)) := by
  induction n with
  | zero =>
    constructor
    · intro b hb
      cases b with
      | mk u t o h cs p => simp at hb
    · intro F hF pu ord d _ hne
      cases F with
      | nil => exact absurd rfl hne
      | cons b bs => simp at hF
  | succ n ih =>
    constructor
    · intro b hb pu ord d hs
      cases b with
      | mk u t o h cs p =>
        obtain ⟨hp, ho, hh, hcc, htr, hne, hcs⟩ :=
          snapNode_parts pu ord u t o h cs p hs
        subst hh
        unfold existingToRoam blockToMd linesNode
        simp only []
        cases hcs2 : existingToRoamList cs with
        | nil =>
          have hcsnil : cs = [] := by
            cases cs with
            | nil => rfl
            | cons c cs2 => exact absurd hcs2 (by unfold existingToRoamList; simp)
          subst hcsnil
          rfl
        | cons c cs2 =>
          have hcsne : cs ≠ [] := by
            intro hcc2
            subst hcc2
            exact absurd hcs2.symm (by unfold existingToRoamList; simp)
          have hsz : sizeOf cs ≤ n := by
            have : sizeOf (ExistingBlock.mk u t o none cs p) ≤ n + 1 := hb
            simp at this
            omega
          have hrec := (ih.2 cs hsz (some u) 0 (d + 1) hcs hcsne)
          simp only [hcs2]
          rw [← hcs2, hrec]
          cases hcl : cs with
          | nil => exact absurd hcl hcsne
          | cons cb cbs =>
            rw [show joinNl (lineOf d t :: linesList (d + 1) (cb :: cbs)) =
              lineOf d t ++ '\n' :: joinNl (linesList (d + 1) (cb :: cbs))
              from by
                cases hx : linesList (d + 1) (cb :: cbs) with
                | nil => exact absurd hx (linesList_ne_nil _ _ _)
                | cons y ys => rfl]
            simp [lineOf]
    · intro F hF pu ord d hs hne
      cases F with
      | nil => exact absurd rfl hne
      | cons b bs =>
        obtain ⟨hb1, hb2⟩ := snapList_parts pu ord b bs hs
        have hcons : sizeOf (b :: bs) = 1 + sizeOf b + sizeOf bs :=
          List.cons.sizeOf_spec b bs
        have hszb : sizeOf b ≤ n := by omega
        have h1 := ih.1 b hszb pu ord d hb1
        cases bs with
        | nil =>
          rw [show joinNl (blocksToMdList (existingToRoamList [b]) d) =
            blockToMd (existingToRoam b) d from rfl, h1]
          rw [show linesList d [b] = linesNode d b ++ linesList d [] from
            rfl]
          rw [show linesList d ([] : List ExistingBlock) = [] from rfl,
            List.append_nil]
        | cons b2 bs2 =>
          have hszr : sizeOf (b2 :: bs2) ≤ n := by omega
          have h2 := ih.2 (b2 :: bs2) hszr pu (ord + 1) d hb2 (by simp)
          unfold existingToRoamList blocksToMdList linesList
          rw [show joinNl (blockToMd (existingToRoam b) d ::
            blocksToMdList (existingToRoamList (b2 :: bs2)) d) =
            blockToMd (existingToRoam b) d ++ '\n' ::
              joinNl (blocksToMdList (existingToRoamList (b2 :: bs2)) d)
            from by
              cases hx : blocksToMdList (existingToRoamList (b2 :: bs2)) d
                with
              | nil =>
                exfalso
                revert hx
                unfold existingToRoamList blocksToMdList
                simp
              | cons y ys => rfl]
          rw [h1, h2]
          rw [joinNl_append _ _ (linesNode_ne_nil d b)
            (linesList_ne_nil d b2 bs2)]
/-! ### Arena bookkeeping lemmas -/

theorem flattenOne_length_pos (b : ExistingBlock) :
    1 ≤ (flattenOne b).length := by
  cases b
  unfold flattenOne
  simp

theorem arena_lengths (n : Nat) :
    (∀ b : ExistingBlock, sizeOf b ≤ n → ∀ d base,
      (arenaNode d base b).length = (flattenOne b).length) ∧
    (∀ F : List ExistingBlock, sizeOf F ≤ n → ∀ d base,
      (arenaList d base F).length = (flattenList F).length) := by
  induction n with
  | zero =>
    constructor
    · intro b hb
      cases b with
      | mk u t o h cs p => simp at hb
    · intro F hF d base
      cases F with
      | nil => rfl
      | cons b bs => simp at hF
  | succ n ih =>
    constructor
    · intro b hb d base
      cases b with
      | mk u t o h cs p =>
        unfold arenaNode flattenOne
        simp only [List.length_cons, List.length_append]
        have hsz : sizeOf cs ≤ n := by
          have := hb
          simp at this
          omega
        rw [ih.2 cs hsz]
    · intro F hF d base
      cases F with
      | nil => rfl
      | cons b bs =>
        unfold arenaList flattenList
        have hc : sizeOf (b :: bs) = 1 + sizeOf b + sizeOf bs :=
          List.cons.sizeOf_spec b bs
        rw [List.length_append, List.length_append,
          ih.1 b (by omega) d base, ih.2 bs (by omega) d
            (base + (flattenOne b).length)]

theorem nbs_lengths (n : Nat) :
    (∀ b : ExistingBlock, sizeOf b ≤ n → ∀ gen pref sib ctr,
      (nbsNode gen pref sib ctr b).length = (flattenOne b).length) ∧
    (∀ F : List ExistingBlock, sizeOf F ≤ n → ∀ gen pref sib ctr,
      (nbsList gen pref sib ctr F).length = (flattenList F).length) := by
  induction n with
  | zero =>
    constructor
    · intro b hb
      cases b with
      | mk u t o h cs p => simp at hb
    · intro F hF gen pref sib ctr
      cases F with
      | nil => rfl
      | cons b bs => simp at hF
  | succ n ih =>
    constructor
    · intro b hb gen pref sib ctr
      cases b with
      | mk u t o h cs p =>
        unfold nbsNode flattenOne
        simp only [List.length_cons, List.length_append]
        have hsz : sizeOf cs ≤ n := by
          have := hb
          simp at this
          omega
        rw [ih.2 cs hsz]
    · intro F hF gen pref sib ctr
      cases F with
      | nil => rfl
      | cons b bs =>
        unfold nbsList flattenList
        have hc : sizeOf (b :: bs) = 1 + sizeOf b + sizeOf bs :=
          List.cons.sizeOf_spec b bs
        rw [List.length_append, List.length_append,
          ih.1 b (by omega) gen pref sib ctr, ih.2 bs (by omega) gen pref
            (sib + 1) (ctr + (flattenOne b).length)]

theorem set_append_left {α : Type} :
    ∀ (a b : List α) (j : Nat) (x : α), j < a.length →
      (a ++ b).set j x = a.set j x ++ b
  | [], _, j, _, h => by simp at h
  | y :: ys, b, 0, x, _ => by simp
  | y :: ys, b, j + 1, x, h => by
    show y :: (ys ++ b).set j x = y :: (ys.set j x ++ b)
    rw [set_append_left ys b j x (by simpa using h)]

theorem length_pushChild (a : List MdNodeRec) (j k : Nat) :
    (pushChild a j k).length = a.length := by
  unfold pushChild
  cases h : a.get? j with
  | none => rfl
  | some r => simp

theorem pushChild_append_left (a b : List MdNodeRec) (j k : Nat)
    (h : j < a.length) : pushChild (a ++ b) j k = pushChild a j k ++ b := by
  unfold pushChild
  rw [List.get?_append h]
  cases hj : a.get? j with
  | none =>
    exfalso
    rw [List.get?_eq_none] at hj
    omega
  | some r =>
    show (a ++ b).set j { content := r.content, level := r.level, heading := r.heading, childIdx := r.childIdx ++ [k] } = a.set j { content := r.content, level := r.level, heading := r.heading, childIdx := r.childIdx ++ [k] } ++ b
    exact set_append_left _ _ _ _ h

theorem set_append_at {α : Type} :
    ∀ (a : List α) (y : α) (rest : List α) (x : α),
      (a ++ y :: rest).set a.length x = a ++ x :: rest
  | [], y, rest, x => by simp
  | z :: zs, y, rest, x => by
    show z :: (zs ++ y :: rest).set zs.length x = z :: (zs ++ x :: rest)
    rw [set_append_at zs y rest x]

theorem pushChild_at_start (a : List MdNodeRec) (r : MdNodeRec)
    (rest : List MdNodeRec) (k : Nat) :
    pushChild (a ++ r :: rest) a.length k =
      a ++ { r with childIdx := r.childIdx ++ [k] } :: rest := by
  unfold pushChild
  rw [List.get?_append_right (Nat.le_refl _)]
  simp only [Nat.sub_self, List.get?_cons_zero]
  show (a ++ r :: rest).set a.length { content := r.content, level := r.level, heading := r.heading, childIdx := r.childIdx ++ [k] } = a ++ { content := r.content, level := r.level, heading := r.heading, childIdx := r.childIdx ++ [k] } :: rest
  exact set_append_at a r rest _

theorem length_pushAll (a : List MdNodeRec) (j : Nat) (idxs : List Nat) :
    (pushAll a j idxs).length = a.length := by
  induction idxs generalizing a with
  | nil => rfl
  | cons k ks ih =>
    unfold pushAll
    rw [List.foldl_cons]
    have := ih (pushChild a j k)
    unfold pushAll at this
    rw [this, length_pushChild]

theorem pushAll_append_left (a b : List MdNodeRec) (j : Nat)
    (idxs : List Nat) (h : j < a.length) :
    pushAll (a ++ b) j idxs = pushAll a j idxs ++ b := by
  induction idxs generalizing a with
  | nil => rfl
  | cons k ks ih =>
    unfold pushAll
    rw [List.foldl_cons, List.foldl_cons]
    rw [pushChild_append_left a b j k h]
    have := ih (pushChild a j k) (by rw [length_pushChild]; exact h)
    unfold pushAll at this
    rw [this]

theorem stackGet_take (s : List (Option Nat)) (d m : Nat) (h : m < d) :
    stackGet (s.take d) m = stackGet s m := by
  unfold stackGet
  rw [List.get?_take h]

theorem stackGet_jsSet_self (s : List (Option Nat)) (i v : Nat) :
    stackGet (jsSet s i v) i = some v := by
  unfold stackGet
  rw [jsSet_getq]
  simp

theorem stackGet_jsSet_prefix (s : List (Option Nat)) (d A m : Nat)
    (h : m < d) : stackGet (jsSet (s.take d) d A) m = stackGet s m := by
  unfold stackGet
  rw [jsSet_getq]
  rw [if_neg (by omega)]
  by_cases h2 : m < (s.take d).length
  · rw [if_pos h2, List.get?_take h]
  · rw [if_neg h2, if_pos h]
    have hlen : (s.take d).length = min d s.length := by simp
    have hsm : s.length ≤ m := by omega
    rw [List.get?_eq_none.mpr hsm]
theorem pushAll_at_start (a : List MdNodeRec) (r : MdNodeRec)
    (rest : List MdNodeRec) :
    ∀ idxs : List Nat,
      pushAll (a ++ r :: rest) a.length idxs =
        a ++ { r with childIdx := r.childIdx ++ idxs } :: rest := by
  intro idxs
  induction idxs generalizing r with
  | nil =>
    show a ++ r :: rest = a ++ { r with childIdx := r.childIdx ++ [] } :: rest
    simp
  | cons k ks ih =>
    show pushAll (pushChild (a ++ r :: rest) a.length k) a.length ks = _
    rw [pushChild_at_start]
    rw [ih { r with childIdx := r.childIdx ++ [k] }]
    simp

theorem attach_fold (n : Nat) :
    (∀ b : ExistingBlock, sizeOf b ≤ n →
      ∀ (pu : Option JStr) (ord : Int) (d : Nat) (st : ParseSt) (j : Nat),
        snapNode pu ord b = true →
        st.inCode = false →
        1 ≤ d →
        stackGet st.stack (d - 1) = some j →
        j < st.arena.length →
        ∃ stk,
          (linesNode d b).foldl stepLine st =
            { st with
                arena := pushChild st.arena j st.arena.length ++
                  arenaNode d st.arena.length b,
                stack := stk } ∧
          ∀ m, m < d → stackGet stk m = stackGet st.stack m) ∧
    (∀ F : List ExistingBlock, sizeOf F ≤ n →
      ∀ (pu : Option JStr) (ord : Int) (d : Nat) (st : ParseSt) (j : Nat),
        snapList pu ord F = true →
        st.inCode = false →
        1 ≤ d →
        stackGet st.stack (d - 1) = some j →
        j < st.arena.length →
        ∃ stk,
          (linesList d F).foldl stepLine st =
            { st with
                arena := pushAll st.arena j
                  (childStarts st.arena.length F) ++
                  arenaList d st.arena.length F,
                stack := stk } ∧
          ∀ m, m < d → stackGet stk m = stackGet st.stack m) := by
  induction n with
  | zero =>
    constructor
    · intro b hb
      cases b with
      | mk u t o h cs p => simp at hb
    · intro F hF pu ord d st j hs hin hd hjst hjlt
      cases F with
      | cons b bs => simp at hF
      | nil =>
        refine ⟨st.stack, ?_, fun m _ => rfl⟩
        show st = _
        unfold pushAll childStarts arenaList
        simp
  | succ n ih =>
    constructor
    · intro b hb pu ord d st j hs hin hd hjst hjlt
      cases b with
      | mk u t o h cs p =>
        obtain ⟨hp, ho, hh, hcc, htr, hne, hcs⟩ :=
          snapNode_parts pu ord u t o h cs p hs
        have hsz : sizeOf cs ≤ n := by
          have := hb
          simp at this
          omega
        rw [show linesNode d (ExistingBlock.mk u t o h cs p) =
          lineOf d t :: linesList (d + 1) cs from rfl, List.foldl_cons]
        rw [stepLine_clean st d t hin hcc htr hne]
        have hstep : attachStep st d t 0 =
            { st with
                arena := pushChild st.arena j st.arena.length ++
                  [{ content := t, level := d, heading := 0, childIdx := [] }],
                stack := jsSet (st.stack.take d) d st.arena.length } := by
          unfold attachStep
          simp only []
          rw [if_neg (by
            rw [stackGet_take st.stack d (d - 1) (by omega), hjst]
            simp
            omega)]
          rw [stackGet_take st.stack d (d - 1) (by omega), hjst]
          simp only []
          rw [pushChild_append_left st.arena _ j st.arena.length hjlt]
        rw [hstep]
        have hin1 : ({ st with
            arena := pushChild st.arena j st.arena.length ++
              [{ content := t, level := d, heading := 0, childIdx := [] }],
            stack := jsSet (st.stack.take d) d st.arena.length } :
            ParseSt).inCode = false := hin
        obtain ⟨stk2, hfold2, hpre2⟩ := ih.2 cs hsz (some u) 0 (d + 1)
          { st with
            arena := pushChild st.arena j st.arena.length ++
              [{ content := t, level := d, heading := 0, childIdx := [] }],
            stack := jsSet (st.stack.take d) d st.arena.length }
          st.arena.length hcs hin1 (by omega)
          (by
            show stackGet (jsSet (st.stack.take d) d st.arena.length)
              (d + 1 - 1) = some st.arena.length
            rw [show d + 1 - 1 = d from rfl]
            exact stackGet_jsSet_self _ _ _)
          (by simp [length_pushChild])
        refine ⟨stk2, ?_, ?_⟩
        · rw [hfold2]
          simp only []
          have hlen1 : (pushChild st.arena j st.arena.length ++
              ([{ content := t, level := d, heading := 0,
                  childIdx := [] }] : List MdNodeRec)).length =
              st.arena.length + 1 := by
            simp [length_pushChild]
          congr 1
          · rw [hlen1]
            have hpush := pushAll_at_start
              (pushChild st.arena j st.arena.length)
              ({ content := t, level := d, heading := 0,
                 childIdx := [] } : MdNodeRec) []
              (childStarts (st.arena.length + 1) cs)
            rw [length_pushChild] at hpush
            rw [hpush, List.append_assoc]
            show pushChild st.arena j st.arena.length ++
              ({ content := t, level := d, heading := 0,
                 childIdx := [] ++ childStarts (st.arena.length + 1) cs } ::
                ([] ++ arenaList (d + 1) (st.arena.length + 1) cs)) = _
            rw [List.nil_append, List.nil_append]
            rfl
        · intro m hm
          rw [hpre2 m (by omega)]
          show stackGet (jsSet (st.stack.take d) d st.arena.length) m = _
          exact stackGet_jsSet_prefix st.stack d st.arena.length m hm
    · intro F hF pu ord d st j hs hin hd hjst hjlt
      cases F with
      | nil =>
        refine ⟨st.stack, ?_, fun m _ => rfl⟩
        show st = _
        unfold pushAll childStarts arenaList
        simp
      | cons b bs =>
        obtain ⟨hb1, hb2⟩ := snapList_parts pu ord b bs hs
        have hc : sizeOf (b :: bs) = 1 + sizeOf b + sizeOf bs :=
          List.cons.sizeOf_spec b bs
        rw [show linesList d (b :: bs) =
          linesNode d b ++ linesList d bs from rfl, List.foldl_append]
        obtain ⟨stk1, hfold1, hpre1⟩ := ih.1 b (by omega) pu ord d st j
          hb1 hin hd hjst hjlt
        rw [hfold1]
        have harena1len : (pushChild st.arena j st.arena.length ++
            arenaNode d st.arena.length b).length =
            st.arena.length + (flattenOne b).length := by
          rw [List.length_append, length_pushChild,
            (arena_lengths (sizeOf b)).1 b (Nat.le_refl _)]
        obtain ⟨stk2, hfold2, hpre2⟩ := ih.2 bs (by omega) pu (ord + 1) d
          { st with
            arena := pushChild st.arena j st.arena.length ++
              arenaNode d st.arena.length b,
            stack := stk1 } j hb2 hin hd
          (by
            show stackGet stk1 (d - 1) = some j
            rw [hpre1 (d - 1) (by omega)]
            exact hjst)
          (by
            show j < (pushChild st.arena j st.arena.length ++
              arenaNode d st.arena.length b).length
            rw [harena1len]
            omega)
        refine ⟨stk2, ?_, ?_⟩
        · rw [hfold2]
          congr 1
          · show pushAll (pushChild st.arena j st.arena.length ++
              arenaNode d st.arena.length b) j
                (childStarts (pushChild st.arena j st.arena.length ++
                  arenaNode d st.arena.length b).length bs) ++
              arenaList d (pushChild st.arena j st.arena.length ++
                arenaNode d st.arena.length b).length bs = _
            rw [harena1len]
            rw [pushAll_append_left _ _ _ _
              (by rw [length_pushChild]; exact hjlt)]
            rw [show pushAll (pushChild st.arena j st.arena.length) j
              (childStarts (st.arena.length + (flattenOne b).length) bs) =
              pushAll st.arena j (st.arena.length ::
                childStarts (st.arena.length + (flattenOne b).length) bs)
              from rfl]
            rw [show childStarts st.arena.length (b :: bs) =
              st.arena.length ::
                childStarts (st.arena.length + (flattenOne b).length) bs
              from rfl]
            rw [show arenaList d st.arena.length (b :: bs) =
              arenaNode d st.arena.length b ++
                arenaList d (st.arena.length + (flattenOne b).length) bs
              from rfl]
            rw [List.append_assoc]
        · intro m hm
          rw [hpre2 m hm]
          show stackGet stk1 m = _
          exact hpre1 m hm

/-- Folding the parse loop over the rendered lines of a clean root-level
forest appends its arena layout and root indices to the state. -/
theorem attach_fold_root (F : List ExistingBlock) :
    ∀ (pu : Option JStr) (ord : Int) (st : ParseSt),
      snapList pu ord F = true →
      st.inCode = false →
      ∃ stk,
        (linesList 0 F).foldl stepLine st =
          { st with
              arena := st.arena ++ arenaList 0 st.arena.length F,
              roots := st.roots ++ childStarts st.arena.length F,
              stack := stk } := by
  induction F with
  | nil =>
    intro pu ord st _ _
    refine ⟨st.stack, ?_⟩
    show st = _
    unfold arenaList childStarts
    simp
  | cons b bs ih =>
    intro pu ord st hs hin
    obtain ⟨hb1, hb2⟩ := snapList_parts pu ord b bs hs
    cases b with
    | mk u t o h cs p =>
      obtain ⟨hp, ho, hh, hcc, htr, hne, hcs⟩ :=
        snapNode_parts pu ord u t o h cs p hb1
      rw [show linesList 0 (ExistingBlock.mk u t o h cs p :: bs) =
        (lineOf 0 t :: linesList 1 cs) ++ linesList 0 bs from rfl,
        List.foldl_append, List.foldl_cons]
      rw [stepLine_clean st 0 t hin hcc htr hne]
      have hstep : attachStep st 0 t 0 =
          { st with
              arena := st.arena ++
                [{ content := t, level := 0, heading := 0, childIdx := [] }],
              roots := st.roots ++ [st.arena.length],
              stack := [some st.arena.length] } := by
        unfold attachStep
        simp only []
        rw [if_pos (Or.inl trivial)]
        rfl
      rw [hstep]
      have hin1 : ({ st with
          arena := st.arena ++
            [{ content := t, level := 0, heading := 0, childIdx := [] }],
          roots := st.roots ++ [st.arena.length],
          stack := [some st.arena.length] } : ParseSt).inCode = false := hin
      obtain ⟨stk1, hfold1, _⟩ := (attach_fold (sizeOf cs)).2 cs
        (Nat.le_refl _) (some u) 0 1
        { st with
          arena := st.arena ++
            [{ content := t, level := 0, heading := 0, childIdx := [] }],
          roots := st.roots ++ [st.arena.length],
          stack := [some st.arena.length] }
        st.arena.length hcs hin1 (Nat.le_refl _) rfl
        (by simp)
      have hpush := pushAll_at_start st.arena
        ({ content := t, level := 0, heading := 0,
           childIdx := [] } : MdNodeRec) []
        (childStarts (st.arena.length + 1) cs)
      have harena1 : pushAll
          (st.arena ++
            [{ content := t, level := 0, heading := 0, childIdx := [] }])
          st.arena.length
          (childStarts ((st.arena ++
            ([{ content := t, level := 0, heading := 0, childIdx := [] }] : List MdNodeRec)).length) cs) ++
          arenaList 1 ((st.arena ++
            ([{ content := t, level := 0, heading := 0, childIdx := [] }] : List MdNodeRec)).length) cs =
          st.arena ++ arenaNode 0 st.arena.length
            (ExistingBlock.mk u t o h cs p) := by
        rw [List.length_append]
        rw [show st.arena.length +
          ([{ content := t, level := 0, heading := 0, childIdx := [] }] : List MdNodeRec).length =
          st.arena.length + 1 from rfl]
        rw [hpush, List.append_assoc]
        show st.arena ++
          ({ content := t, level := 0, heading := 0,
             childIdx := [] ++ childStarts (st.arena.length + 1) cs } ::
            ([] ++ arenaList 1 (st.arena.length + 1) cs)) = _
        rw [List.nil_append, List.nil_append]
        rfl
      have hstateEq : ({ st with
          arena := pushAll
            (st.arena ++
              [{ content := t, level := 0, heading := 0, childIdx := [] }])
            st.arena.length
            (childStarts ((st.arena ++
              ([{ content := t, level := 0, heading := 0, childIdx := [] }] : List MdNodeRec)).length) cs) ++
            arenaList 1 ((st.arena ++
              ([{ content := t, level := 0, heading := 0, childIdx := [] }] : List MdNodeRec)).length) cs,
          roots := st.roots ++ [st.arena.length],
          stack := stk1 } : ParseSt) =
          { st with
            arena := st.arena ++ arenaNode 0 st.arena.length
              (ExistingBlock.mk u t o h cs p),
            roots := st.roots ++ [st.arena.length],
            stack := stk1 } := by
        rw [harena1]
      obtain ⟨stk2, hfold2⟩ := ih pu (ord + 1)
        { st with
          arena := st.arena ++ arenaNode 0 st.arena.length
            (ExistingBlock.mk u t o h cs p),
          roots := st.roots ++ [st.arena.length],
          stack := stk1 } hb2 hin
      have hlen2 : (st.arena ++ arenaNode 0 st.arena.length
          (ExistingBlock.mk u t o h cs p)).length =
          st.arena.length +
            (flattenOne (ExistingBlock.mk u t o h cs p)).length := by
        rw [List.length_append,
          (arena_lengths (sizeOf (ExistingBlock.mk u t o h cs p))).1 _
            (Nat.le_refl _)]
      have hlast : ({ st with
          arena := (st.arena ++ arenaNode 0 st.arena.length
              (ExistingBlock.mk u t o h cs p)) ++
            arenaList 0 ((st.arena ++ arenaNode 0 st.arena.length
              (ExistingBlock.mk u t o h cs p)).length) bs,
          roots := (st.roots ++ [st.arena.length]) ++
            childStarts ((st.arena ++ arenaNode 0 st.arena.length
              (ExistingBlock.mk u t o h cs p)).length) bs,
          stack := stk2 } : ParseSt) =
          { st with
            arena := st.arena ++ arenaList 0 st.arena.length
              (ExistingBlock.mk u t o h cs p :: bs),
            roots := st.roots ++ childStarts st.arena.length
              (ExistingBlock.mk u t o h cs p :: bs),
            stack := stk2 } := by
        rw [hlen2]
        rw [List.append_assoc, List.append_assoc]
        rw [show arenaNode 0 st.arena.length
            (ExistingBlock.mk u t o h cs p) ++
            arenaList 0 (st.arena.length +
              (flattenOne (ExistingBlock.mk u t o h cs p)).length) bs =
            arenaList 0 st.arena.length
              (ExistingBlock.mk u t o h cs p :: bs) from rfl]
        rw [show [st.arena.length] ++
            childStarts (st.arena.length +
              (flattenOne (ExistingBlock.mk u t o h cs p)).length) bs =
            childStarts st.arena.length
              (ExistingBlock.mk u t o h cs p :: bs) from rfl]
      refine ⟨stk2, ?_⟩
      exact Eq.trans
        (congrArg (fun s => List.foldl stepLine s (linesList 0 bs))
          (Eq.trans hfold1 hstateEq))
        (Eq.trans hfold2 hlast)

/-- Every line rendered from a clean forest is a clean bullet line. -/
theorem lines_clean (n : Nat) :
    (∀ b : ExistingBlock, sizeOf b ≤ n →
      ∀ (pu : Option JStr) (ord : Int) (d : Nat), snapNode pu ord b = true →
        ∀ l ∈ linesNode d b, ∃ d2 t2, l = lineOf d2 t2 ∧
          cleanChars t2 = true ∧ jtrim t2 = t2 ∧ t2 ≠ []) ∧
    (∀ F : List ExistingBlock, sizeOf F ≤ n →
      ∀ (pu : Option JStr) (ord : Int) (d : Nat), snapList pu ord F = true →
        ∀ l ∈ linesList d F, ∃ d2 t2, l = lineOf d2 t2 ∧
          cleanChars t2 = true ∧ jtrim t2 = t2 ∧ t2 ≠ []) := by
  induction n with
  | zero =>
    constructor
    · intro b hb
      cases b with
      | mk u t o h cs p => simp at hb
    · intro F hF pu ord d hs l hl
      cases F with
      | nil =>
        rw [show linesList d ([] : List ExistingBlock) = [] from rfl] at hl
        exact absurd hl (List.not_mem_nil l)
      | cons b bs => simp at hF
  | succ n ih =>
    constructor
    · intro b hb pu ord d hs l hl
      cases b with
      | mk u t o h cs p =>
        obtain ⟨hp, ho, hh, hcc, htr, hne2, hcs⟩ :=
          snapNode_parts pu ord u t o h cs p hs
        rw [show linesNode d (ExistingBlock.mk u t o h cs p) =
          lineOf d t :: linesList (d + 1) cs from rfl] at hl
        rcases List.mem_cons.mp hl with rfl | h2
        · exact ⟨d, t, rfl, hcc, htr, hne2⟩
        · have hsz : sizeOf cs ≤ n := by
            have := hb
            simp at this
            omega
          exact ih.2 cs hsz (some u) 0 (d + 1) hcs l h2
    · intro F hF pu ord d hs l hl
      cases F with
      | nil =>
        rw [show linesList d ([] : List ExistingBlock) = [] from rfl] at hl
        exact absurd hl (List.not_mem_nil l)
      | cons b bs =>
        obtain ⟨hb1, hb2⟩ := snapList_parts pu ord b bs hs
        have hc : sizeOf (b :: bs) = 1 + sizeOf b + sizeOf bs :=
          List.cons.sizeOf_spec b bs
        rw [show linesList d (b :: bs) =
          linesNode d b ++ linesList d bs from rfl] at hl
        rcases List.mem_append.mp hl with h2 | h2
        · exact ih.1 b (by omega) pu ord d hb1 l h2
        · exact ih.2 bs (by omega) pu (ord + 1) d hb2 l h2

/-- The fence pre-processing pass is the identity on lines it leaves
whole. -/
theorem flatten_map_of_singleton (ls : List JStr)
    (h : ∀ l ∈ ls, preprocessLine l = [l]) :
    (ls.map preprocessLine).flatten = ls := by
  induction ls with
  | nil => rfl
  | cons l rest ih =>
    rw [List.map_cons, List.flatten_cons, h l (by simp),
      ih (fun x hx => h x (List.mem_cons_of_mem _ hx))]
    rfl

/-- The full parse chain on the regenerated markdown of a clean
non-empty forest: the final parse state is exactly the arena layout of
the forest with its root indices. -/
theorem parse_state_clean (F : List ExistingBlock) (pu : Option JStr)
    (ord : Int) (hs : snapList pu ord F = true) (hne : F ≠ []) :
    ∃ stk, parseMarkdownSt (blocksToMarkdown (existingToRoamList F) 0) =
      { arena := arenaList 0 0 F, roots := childStarts 0 F, stack := stk,
        inCode := false, codeContent := [], codeIndent := 0,
        codeParent := 0 } := by
  obtain ⟨b0, bs0, rfl⟩ : ∃ b0 bs0, F = b0 :: bs0 := by
    cases F with
    | nil => exact absurd rfl hne
    | cons a b => exact ⟨a, b, rfl⟩
  have hmd : blocksToMarkdown (existingToRoamList (b0 :: bs0)) 0 =
      joinNl (linesList 0 (b0 :: bs0)) := by
    unfold blocksToMarkdown
    exact (render_lines (sizeOf (b0 :: bs0))).2 _ (Nat.le_refl _) pu ord 0
      hs (by simp)
  have hlines := (lines_clean (sizeOf (b0 :: bs0))).2 (b0 :: bs0)
    (Nat.le_refl _) pu ord 0 hs
  have hnl : ∀ l ∈ linesList 0 (b0 :: bs0), '\n' ∉ l := by
    intro l hl hc
    obtain ⟨d2, t2, rfl, hcc, _, _⟩ := hlines l hl
    rcases mem_lineOf d2 t2 '\n' hc with h1 | h1 | h1
    · exact absurd h1 (by decide)
    · exact absurd h1 (by decide)
    · exact (cleanChars_mem t2 hcc '\n' h1).2.2.2.2.2.2.2.1 rfl
  have hid : convertToRoamMarkdown (joinNl (linesList 0 (b0 :: bs0))) =
      joinNl (linesList 0 (b0 :: bs0)) := by
    apply convertToRoamMarkdown_id
    intro c hc hbad
    rcases mem_joinNl _ c hc with h1 | ⟨l, hl, hcl⟩
    · subst h1
      rcases hbad with h | h | h | h | h <;> exact absurd h (by decide)
    · obtain ⟨d2, t2, rfl, hcc, _, _⟩ := hlines l hl
      rcases mem_lineOf d2 t2 c hcl with h1 | h1 | h1
      · subst h1
        rcases hbad with h | h | h | h | h <;> exact absurd h (by decide)
      · subst h1
        rcases hbad with h | h | h | h | h <;> exact absurd h (by decide)
      · have hm := cleanChars_mem t2 hcc c h1
        rcases hbad with h | h | h | h | h
        · exact hm.1 h
        · exact hm.2.1 h
        · exact hm.2.2.1 h
        · exact hm.2.2.2.2.2.2.1 h
        · exact hm.2.2.2.2.1 h
  have hpre : ∀ l ∈ linesList 0 (b0 :: bs0), preprocessLine l = [l] := by
    intro l hl
    obtain ⟨d2, t2, rfl, hcc, htr2, hne2⟩ := hlines l hl
    apply preprocessLine_clean
    · intro hmem
      rcases mem_lineOf d2 t2 tick hmem with h1 | h1 | h1
      · exact absurd h1 (by decide)
      · exact absurd h1 (by decide)
      · exact (cleanChars_mem t2 hcc tick h1).2.2.2.1 rfl
    · exact lineOf_trimEnd d2 t2 (jtrim_self_parts t2 htr2).2 hne2
  obtain ⟨stk, hfold⟩ := attach_fold_root (b0 :: bs0) pu ord initSt hs rfl
  refine ⟨stk, ?_⟩
  rw [hmd]
  unfold parseMarkdownSt
  simp only []
  rw [hid]
  rw [splitOnNl_joinNl _ (linesList_ne_nil 0 b0 bs0) hnl]
  rw [flatten_map_of_singleton _ hpre]
  rw [hfold]
  rfl

/-- Materialising an arena region that holds the layout of a subtree
yields exactly the mirrored markdown tree. -/
theorem build_mirror (n : Nat) :
    (∀ b : ExistingBlock, sizeOf b ≤ n →
      ∀ (a : List MdNodeRec) (d base fuel : Nat),
        (∀ i, i < (flattenOne b).length →
          a.get? (base + i) = (arenaNode d base b).get? i) →
        (flattenOne b).length ≤ fuel →
        buildOne a fuel base = some (mirrorNode d b)) ∧
    (∀ F : List ExistingBlock, sizeOf F ≤ n →
      ∀ (a : List MdNodeRec) (d base fuel : Nat),
        (∀ i, i < (flattenList F).length →
          a.get? (base + i) = (arenaList d base F).get? i) →
        (flattenList F).length ≤ fuel →
        (childStarts base F).filterMap (buildOne a fuel) =
          mirrorList d F) := by
  induction n with
  | zero =>
    constructor
    · intro b hb
      cases b with
      | mk u t o h cs p => simp at hb
    · intro F hF a d base fuel _ _
      cases F with
      | nil => rfl
      | cons b bs => simp at hF
  | succ n ih =>
    constructor
    · intro b hb a d base fuel hreg hfuel
      cases b with
      | mk u t o h cs p =>
        have hL : (flattenOne (ExistingBlock.mk u t o h cs p)).length =
            1 + (flattenList cs).length := by
          rw [show flattenOne (ExistingBlock.mk u t o h cs p) =
            ExistingBlock.mk u t o h cs p :: flattenList cs from rfl]
          simp
          omega
        cases fuel with
        | zero => omega
        | succ fuel2 =>
          have hhead : a.get? base =
              some { content := t, level := d, heading := 0, childIdx := childStarts (base + 1) cs } := by
            have := hreg 0 (by omega)
            rw [Nat.add_zero] at this
            rw [this]
            rfl
          rw [show buildOne a (fuel2 + 1) base =
            (match a.get? base with
             | none => none
             | some r =>
               some (.node r.content r.level r.heading
                 (r.childIdx.filterMap (buildOne a fuel2)))) from rfl]
          rw [hhead]
          simp only []
          have hsz : sizeOf cs ≤ n := by
            have := hb
            simp at this
            omega
          have hreg2 : ∀ i, i < (flattenList cs).length →
              a.get? (base + 1 + i) =
                (arenaList (d + 1) (base + 1) cs).get? i := by
            intro i hi
            have := hreg (i + 1) (by omega)
            rw [show base + (i + 1) = base + 1 + i from by omega] at this
            rw [this]
            rfl
          rw [ih.2 cs hsz a (d + 1) (base + 1) fuel2 hreg2 (by omega)]
          rfl
    · intro F hF a d base fuel hreg hfuel
      cases F with
      | nil => rfl
      | cons b bs =>
        have hc : sizeOf (b :: bs) = 1 + sizeOf b + sizeOf bs :=
          List.cons.sizeOf_spec b bs
        have hLb : 1 ≤ (flattenOne b).length := flattenOne_length_pos b
        have hLsum : (flattenList (b :: bs)).length =
            (flattenOne b).length + (flattenList bs).length := by
          rw [show flattenList (b :: bs) =
            flattenOne b ++ flattenList bs from rfl]
          simp
        have harl : (arenaNode d base b).length = (flattenOne b).length :=
          (arena_lengths (sizeOf b)).1 b (Nat.le_refl _) d base
        have hregb : ∀ i, i < (flattenOne b).length →
            a.get? (base + i) = (arenaNode d base b).get? i := by
          intro i hi
          rw [hreg i (by omega)]
          rw [show arenaList d base (b :: bs) =
            arenaNode d base b ++
              arenaList d (base + (flattenOne b).length) bs from rfl]
          rw [List.get?_append (by omega)]
        have hregbs : ∀ i, i < (flattenList bs).length →
            a.get? (base + (flattenOne b).length + i) =
              (arenaList d (base + (flattenOne b).length) bs).get? i := by
          intro i hi
          have := hreg ((flattenOne b).length + i) (by omega)
          rw [show base + ((flattenOne b).length + i) =
            base + (flattenOne b).length + i from by omega] at this
          rw [this]
          rw [show arenaList d base (b :: bs) =
            arenaNode d base b ++
              arenaList d (base + (flattenOne b).length) bs from rfl]
          rw [List.get?_append_right (by omega)]
          rw [show (flattenOne b).length + i - (arenaNode d base b).length =
            i from by omega]
        rw [show childStarts base (b :: bs) =
          base :: childStarts (base + (flattenOne b).length) bs from rfl]
        rw [List.filterMap_cons]
        rw [ih.1 b (by omega) a d base fuel hregb (by omega)]
        rw [ih.2 bs (by omega) a d (base + (flattenOne b).length) fuel
          hregbs (by omega)]
        rfl

/-- `parseMarkdown` on the regenerated markdown of a clean non-empty
forest returns the mirrored tree. -/
theorem parse_mirror (F : List ExistingBlock) (pu : Option JStr)
    (ord : Int) (hs : snapList pu ord F = true) (hne : F ≠ []) :
    parseMarkdown (blocksToMarkdown (existingToRoamList F) 0) =
      mirrorList 0 F := by
  obtain ⟨stk, hst⟩ := parse_state_clean F pu ord hs hne
  unfold parseMarkdown
  simp only []
  rw [hst]
  show buildForest (arenaList 0 0 F) ((arenaList 0 0 F).length + 1)
    (childStarts 0 F) = mirrorList 0 F
  unfold buildForest
  apply (build_mirror (sizeOf F)).2 F (Nat.le_refl _)
  · intro i _
    rw [Nat.zero_add]
  · rw [(arena_lengths (sizeOf F)).2 F (Nat.le_refl _)]
    omega

/-- Converting the mirrored tree back to flat desired blocks yields the
canonical block list, with the uid counter advanced by the subtree
size. -/
theorem mtb_nbs (n : Nat) :
    (∀ b : ExistingBlock, sizeOf b ≤ n →
      ∀ (gen : Nat → JStr) (pref : BlockRef) (d sib ctr : Nat),
        mtbNode gen (mirrorNode d b) pref sib ctr =
          (nbsNode gen pref sib ctr b, ctr + (flattenOne b).length)) ∧
    (∀ F : List ExistingBlock, sizeOf F ≤ n →
      ∀ (gen : Nat → JStr) (pref : BlockRef) (d sib ctr : Nat),
        mtbChildren gen (mirrorList d F) pref sib ctr =
          (nbsList gen pref sib ctr F, ctr + (flattenList F).length)) := by
  induction n with
  | zero =>
    constructor
    · intro b hb
      cases b with
      | mk u t o h cs p => simp at hb
    · intro F hF gen pref d sib ctr
      cases F with
      | nil => rfl
      | cons b bs => simp at hF
  | succ n ih =>
    constructor
    · intro b hb gen pref d sib ctr
      cases b with
      | mk u t o h cs p =>
        have hsz : sizeOf cs ≤ n := by
          have := hb
          simp at this
          omega
        rw [show mtbNode gen (mirrorNode d (ExistingBlock.mk u t o h cs p))
            pref sib ctr =
          ({ ref := ⟨gen ctr⟩, text := t, parentRef := some pref,
             order := (sib : Int), bopen := true, heading := none } ::
            (mtbChildren gen (mirrorList (d + 1) cs) ⟨gen ctr⟩ 0
              (ctr + 1)).1,
           (mtbChildren gen (mirrorList (d + 1) cs) ⟨gen ctr⟩ 0
              (ctr + 1)).2) from rfl]
        rw [ih.2 cs hsz gen ⟨gen ctr⟩ (d + 1) 0 (ctr + 1)]
        rw [show ctr + 1 + (flattenList cs).length =
          ctr + (flattenOne (ExistingBlock.mk u t o h cs p)).length from by
            rw [show flattenOne (ExistingBlock.mk u t o h cs p) =
              ExistingBlock.mk u t o h cs p :: flattenList cs from rfl]
            simp
            omega]
        rfl
    · intro F hF gen pref d sib ctr
      cases F with
      | nil => rfl
      | cons b bs =>
        have hc : sizeOf (b :: bs) = 1 + sizeOf b + sizeOf bs :=
          List.cons.sizeOf_spec b bs
        rw [show mtbChildren gen (mirrorList d (b :: bs)) pref sib ctr =
          ((mtbNode gen (mirrorNode d b) pref sib ctr).1 ++
            (mtbChildren gen (mirrorList d bs) pref (sib + 1)
              (mtbNode gen (mirrorNode d b) pref sib ctr).2).1,
           (mtbChildren gen (mirrorList d bs) pref (sib + 1)
              (mtbNode gen (mirrorNode d b) pref sib ctr).2).2) from rfl]
        rw [ih.1 b (by omega) gen pref d sib ctr]
        rw [ih.2 bs (by omega) gen pref d (sib + 1)
          (ctr + (flattenOne b).length)]
        rw [show ctr + (flattenOne b).length + (flattenList bs).length =
          ctr + (flattenList (b :: bs)).length from by
            rw [show flattenList (b :: bs) =
              flattenOne b ++ flattenList bs from rfl]
            simp
            omega]
        rfl

/-- `markdownToBlocks` on the regenerated markdown of a clean non-empty
forest returns the canonical desired-block list. -/
theorem markdownToBlocks_clean (F : List ExistingBlock) (pu : Option JStr)
    (ord : Int) (pageUid : JStr) (gen : Nat → JStr)
    (hs : snapList pu ord F = true) (hne : F ≠ []) :
    markdownToBlocks (blocksToMarkdown (existingToRoamList F) 0) pageUid
      gen = nbsList gen ⟨pageUid⟩ 0 0 F := by
  unfold markdownToBlocks
  rw [parse_mirror F pu ord hs hne]
  rw [(mtb_nbs (sizeOf F)).2 F (Nat.le_refl _) gen ⟨pageUid⟩ 0 0 0]

/-- In a list with pairwise-distinct keys, filtering by the key of a
member returns exactly that member. -/
theorem filter_key_singleton {α : Type} (g : α → JStr) :
    ∀ (l : List α), (l.map g).Nodup → ∀ x, x ∈ l →
      l.filter (fun y => decide (g y = g x)) = [x] := by
  intro l
  induction l with
  | nil =>
    intro _ x hx
    exact absurd hx (List.not_mem_nil x)
  | cons y ys ih =>
    intro hnd x hx
    rw [List.map_cons, List.nodup_cons] at hnd
    rcases List.mem_cons.mp hx with rfl | hx2
    · rw [List.filter_cons]
      rw [if_pos (by simp)]
      rw [show ys.filter (fun y2 => decide (g y2 = g x)) = [] from by
        rw [List.filter_eq_nil]
        intro z hz
        simp only [decide_eq_true_eq]
        intro hgz
        exact hnd.1 (hgz ▸ List.mem_map_of_mem g hz)]
    · rw [List.filter_cons]
      rw [if_neg (by
        simp only [decide_eq_true_eq]
        intro hgy
        exact hnd.1 (hgy ▸ List.mem_map_of_mem g hx2))]
      exact ih hnd.2 x hx2

/-- With pairwise-distinct normalised texts the text index buckets are
singletons. -/
theorem buildTextIndex_singleton (f : JStr → JStr) (ex : List ExistingBlock)
    (hf : ∀ eb ∈ ex, f eb.text = eb.text)
    (hnd : (ex.map ExistingBlock.text).Nodup)
    (e : ExistingBlock) (he : e ∈ ex) :
    (buildTextIndex f ex).get? e.text = some [e] := by
  unfold buildTextIndex
  rw [appendFold_get, JMap.get?_empty]
  have hfil : ex.filter (fun eb => decide (f eb.text = e.text)) = [e] := by
    rw [show ex.filter (fun eb => decide (f eb.text = e.text)) =
        ex.filter (fun eb => decide (eb.text = e.text)) from by
      apply List.filter_congr
      intro eb hm
      rw [hf eb hm]]
    exact filter_key_singleton ExistingBlock.text ex hnd e he
  rw [hfil]
  rfl

/-- Phase 1 under full pointwise text agreement: the fold matches the
desired nodes one-to-one against the existing blocks, in order. -/
theorem phase1_fold (f : JStr → JStr) (ex : List ExistingBlock)
    (hfid : ∀ eb ∈ ex, f eb.text = eb.text)
    (htxt : (ex.map ExistingBlock.text).Nodup)
    (huid : (ex.map ExistingBlock.uid).Nodup) :
    ∀ (rest : List NewBlock) (suf pre : List ExistingBlock)
      (k : Nat) (st : MatchSt),
      ex = pre ++ suf →
      rest.map (fun nb => f nb.text) = suf.map ExistingBlock.text →
      (rest.map (fun nb => nb.ref.blockUid)).Nodup →
      st.used = pre.map ExistingBlock.uid →
      (∀ nb ∈ rest, st.mmap.get? nb.ref.blockUid = none) →
      (rest.enumFrom k).foldl
        (fun st p => phaseStep (buildTextIndex f ex) f false st
          (p.1, p.2)) st =
        ⟨⟨st.mmap.entries ++
            (rest.map (fun nb => nb.ref.blockUid)).zip
              (suf.map ExistingBlock.uid)⟩,
          st.used ++ suf.map ExistingBlock.uid⟩ := by
  intro rest
  induction rest with
  | nil =>
    intro suf pre k st hex hmap hnd hused hnone
    have hsuf : suf = [] := by
      have h2 := hmap
      simp only [List.map_nil] at h2
      exact List.map_eq_nil.mp h2.symm
    subst hsuf
    show st = _
    cases st with
    | mk mm used =>
      cases mm with
      | mk entries => simp
  | cons nb rest ih =>
    intro suf pre k st hex hmap hnd hused hnone
    cases suf with
    | nil => simp at hmap
    | cons e suf2 =>
      rw [List.map_cons, List.map_cons] at hmap
      have hhead : f nb.text = e.text := by
        injection hmap
      have htail : rest.map (fun nb => f nb.text) =
          suf2.map ExistingBlock.text := by
        injection hmap
      have he : e ∈ ex := by
        rw [hex]
        exact List.mem_append_right _ (List.mem_cons_self _ _)
      have hidx : (buildTextIndex f ex).get? (f nb.text) = some [e] := by
        rw [hhead]
        exact buildTextIndex_singleton f ex hfid htxt e he
      have hmapuid : ex.map ExistingBlock.uid =
          pre.map ExistingBlock.uid ++
            e.uid :: suf2.map ExistingBlock.uid := by
        rw [hex]
        simp
      have hsplit : (pre.map ExistingBlock.uid ++
          e.uid :: suf2.map ExistingBlock.uid).Nodup := hmapuid ▸ huid
      have hdisj := (List.nodup_append.mp hsplit).2.2
      have heuid : e.uid ∉ st.used := by
        rw [hused]
        intro hmem
        exact hdisj hmem (List.mem_cons_self _ _)
      have hstep : phaseStep (buildTextIndex f ex) f false st (k, nb) =
          ⟨st.mmap.set nb.ref.blockUid e.uid, sadd st.used e.uid⟩ := by
        unfold phaseStep
        simp only []
        rw [if_neg (by simp)]
        rw [hidx]
        rw [show ((some [e]).getD ([] : List ExistingBlock)) = [e] from rfl]
        rw [show [e].filter (fun x => decide (x.uid ∉ st.used)) = [e] from by
          rw [List.filter_eq_self]
          intro a ha
          rw [show a = e from by simpa using ha]
          simpa using heuid]
        rfl
      rw [show List.enumFrom k (nb :: rest) =
        (k, nb) :: List.enumFrom (k + 1) rest from rfl, List.foldl_cons]
      simp only []
      rw [hstep]
      have hnone1 : st.mmap.get? nb.ref.blockUid = none :=
        hnone nb (List.mem_cons_self _ _)
      have hnbref : nb.ref.blockUid ∉
          rest.map (fun nb => nb.ref.blockUid) := by
        rw [List.map_cons, List.nodup_cons] at hnd
        exact hnd.1
      have hih := ih suf2 (pre ++ [e]) (k + 1)
        ⟨st.mmap.set nb.ref.blockUid e.uid, sadd st.used e.uid⟩
        (by rw [hex]; simp)
        htail
        (by rw [List.map_cons, List.nodup_cons] at hnd; exact hnd.2)
        (by
          show sadd st.used e.uid = (pre ++ [e]).map ExistingBlock.uid
          unfold sadd
          rw [if_neg heuid, hused]
          simp)
        (by
          intro nb2 hnb2
          show (st.mmap.set nb.ref.blockUid e.uid).get?
            nb2.ref.blockUid = none
          rw [JMap.get?_set_ne _ _ _ _ (by
            intro hh
            exact hnbref (hh ▸ List.mem_map_of_mem _ hnb2))]
          exact hnone nb2 (List.mem_cons_of_mem _ hnb2))
      rw [hih]
      have hent : (st.mmap.set nb.ref.blockUid e.uid).entries =
          st.mmap.entries ++ [(nb.ref.blockUid, e.uid)] :=
        set_entries_of_none _ _ _ (by rw [hnone1]; simp)
      have husadd : sadd st.used e.uid = st.used ++ [e.uid] := by
        unfold sadd
        rw [if_neg heuid]
      rw [hent, husadd]
      rw [List.map_cons, List.map_cons]
      rw [show (nb.ref.blockUid :: rest.map (fun nb => nb.ref.blockUid)).zip
        (e.uid :: suf2.map ExistingBlock.uid) =
        (nb.ref.blockUid, e.uid) ::
          (rest.map (fun nb => nb.ref.blockUid)).zip
            (suf2.map ExistingBlock.uid) from rfl]
      simp

/-- A fold whose step fixes the given start state leaves it unchanged. -/
theorem foldl_fix {α σ : Type} (f : σ → α → σ) (s0 : σ) :
    ∀ l : List α, (∀ x ∈ l, f s0 x = s0) → l.foldl f s0 = s0
  | [], _ => rfl
  | x :: xs, h => by
    rw [List.foldl_cons, h x (List.mem_cons_self _ _)]
    exact foldl_fix f s0 xs (fun y hy => h y (List.mem_cons_of_mem _ hy))

/-- Phase 2 skips a desired node that is already matched. -/
theorem phaseStep_skip (index : JMap (List ExistingBlock)) (f : JStr → JStr)
    (st : MatchSt) (p : Nat × NewBlock)
    (h : st.mmap.has p.2.ref.blockUid = true) :
    phaseStep index f true st p = st := by
  unfold phaseStep
  simp only []
  rw [if_pos (by simp [h])]

/-- Positional lookup in an association list zipped from parallel key
and value lists with distinct keys. -/
theorem zip_get?_pos {β : Type} :
    ∀ (keys : List JStr) (vals : List β) (i : Nat) (k : JStr) (v : β),
      keys.Nodup → keys.get? i = some k → vals.get? i = some v →
      (JMap.mk (keys.zip vals) : JMap β).get? k = some v := by
  intro keys
  induction keys with
  | nil =>
    intro vals i k v _ hk _
    simp at hk
  | cons k0 ks ih =>
    intro vals i k v hnd hk hv
    cases vals with
    | nil => simp at hv
    | cons v0 vs =>
      rw [List.nodup_cons] at hnd
      cases i with
      | zero =>
        have hk0 : k0 = k := by simpa using hk
        have hv0 : v0 = v := by simpa using hv
        subst hk0
        subst hv0
        show (JMap.mk ((k0, v0) :: ks.zip vs) : JMap β).get? k0 = some v0
        unfold JMap.get?
        rw [List.find?_cons_of_pos _ (by simp)]
        rfl
      | succ j =>
        have hkj : ks.get? j = some k := by simpa using hk
        have hvj : vs.get? j = some v := by simpa using hv
        have hkm : k ∈ ks := List.get?_mem hkj
        have hne : ¬(k0 = k) := fun hh => hnd.1 (hh ▸ hkm)
        show (JMap.mk ((k0, v0) :: ks.zip vs) : JMap β).get? k = some v
        unfold JMap.get?
        rw [List.find?_cons_of_neg _ (by simp [hne])]
        exact ih vs j k v hnd.2 hkj hvj

/-- Lookup of any key of a zipped association list succeeds. -/
theorem zip_get?_isSome {β : Type} (keys : List JStr) (vals : List β)
    (k : JStr) (hnd : keys.Nodup) (hlen : keys.length = vals.length)
    (hk : k ∈ keys) :
    ((JMap.mk (keys.zip vals) : JMap β).get? k).isSome = true := by
  obtain ⟨i, hi⟩ := List.get?_of_mem hk
  have hilt : i < keys.length := by
    by_contra hcon
    rw [List.get?_eq_none.mpr (by omega)] at hi
    simp at hi
  obtain ⟨v, hvi⟩ : ∃ v, vals.get? i = some v := by
    have hlt : i < vals.length := by omega
    cases hx : vals.get? i with
    | none =>
      rw [List.get?_eq_none] at hx
      omega
    | some v => exact ⟨v, rfl⟩
  rw [zip_get?_pos keys vals i k v hnd hi hvi]
  rfl

/-- The values of a zipped association list are the value list. -/
theorem zip_valuesL {β : Type} :
    ∀ (keys : List JStr) (vals : List β),
      keys.length = vals.length →
      (JMap.mk (keys.zip vals) : JMap β).valuesL = vals := by
  intro keys
  induction keys with
  | nil =>
    intro vals hlen
    have : vals = [] := by
      cases vals with
      | nil => rfl
      | cons v vs => simp at hlen
    subst this
    rfl
  | cons k0 ks ih =>
    intro vals hlen
    cases vals with
    | nil => simp at hlen
    | cons v0 vs =>
      show v0 :: (JMap.mk (ks.zip vs) : JMap β).valuesL = v0 :: vs
      rw [ih vs (by simpa using hlen)]

/-- `matchBlocks` under full pointwise text agreement: the result is the
in-order zip of desired references and existing uids. -/
theorem matchBlocks_full (ex : List ExistingBlock) (nbs : List NewBlock)
    (htxt : (ex.map ExistingBlock.text).Nodup)
    (huid : (ex.map ExistingBlock.uid).Nodup)
    (hfid : ∀ eb ∈ ex, normalizeText eb.text = eb.text)
    (hmap1 : nbs.map (fun nb => normalizeText nb.text) =
      ex.map ExistingBlock.text)
    (hndref : (nbs.map (fun nb => nb.ref.blockUid)).Nodup) :
    matchBlocks ex nbs =
      ⟨(nbs.map (fun nb => nb.ref.blockUid)).zip
        (ex.map ExistingBlock.uid)⟩ := by
  have hlen : nbs.length = ex.length := by
    have := congrArg List.length hmap1
    simpa using this
  have h1 : nbs.enum.foldl
      (fun st p => phaseStep (buildTextIndex normalizeText ex)
        normalizeText false st (p.1, p.2)) (MatchSt.mk JMap.empty []) =
      ⟨⟨(nbs.map (fun nb => nb.ref.blockUid)).zip
          (ex.map ExistingBlock.uid)⟩,
        ex.map ExistingBlock.uid⟩ := by
    have h0 := phase1_fold normalizeText ex hfid htxt huid nbs ex [] 0
      (MatchSt.mk JMap.empty []) rfl hmap1 hndref rfl
      (fun nb _ => JMap.get?_empty _)
    show (List.enumFrom 0 nbs).foldl _ _ = _
    rw [h0]
    rfl
  unfold matchBlocks
  simp only []
  rw [h1]
  have hhas : ∀ nb ∈ nbs,
      (JMap.mk ((nbs.map (fun nb => nb.ref.blockUid)).zip
        (ex.map ExistingBlock.uid)) : JMap JStr).has nb.ref.blockUid =
        true := by
    intro nb hnb
    unfold JMap.has
    exact zip_get?_isSome _ _ _ hndref (by simpa using hlen)
      (List.mem_map_of_mem _ hnb)
  have h2 : nbs.enum.foldl
      (fun st p => phaseStep (buildTextIndex normalizeForMatching ex)
        normalizeForMatching true st (p.1, p.2))
      (⟨⟨(nbs.map (fun nb => nb.ref.blockUid)).zip
          (ex.map ExistingBlock.uid)⟩,
        ex.map ExistingBlock.uid⟩ : MatchSt) =
      ⟨⟨(nbs.map (fun nb => nb.ref.blockUid)).zip
          (ex.map ExistingBlock.uid)⟩,
        ex.map ExistingBlock.uid⟩ := by
    apply foldl_fix
    intro p hp
    apply phaseStep_skip
    exact hhas p.2 (snd_mem_of_mem_enumFrom nbs 0 p hp)
  rw [h2]
  have h3 : nbs.filter (fun b =>
      !(⟨⟨(nbs.map (fun nb => nb.ref.blockUid)).zip
          (ex.map ExistingBlock.uid)⟩,
        ex.map ExistingBlock.uid⟩ : MatchSt).mmap.has b.ref.blockUid) =
      [] := by
    rw [List.filter_eq_nil]
    intro b hb
    rw [show (⟨⟨(nbs.map (fun nb => nb.ref.blockUid)).zip
        (ex.map ExistingBlock.uid)⟩,
      ex.map ExistingBlock.uid⟩ : MatchSt).mmap =
      JMap.mk ((nbs.map (fun nb => nb.ref.blockUid)).zip
        (ex.map ExistingBlock.uid)) from rfl]
    rw [hhas b hb]
    simp
  have h4 : ex.filter (fun e =>
      decide (e.uid ∉ (⟨⟨(nbs.map (fun nb => nb.ref.blockUid)).zip
          (ex.map ExistingBlock.uid)⟩,
        ex.map ExistingBlock.uid⟩ : MatchSt).used)) = [] := by
    rw [List.filter_eq_nil]
    intro e he
    simp only [decide_eq_true_eq]
    intro hno
    exact hno (List.mem_map_of_mem _ he)
  rw [h3, h4]
  rw [if_pos (by simp)]
  rfl

theorem range'_get? : ∀ (s n i : Nat), i < n →
    (List.range' s n).get? i = some (s + i) := by
  intro s n
  induction n generalizing s with
  | zero =>
    intro i hi
    omega
  | succ m ih =>
    intro i hi
    cases i with
    | zero => simp
    | succ j =>
      rw [show List.range' s (m + 1) = s :: List.range' (s + 1) m from rfl]
      rw [show (s :: List.range' (s + 1) m).get? (j + 1) =
        (List.range' (s + 1) m).get? j from rfl]
      rw [ih (s + 1) j (by omega)]
      rw [show s + 1 + j = s + (j + 1) from by omega]

/-- The texts of the canonical desired blocks are the flattened existing
texts, in order. -/
theorem nbs_texts (n : Nat) :
    (∀ b : ExistingBlock, sizeOf b ≤ n → ∀ gen pref sib ctr,
      (nbsNode gen pref sib ctr b).map NewBlock.text =
        (flattenOne b).map ExistingBlock.text) ∧
    (∀ F : List ExistingBlock, sizeOf F ≤ n → ∀ gen pref sib ctr,
      (nbsList gen pref sib ctr F).map NewBlock.text =
        (flattenList F).map ExistingBlock.text) := by
  induction n with
  | zero =>
    constructor
    · intro b hb
      cases b with
      | mk u t o h cs p => simp at hb
    · intro F hF gen pref sib ctr
      cases F with
      | nil => rfl
      | cons b bs => simp at hF
  | succ n ih =>
    constructor
    · intro b hb gen pref sib ctr
      cases b with
      | mk u t o h cs p =>
        have hsz : sizeOf cs ≤ n := by
          have := hb
          simp at this
          omega
        show t :: (nbsList gen ⟨gen ctr⟩ 0 (ctr + 1) cs).map NewBlock.text =
          t :: (flattenList cs).map ExistingBlock.text
        rw [ih.2 cs hsz]
    · intro F hF gen pref sib ctr
      cases F with
      | nil => rfl
      | cons b bs =>
        have hc : sizeOf (b :: bs) = 1 + sizeOf b + sizeOf bs :=
          List.cons.sizeOf_spec b bs
        show ((nbsNode gen pref sib ctr b) ++
          nbsList gen pref (sib + 1) (ctr + (flattenOne b).length) bs).map
            NewBlock.text =
          ((flattenOne b) ++ flattenList bs).map ExistingBlock.text
        rw [List.map_append, List.map_append, ih.1 b (by omega),
          ih.2 bs (by omega)]

/-- The references of the canonical desired blocks are the uid supply
applied to consecutive counters. -/
theorem nbs_refs (n : Nat) :
    (∀ b : ExistingBlock, sizeOf b ≤ n → ∀ gen pref sib ctr,
      (nbsNode gen pref sib ctr b).map (fun nb => nb.ref.blockUid) =
        (List.range' ctr (flattenOne b).length).map gen) ∧
    (∀ F : List ExistingBlock, sizeOf F ≤ n → ∀ gen pref sib ctr,
      (nbsList gen pref sib ctr F).map (fun nb => nb.ref.blockUid) =
        (List.range' ctr (flattenList F).length).map gen) := by
  induction n with
  | zero =>
    constructor
    · intro b hb
      cases b with
      | mk u t o h cs p => simp at hb
    · intro F hF gen pref sib ctr
      cases F with
      | nil => rfl
      | cons b bs => simp at hF
  | succ n ih =>
    constructor
    · intro b hb gen pref sib ctr
      cases b with
      | mk u t o h cs p =>
        have hsz : sizeOf cs ≤ n := by
          have := hb
          simp at this
          omega
        show gen ctr ::
          (nbsList gen ⟨gen ctr⟩ 0 (ctr + 1) cs).map
            (fun nb => nb.ref.blockUid) =
          (List.range' ctr
            (ExistingBlock.mk u t o h cs p :: flattenList cs).length).map gen
        rw [show (ExistingBlock.mk u t o h cs p ::
          flattenList cs).length = (flattenList cs).length + 1 from rfl]
        rw [show List.range' ctr ((flattenList cs).length + 1) =
          ctr :: List.range' (ctr + 1) (flattenList cs).length from rfl]
        rw [List.map_cons, ih.2 cs hsz]
    · intro F hF gen pref sib ctr
      cases F with
      | nil => rfl
      | cons b bs =>
        have hc : sizeOf (b :: bs) = 1 + sizeOf b + sizeOf bs :=
          List.cons.sizeOf_spec b bs
        show ((nbsNode gen pref sib ctr b) ++
          nbsList gen pref (sib + 1) (ctr + (flattenOne b).length) bs).map
            (fun nb => nb.ref.blockUid) =
          (List.range' ctr
            ((flattenOne b) ++ flattenList bs).length).map gen
        rw [List.map_append, ih.1 b (by omega), ih.2 bs (by omega)]
        rw [List.length_append]
        rw [← List.map_append]
        rw [show List.range' (ctr + (flattenOne b).length)
          (flattenList bs).length = List.range'
          (ctr + 1 * (flattenOne b).length) (flattenList bs).length from by
            rw [Nat.one_mul]]
        rw [List.range'_append]
        rw [Nat.add_comm ((flattenList bs).length) ((flattenOne b).length)]

/-- Shape facts about every canonical desired block. -/
theorem nbs_shape (n : Nat) :
    (∀ b : ExistingBlock, sizeOf b ≤ n → ∀ gen pref sib ctr nb,
      nb ∈ nbsNode gen pref sib ctr b →
      nb.heading = none ∧ nb.bopen = true ∧ ∃ r, nb.parentRef = some r) ∧
    (∀ F : List ExistingBlock, sizeOf F ≤ n → ∀ gen pref sib ctr nb,
      nb ∈ nbsList gen pref sib ctr F →
      nb.heading = none ∧ nb.bopen = true ∧ ∃ r, nb.parentRef = some r) := by
  induction n with
  | zero =>
    constructor
    · intro b hb
      cases b with
      | mk u t o h cs p => simp at hb
    · intro F hF gen pref sib ctr nb hnb
      cases F with
      | nil =>
        rw [show nbsList gen pref sib ctr ([] : List ExistingBlock) = []
          from rfl] at hnb
        exact absurd hnb (List.not_mem_nil nb)
      | cons b bs => simp at hF
  | succ n ih =>
    constructor
    · intro b hb gen pref sib ctr nb hnb
      cases b with
      | mk u t o h cs p =>
        have hsz : sizeOf cs ≤ n := by
          have := hb
          simp at this
          omega
        rw [show nbsNode gen pref sib ctr (ExistingBlock.mk u t o h cs p) =
          { ref := ⟨gen ctr⟩, text := t, parentRef := some pref,
            order := (sib : Int), bopen := true, heading := none } ::
            nbsList gen ⟨gen ctr⟩ 0 (ctr + 1) cs from rfl] at hnb
        rcases List.mem_cons.mp hnb with rfl | h2
        · exact ⟨rfl, rfl, pref, rfl⟩
        · exact ih.2 cs hsz gen ⟨gen ctr⟩ 0 (ctr + 1) nb h2
    · intro F hF gen pref sib ctr nb hnb
      cases F with
      | nil =>
        rw [show nbsList gen pref sib ctr ([] : List ExistingBlock) = []
          from rfl] at hnb
        exact absurd hnb (List.not_mem_nil nb)
      | cons b bs =>
        have hc : sizeOf (b :: bs) = 1 + sizeOf b + sizeOf bs :=
          List.cons.sizeOf_spec b bs
        rw [show nbsList gen pref sib ctr (b :: bs) =
          nbsNode gen pref sib ctr b ++
            nbsList gen pref (sib + 1) (ctr + (flattenOne b).length) bs
          from rfl] at hnb
        rcases List.mem_append.mp hnb with h2 | h2
        · exact ih.1 b (by omega) gen pref sib ctr nb h2
        · exact ih.2 bs (by omega) gen pref (sib + 1)
            (ctr + (flattenOne b).length) nb h2

/-- Facts about every flattened block of a clean snapshot. -/
theorem flat_snap (n : Nat) :
    (∀ b : ExistingBlock, sizeOf b ≤ n →
      ∀ (P : JStr) (ord : Int), snapNode (some P) ord b = true →
      ∀ eb ∈ flattenOne b,
        jtrim eb.text = eb.text ∧ eb.heading = none ∧
        ∃ w, eb.parentUid = some w ∧
          (w = P ∨ w ∈ (flattenOne b).map ExistingBlock.uid)) ∧
    (∀ F : List ExistingBlock, sizeOf F ≤ n →
      ∀ (P : JStr) (ord : Int), snapList (some P) ord F = true →
      ∀ eb ∈ flattenList F,
        jtrim eb.text = eb.text ∧ eb.heading = none ∧
        ∃ w, eb.parentUid = some w ∧
          (w = P ∨ w ∈ (flattenList F).map ExistingBlock.uid)) := by
  induction n with
  | zero =>
    constructor
    · intro b hb
      cases b with
      | mk u t o h cs p => simp at hb
    · intro F hF P ord hs eb heb
      cases F with
      | nil =>
        rw [show flattenList ([] : List ExistingBlock) = [] from rfl] at heb
        exact absurd heb (List.not_mem_nil eb)
      | cons b bs => simp at hF
  | succ n ih =>
    constructor
    · intro b hb P ord hs eb heb
      cases b with
      | mk u t o h cs p =>
        obtain ⟨hp, ho, hh, hcc, htr, hne2, hcs⟩ :=
          snapNode_parts (some P) ord u t o h cs p hs
        have hsz : sizeOf cs ≤ n := by
          have := hb
          simp at this
          omega
        rw [show flattenOne (ExistingBlock.mk u t o h cs p) =
          ExistingBlock.mk u t o h cs p :: flattenList cs from rfl] at heb
        rcases List.mem_cons.mp heb with rfl | h2
        · subst hh
          exact ⟨htr, rfl, P, by rw [show (ExistingBlock.mk u t o none cs
              p).parentUid = p from rfl, hp], Or.inl rfl⟩
        · obtain ⟨h1, h2b, w, hw, hor⟩ := ih.2 cs hsz u 0 hcs eb h2
          refine ⟨h1, h2b, w, hw, ?_⟩
          rcases hor with hwu | hmem
          · exact Or.inr (by
              rw [show flattenOne (ExistingBlock.mk u t o h cs p) =
                ExistingBlock.mk u t o h cs p :: flattenList cs from rfl]
              rw [List.map_cons, hwu]
              exact List.mem_cons_self _ _)
          · exact Or.inr (by
              rw [show flattenOne (ExistingBlock.mk u t o h cs p) =
                ExistingBlock.mk u t o h cs p :: flattenList cs from rfl]
              rw [List.map_cons]
              exact List.mem_cons_of_mem _ hmem)
    · intro F hF P ord hs eb heb
      cases F with
      | nil =>
        rw [show flattenList ([] : List ExistingBlock) = [] from rfl] at heb
        exact absurd heb (List.not_mem_nil eb)
      | cons b bs =>
        obtain ⟨hb1, hb2⟩ := snapList_parts (some P) ord b bs hs
        have hc : sizeOf (b :: bs) = 1 + sizeOf b + sizeOf bs :=
          List.cons.sizeOf_spec b bs
        rw [show flattenList (b :: bs) =
          flattenOne b ++ flattenList bs from rfl] at heb
        rcases List.mem_append.mp heb with h2 | h2
        · obtain ⟨h1, h2b, w, hw, hor⟩ := ih.1 b (by omega) P ord hb1 eb h2
          refine ⟨h1, h2b, w, hw, ?_⟩
          rcases hor with rfl | hmem
          · exact Or.inl rfl
          · refine Or.inr ?_
            rw [show flattenList (b :: bs) =
              flattenOne b ++ flattenList bs from rfl, List.map_append]
            exact List.mem_append_left _ hmem
        · obtain ⟨h1, h2b, w, hw, hor⟩ := ih.2 bs (by omega) P (ord + 1)
            hb2 eb h2
          refine ⟨h1, h2b, w, hw, ?_⟩
          rcases hor with rfl | hmem
          · exact Or.inl rfl
          · refine Or.inr ?_
            rw [show flattenList (b :: bs) =
              flattenOne b ++ flattenList bs from rfl, List.map_append]
            exact List.mem_append_right _ hmem

/-- Resolved desired parents and target uids of the canonical desired
blocks equal the snapshot's parent stamps and uids, position by
position. -/
theorem nbs_dp_tgt (pageUid : JStr) (gen : Nat → JStr) (ms : JMap JStr)
    (E : List ExistingBlock)
    (hms : ∀ k eb, E.get? k = some eb → ms.get? (gen k) = some eb.uid)
    (hfresh : ∀ k, k < E.length → gen k ≠ pageUid) :
    ∀ n : Nat,
    (∀ b : ExistingBlock, sizeOf b ≤ n →
      ∀ (pref : BlockRef) (P : JStr) (sib ctr : Nat) (ord : Int),
      snapNode (some P) ord b = true →
      (∀ i, i < (flattenOne b).length →
        E.get? (ctr + i) = (flattenOne b).get? i) →
      (if pref.blockUid = pageUid then pageUid
        else (ms.get? pref.blockUid).getD pref.blockUid) = P →
      (nbsNode gen pref sib ctr b).map
          (fun nb => desiredParentUid pageUid ms nb) =
        (flattenOne b).map (fun eb => eb.parentUid.getD pageUid) ∧
      (nbsNode gen pref sib ctr b).map
          (fun nb => (ms.get? nb.ref.blockUid).getD nb.ref.blockUid) =
        (flattenOne b).map ExistingBlock.uid) ∧
    (∀ F : List ExistingBlock, sizeOf F ≤ n →
      ∀ (pref : BlockRef) (P : JStr) (sib ctr : Nat) (ord : Int),
      snapList (some P) ord F = true →
      (∀ i, i < (flattenList F).length →
        E.get? (ctr + i) = (flattenList F).get? i) →
      (if pref.blockUid = pageUid then pageUid
        else (ms.get? pref.blockUid).getD pref.blockUid) = P →
      (nbsList gen pref sib ctr F).map
          (fun nb => desiredParentUid pageUid ms nb) =
        (flattenList F).map (fun eb => eb.parentUid.getD pageUid) ∧
      (nbsList gen pref sib ctr F).map
          (fun nb => (ms.get? nb.ref.blockUid).getD nb.ref.blockUid) =
        (flattenList F).map ExistingBlock.uid) := by
  intro n
  induction n with
  | zero =>
    constructor
    · intro b hb
      cases b with
      | mk u t o h cs p => simp at hb
    · intro F hF pref P sib ctr ord hs hreg hres
      cases F with
      | nil => exact ⟨rfl, rfl⟩
      | cons b bs => simp at hF
  | succ n ih =>
    constructor
    · intro b hb pref P sib ctr ord hs hreg hres
      cases b with
      | mk u t o h cs p =>
        obtain ⟨hp, ho, hh, hcc, htr, hne2, hcs⟩ :=
          snapNode_parts (some P) ord u t o h cs p hs
        have hsz : sizeOf cs ≤ n := by
          have := hb
          simp at this
          omega
        have hhead : E.get? ctr =
            some (ExistingBlock.mk u t o h cs p) := by
          have := hreg 0 (by
            have := flattenOne_length_pos (ExistingBlock.mk u t o h cs p)
            omega)
          rw [Nat.add_zero] at this
          rw [this]
          rfl
        have hctrlt : ctr < E.length := by
          by_contra hcon
          rw [List.get?_eq_none.mpr (by omega)] at hhead
          simp at hhead
        have hmsctr : ms.get? (gen ctr) = some u :=
          hms ctr (ExistingBlock.mk u t o h cs p) hhead
        have hreg2 : ∀ i, i < (flattenList cs).length →
            E.get? (ctr + 1 + i) = (flattenList cs).get? i := by
          intro i hi
          have hlen1 : (flattenOne (ExistingBlock.mk u t o h cs p)).length =
              (flattenList cs).length + 1 := rfl
          have := hreg (i + 1) (by omega)
          rw [show ctr + (i + 1) = ctr + 1 + i from by omega] at this
          rw [this]
          rfl
        have hres2 : (if (BlockRef.mk (gen ctr)).blockUid = pageUid then
            pageUid
            else (ms.get? (BlockRef.mk (gen ctr)).blockUid).getD
              (BlockRef.mk (gen ctr)).blockUid) = u := by
          rw [show (BlockRef.mk (gen ctr)).blockUid = gen ctr from rfl]
          rw [if_neg (hfresh ctr hctrlt)]
          rw [hmsctr]
          rfl
        obtain ⟨ihdp, ihtgt⟩ := ih.2 cs hsz ⟨gen ctr⟩ u 0 (ctr + 1) 0 hcs
          hreg2 hres2
        constructor
        · show desiredParentUid pageUid ms
            { ref := ⟨gen ctr⟩, text := t, parentRef := some pref,
              order := (sib : Int), bopen := true, heading := none } ::
            (nbsList gen ⟨gen ctr⟩ 0 (ctr + 1) cs).map
              (fun nb => desiredParentUid pageUid ms nb) =
            (ExistingBlock.mk u t o h cs p).parentUid.getD pageUid ::
              (flattenList cs).map (fun eb => eb.parentUid.getD pageUid)
          rw [show desiredParentUid pageUid ms
            { ref := ⟨gen ctr⟩, text := t, parentRef := some pref,
              order := (sib : Int), bopen := true, heading := none } =
            (if pref.blockUid = pageUid then pageUid
              else (ms.get? pref.blockUid).getD pref.blockUid) from rfl]
          rw [hres, ihdp]
          rw [show (ExistingBlock.mk u t o h cs p).parentUid = p from rfl,
            hp]
          rfl
        · show (ms.get? (gen ctr)).getD (gen ctr) ::
            (nbsList gen ⟨gen ctr⟩ 0 (ctr + 1) cs).map
              (fun nb => (ms.get? nb.ref.blockUid).getD nb.ref.blockUid) =
            u :: (flattenList cs).map ExistingBlock.uid
          rw [hmsctr, ihtgt]
          rfl
    · intro F hF pref P sib ctr ord hs hreg hres
      cases F with
      | nil => exact ⟨rfl, rfl⟩
      | cons b bs =>
        obtain ⟨hb1, hb2⟩ := snapList_parts (some P) ord b bs hs
        have hc : sizeOf (b :: bs) = 1 + sizeOf b + sizeOf bs :=
          List.cons.sizeOf_spec b bs
        have hLsum : (flattenList (b :: bs)).length =
            (flattenOne b).length + (flattenList bs).length := by
          rw [show flattenList (b :: bs) =
            flattenOne b ++ flattenList bs from rfl]
          simp
        have hregb : ∀ i, i < (flattenOne b).length →
            E.get? (ctr + i) = (flattenOne b).get? i := by
          intro i hi
          rw [hreg i (by omega)]
          rw [show flattenList (b :: bs) =
            flattenOne b ++ flattenList bs from rfl]
          rw [List.get?_append hi]
        have hregbs : ∀ i, i < (flattenList bs).length →
            E.get? (ctr + (flattenOne b).length + i) =
              (flattenList bs).get? i := by
          intro i hi
          have := hreg ((flattenOne b).length + i) (by omega)
          rw [show ctr + ((flattenOne b).length + i) =
            ctr + (flattenOne b).length + i from by omega] at this
          rw [this]
          rw [show flattenList (b :: bs) =
            flattenOne b ++ flattenList bs from rfl]
          rw [List.get?_append_right (by omega)]
          rw [show (flattenOne b).length + i - (flattenOne b).length =
            i from by omega]
        obtain ⟨ihdp1, ihtgt1⟩ := ih.1 b (by omega) pref P sib ctr ord hb1
          hregb hres
        obtain ⟨ihdp2, ihtgt2⟩ := ih.2 bs (by omega) pref P (sib + 1)
          (ctr + (flattenOne b).length) (ord + 1) hb2 hregbs hres
        constructor
        · show ((nbsNode gen pref sib ctr b) ++
            nbsList gen pref (sib + 1) (ctr + (flattenOne b).length)
              bs).map (fun nb => desiredParentUid pageUid ms nb) =
            ((flattenOne b) ++ flattenList bs).map
              (fun eb => eb.parentUid.getD pageUid)
          rw [List.map_append, List.map_append, ihdp1, ihdp2]
        · show ((nbsNode gen pref sib ctr b) ++
            nbsList gen pref (sib + 1) (ctr + (flattenOne b).length)
              bs).map
              (fun nb => (ms.get? nb.ref.blockUid).getD nb.ref.blockUid) =
            ((flattenOne b) ++ flattenList bs).map ExistingBlock.uid
          rw [List.map_append, List.map_append, ihtgt1, ihtgt2]

/-- No block of a clean subforest carries a parent stamp foreign to the
subforest. -/
theorem filter_stamp_nil (pageUid : JStr) (G : List ExistingBlock)
    (P u : JStr) (ord : Int) (hs : snapList (some P) ord G = true)
    (hne : u ≠ P) (hnm : u ∉ (flattenList G).map ExistingBlock.uid) :
    (flattenList G).filter
      (fun eb => decide (eb.parentUid.getD pageUid = u)) = [] := by
  rw [List.filter_eq_nil]
  intro eb heb
  obtain ⟨_, _, w, hw, hor⟩ := (flat_snap (sizeOf G)).2 G (Nat.le_refl _)
    P ord hs eb heb
  simp only [decide_eq_true_eq]
  intro heq
  rw [hw] at heq
  rw [show (some w).getD pageUid = w from rfl] at heq
  subst heq
  rcases hor with rfl | hmem
  · exact hne rfl
  · exact hnm hmem

/-- Filtering a clean subforest's flattening by the forest's own level
stamp returns exactly the forest's roots. -/
theorem filter_stamp_roots (pageUid : JStr) :
    ∀ (G : List ExistingBlock) (Q : JStr) (ord : Int),
      snapList (some Q) ord G = true →
      Q ∉ (flattenList G).map ExistingBlock.uid →
      (flattenList G).filter
        (fun eb => decide (eb.parentUid.getD pageUid = Q)) = G := by
  intro G
  induction G with
  | nil =>
    intro Q ord _ _
    rfl
  | cons b bs ih =>
    intro Q ord hs hnm
    obtain ⟨hb1, hb2⟩ := snapList_parts (some Q) ord b bs hs
    cases b with
    | mk u t o h cs p =>
      obtain ⟨hp, ho, hh, hcc, htr, hne2, hcs⟩ :=
        snapNode_parts (some Q) ord u t o h cs p hb1
      have hmap : (flattenList (ExistingBlock.mk u t o h cs p :: bs)).map
          ExistingBlock.uid =
          u :: ((flattenList cs).map ExistingBlock.uid ++
            (flattenList bs).map ExistingBlock.uid) := by
        rw [show flattenList (ExistingBlock.mk u t o h cs p :: bs) =
          (ExistingBlock.mk u t o h cs p :: flattenList cs) ++
            flattenList bs from rfl]
        simp
        rfl
      rw [hmap] at hnm
      have hQu : Q ≠ u := fun hh => hnm (by rw [hh]; simp)
      have hQcs : Q ∉ (flattenList cs).map ExistingBlock.uid := by
        intro hmem
        exact hnm (by simp [hmem])
      have hQbs : Q ∉ (flattenList bs).map ExistingBlock.uid := by
        intro hmem
        exact hnm (by simp [hmem])
      rw [show flattenList (ExistingBlock.mk u t o h cs p :: bs) =
        (ExistingBlock.mk u t o h cs p :: flattenList cs) ++
          flattenList bs from rfl]
      rw [List.filter_append, List.filter_cons]
      rw [if_pos (by
        rw [show (ExistingBlock.mk u t o h cs p).parentUid = p from rfl,
          hp]
        simp)]
      rw [filter_stamp_nil pageUid cs u Q 0 hcs hQu hQcs]
      rw [ih Q (ord + 1) hb2 hQbs]
      rfl

/-- Filtering a clean forest's flattening by the uid of one of its
blocks returns exactly that block's children. -/
theorem filter_stamp_children (pageUid : JStr) :
    ∀ (n : Nat) (G : List ExistingBlock), sizeOf G ≤ n →
      ∀ (P : JStr) (ord : Int),
      snapList (some P) ord G = true →
      ((flattenList G).map ExistingBlock.uid).Nodup →
      P ∉ (flattenList G).map ExistingBlock.uid →
      ∀ u t o h cs p, ExistingBlock.mk u t o h cs p ∈ flattenList G →
      (flattenList G).filter
        (fun eb => decide (eb.parentUid.getD pageUid = u)) = cs := by
  intro n
  induction n with
  | zero =>
    intro G hG P ord hs hnd hnm u t o h cs p hmem
    cases G with
    | nil =>
      rw [show flattenList ([] : List ExistingBlock) = [] from rfl] at hmem
      exact absurd hmem (List.not_mem_nil _)
    | cons b bs => simp at hG
  | succ n ih =>
    intro G hG P ord hs hnd hnm u t o h cs p hmem
    cases G with
    | nil =>
      rw [show flattenList ([] : List ExistingBlock) = [] from rfl] at hmem
      exact absurd hmem (List.not_mem_nil _)
    | cons b bs =>
      obtain ⟨hb1, hb2⟩ := snapList_parts (some P) ord b bs hs
      have hc : sizeOf (b :: bs) = 1 + sizeOf b + sizeOf bs :=
        List.cons.sizeOf_spec b bs
      cases b with
      | mk u0 t0 o0 h0 cs0 p0 =>
        obtain ⟨hp0, ho0, hh0, hcc0, htr0, hne0, hcs0⟩ :=
          snapNode_parts (some P) ord u0 t0 o0 h0 cs0 p0 hb1
        have hsz0 : sizeOf cs0 ≤ n := by
          have := hG
          simp at this
          omega
        have hszbs : sizeOf bs ≤ n := by omega
        have hflat : flattenList (ExistingBlock.mk u0 t0 o0 h0 cs0 p0 ::
            bs) = (ExistingBlock.mk u0 t0 o0 h0 cs0 p0 ::
              flattenList cs0) ++ flattenList bs := rfl
        have hmap : (flattenList (ExistingBlock.mk u0 t0 o0 h0 cs0 p0 ::
            bs)).map ExistingBlock.uid =
            u0 :: ((flattenList cs0).map ExistingBlock.uid ++
              (flattenList bs).map ExistingBlock.uid) := by
          rw [hflat]
          simp
          rfl
        rw [hmap] at hnd hnm
        rw [List.nodup_cons] at hnd
        have hdisj := (List.nodup_append.mp hnd.2).2.2
        have hndcs : ((flattenList cs0).map ExistingBlock.uid).Nodup :=
          (List.nodup_append.mp hnd.2).1
        have hndbs : ((flattenList bs).map ExistingBlock.uid).Nodup :=
          (List.nodup_append.mp hnd.2).2.1
        have hPu0 : P ≠ u0 := fun hh => hnm (by rw [hh]; simp)
        have hPcs : P ∉ (flattenList cs0).map ExistingBlock.uid := by
          intro hm
          exact hnm (by simp [hm])
        have hPbs : P ∉ (flattenList bs).map ExistingBlock.uid := by
          intro hm
          exact hnm (by simp [hm])
        have hu0cs : u0 ∉ (flattenList cs0).map ExistingBlock.uid := by
          intro hm
          exact hnd.1 (by simp [hm])
        have hu0bs : u0 ∉ (flattenList bs).map ExistingBlock.uid := by
          intro hm
          exact hnd.1 (by simp [hm])
        rw [hflat] at hmem
        rw [hflat, List.filter_append, List.filter_cons]
        rcases List.mem_cons.mp hmem with hbeq | hmem2
        · have hu : u0 = u := by
            have := congrArg ExistingBlock.uid hbeq
            exact this.symm
          have hcseq : cs0 = cs := by
            have := congrArg ExistingBlock.children hbeq
            exact this.symm
          subst hu
          subst hcseq
          rw [if_neg (by
            rw [show (ExistingBlock.mk u0 t0 o0 h0 cs0 p0).parentUid = p0
              from rfl, hp0]
            simp
            exact fun hh => hPu0 hh)]
          rw [filter_stamp_roots pageUid cs0 u0 0 hcs0 hu0cs]
          rw [filter_stamp_nil pageUid bs P u0 (ord + 1) hb2 hPu0.symm
            hu0bs]
          rw [List.append_nil]
        · rcases List.mem_append.mp hmem2 with hin | hin
          · have hucs : u ∈ (flattenList cs0).map ExistingBlock.uid :=
              List.mem_map.mpr ⟨ExistingBlock.mk u t o h cs p, hin, rfl⟩
            have huP : u ≠ P := fun hh => hPcs (hh ▸ hucs)
            have huu0 : u ≠ u0 := fun hh =>
              hnd.1 (List.mem_append_left _ (hh ▸ hucs))
            have hubs : u ∉ (flattenList bs).map ExistingBlock.uid :=
              fun hm => hdisj hucs hm
            rw [if_neg (by
              rw [show (ExistingBlock.mk u0 t0 o0 h0 cs0 p0).parentUid =
                p0 from rfl, hp0]
              simp
              exact fun hh => huP hh.symm)]
            rw [ih cs0 hsz0 u0 0 hcs0 hndcs hu0cs u t o h cs p hin]
            rw [filter_stamp_nil pageUid bs P u (ord + 1) hb2 huP hubs]
            rw [List.append_nil]
          · have hubs : u ∈ (flattenList bs).map ExistingBlock.uid :=
              List.mem_map.mpr ⟨ExistingBlock.mk u t o h cs p, hin, rfl⟩
            have huP : u ≠ P := fun hh => hPbs (hh ▸ hubs)
            have huu0 : u ≠ u0 := fun hh =>
              hnd.1 (List.mem_append_right _ (hh ▸ hubs))
            have hucs : u ∉ (flattenList cs0).map ExistingBlock.uid :=
              fun hm => hdisj hm hubs
            rw [if_neg (by
              rw [show (ExistingBlock.mk u0 t0 o0 h0 cs0 p0).parentUid =
                p0 from rfl, hp0]
              simp
              exact fun hh => huP hh.symm)]
            rw [filter_stamp_nil pageUid cs0 u0 u 0 hcs0 huu0 hucs]
            rw [ih bs hszbs P (ord + 1) hb2 hndbs hPbs u t o h cs p hin]
            rfl

/-- Orders along a clean sibling run count up from the starting order. -/
theorem snap_orders :
    ∀ (G : List ExistingBlock) (pu : Option JStr) (ord : Int),
      snapList pu ord G = true →
      ∀ (j : Nat) (eb : ExistingBlock), G.get? j = some eb →
      eb.order = ord + (j : Int) := by
  intro G
  induction G with
  | nil =>
    intro pu ord _ j eb hj
    simp at hj
  | cons b bs ih =>
    intro pu ord hs j eb hj
    obtain ⟨hb1, hb2⟩ := snapList_parts pu ord b bs hs
    cases j with
    | zero =>
      have hbe : b = eb := by simpa using hj
      subst hbe
      cases b with
      | mk u t o h cs p =>
        obtain ⟨_, ho, _, _, _, _, _⟩ := snapNode_parts pu ord u t o h cs p
          hb1
        rw [show (ExistingBlock.mk u t o h cs p).order = o from rfl, ho]
        simp
    | succ j2 =>
      have := ih pu (ord + 1) hb2 j2 eb (by simpa using hj)
      rw [this]
      push_cast
      ring

/-- A block heads its own flattening. -/
theorem mem_flattenOne_self (b : ExistingBlock) : b ∈ flattenOne b := by
  cases b with
  | mk u t o h cs p =>
    rw [show flattenOne (ExistingBlock.mk u t o h cs p) =
      ExistingBlock.mk u t o h cs p :: flattenList cs from rfl]
    exact List.mem_cons_self _ _

/-- The flattening of a member subtree sits inside the forest
flattening. -/
theorem flatten_sub :
    ∀ (G : List ExistingBlock) (b : ExistingBlock), b ∈ G →
      ∀ x ∈ flattenOne b, x ∈ flattenList G := by
  intro G
  induction G with
  | nil =>
    intro b hb
    exact absurd hb (List.not_mem_nil b)
  | cons g gs ih =>
    intro b hb x hx
    rw [show flattenList (g :: gs) = flattenOne g ++ flattenList gs
      from rfl]
    rcases List.mem_cons.mp hb with rfl | hb2
    · exact List.mem_append_left _ hx
    · exact List.mem_append_right _ (ih b hb2 x hx)

/-- Any member of a forest flattening is a root of the forest or sits in
the flattening of a root's children. -/
theorem flatten_cases :
    ∀ (G : List ExistingBlock) (eb : ExistingBlock), eb ∈ flattenList G →
      eb ∈ G ∨ ∃ b ∈ G, ∃ u t o h cs p, b = ExistingBlock.mk u t o h cs p ∧
        eb ∈ flattenList cs := by
  intro G
  induction G with
  | nil =>
    intro eb heb
    rw [show flattenList ([] : List ExistingBlock) = [] from rfl] at heb
    exact absurd heb (List.not_mem_nil eb)
  | cons b bs ih =>
    intro eb heb
    rw [show flattenList (b :: bs) = flattenOne b ++ flattenList bs
      from rfl] at heb
    rcases List.mem_append.mp heb with h1 | h1
    · cases b with
      | mk u t o h cs p =>
        rw [show flattenOne (ExistingBlock.mk u t o h cs p) =
          ExistingBlock.mk u t o h cs p :: flattenList cs from rfl] at h1
        rcases List.mem_cons.mp h1 with rfl | h2
        · exact Or.inl (List.mem_cons_self _ _)
        · exact Or.inr ⟨ExistingBlock.mk u t o h cs p,
            List.mem_cons_self _ _, u, t, o, h, cs, p, rfl, h2⟩
    · rcases ih eb h1 with h2 | ⟨b2, hb2, u, t, o, h, cs, p, hbeq, h3⟩
      · exact Or.inl (List.mem_cons_of_mem _ h2)
      · exact Or.inr ⟨b2, List.mem_cons_of_mem _ hb2, u, t, o, h, cs, p,
          hbeq, h3⟩

/-- `indexOf` returns the position of the only occurrence. -/
theorem jsIndexOf_of_get? (l : List JStr) (j : Nat) (x : JStr)
    (hnd : l.Nodup) (hj : l.get? j = some x) :
    jsIndexOf l x = (j : Int) := by
  have hjlt : j < l.length := by
    by_contra hcon
    rw [List.get?_eq_none.mpr (by omega)] at hj
    simp at hj
  have hdrop := drop_cons_of_get? l j x hj
  have hl : l = l.take j ++ x :: l.drop (j + 1) := by
    conv_lhs => rw [← List.take_append_drop j l]
    rw [hdrop]
  have hnd2 : (l.take j ++ x :: l.drop (j + 1)).Nodup := hl ▸ hnd
  have hx : x ∉ l.take j := by
    intro hmem
    exact (List.nodup_append.mp hnd2).2.2 hmem (List.mem_cons_self _ _)
  have htk : (l.take j).length = j := by
    rw [List.length_take]
    omega
  calc jsIndexOf l x
      = jsIndexOf (l.take j ++ x :: l.drop (j + 1)) x := by rw [← hl]
    _ = ((l.take j).length : Int) := jsIndexOf_append_cons _ _ _ hx
    _ = (j : Int) := by rw [htk]

/-- A block at position `j` of a clean sibling run satisfies the node
check at order `ord + j`. -/
theorem snap_mem_node :
    ∀ (G : List ExistingBlock) (pu : Option JStr) (ord : Int),
      snapList pu ord G = true →
      ∀ (b : ExistingBlock) (j : Nat), G.get? j = some b →
      snapNode pu (ord + (j : Int)) b = true := by
  intro G
  induction G with
  | nil =>
    intro pu ord _ b j hj
    simp at hj
  | cons g gs ih =>
    intro pu ord hs b j hj
    obtain ⟨hb1, hb2⟩ := snapList_parts pu ord g gs hs
    cases j with
    | zero =>
      have hbe : g = b := by simpa using hj
      subst hbe
      simpa using hb1
    | succ j2 =>
      have := ih pu (ord + 1) hb2 b j2 (by simpa using hj)
      rw [show ord + ((j2 + 1 : Nat) : Int) =
        ord + 1 + (j2 : Int) from by push_cast; ring]
      exact this

/-- A member of a list is no larger than the list. -/
theorem sizeOf_mem_le :
    ∀ (G : List ExistingBlock) (b : ExistingBlock),
      b ∈ G → sizeOf b ≤ sizeOf G := by
  intro G
  induction G with
  | nil =>
    intro b hb
    exact absurd hb (List.not_mem_nil b)
  | cons g gs ih =>
    intro b hb
    have hc : sizeOf (g :: gs) = 1 + sizeOf g + sizeOf gs :=
      List.cons.sizeOf_spec g gs
    rcases List.mem_cons.mp hb with rfl | hb2
    · omega
    · have := ih b hb2
      omega

/-- Every block of a clean forest sits in its sibling group at the
position recorded in its `order` field. -/
theorem snap_order_facts (pageUid : JStr) (E : List ExistingBlock)
    (hndE : (E.map ExistingBlock.uid).Nodup)
    (hchild : ∀ u t o h cs p, ExistingBlock.mk u t o h cs p ∈ E →
      E.filter (fun e => decide (e.parentUid.getD pageUid = u)) = cs) :
    ∀ (n : Nat) (G : List ExistingBlock), sizeOf G ≤ n →
      ∀ P : JStr, snapList (some P) 0 G = true →
      E.filter (fun e => decide (e.parentUid.getD pageUid = P)) = G →
      (∀ x ∈ flattenList G, x ∈ E) →
      ∀ eb ∈ flattenList G,
        jsIndexOf ((E.filter (fun e => decide (e.parentUid.getD pageUid =
          eb.parentUid.getD pageUid))).map ExistingBlock.uid) eb.uid =
          eb.order := by
  intro n
  induction n with
  | zero =>
    intro G hG P hs hfil hsub eb heb
    cases G with
    | nil =>
      rw [show flattenList ([] : List ExistingBlock) = [] from rfl] at heb
      exact absurd heb (List.not_mem_nil eb)
    | cons b bs => simp at hG
  | succ n ih =>
    intro G hG P hs hfil hsub eb heb
    have hndG : (G.map ExistingBlock.uid).Nodup := by
      rw [← hfil]
      exact List.Nodup.sublist
        (List.Sublist.map _ (List.filter_sublist E)) hndE
    rcases flatten_cases G eb heb with hroot | hdeep
    · obtain ⟨j, hj⟩ := List.get?_of_mem hroot
      have hstamp : eb.parentUid.getD pageUid = P := by
        cases eb with
        | mk u t o h cs p =>
          have hsnb : snapNode (some P) (0 + (j : Int))
              (ExistingBlock.mk u t o h cs p) = true :=
            snap_mem_node G (some P) 0 hs _ j hj
          obtain ⟨hp, _, _, _, _, _, _⟩ :=
            snapNode_parts (some P) (0 + (j : Int)) u t o h cs p hsnb
          rw [show (ExistingBlock.mk u t o h cs p).parentUid = p from rfl,
            hp]
          rfl
      rw [hstamp, hfil]
      have hjuid : (G.map ExistingBlock.uid).get? j = some eb.uid := by
        rw [List.get?_map, hj]
        rfl
      rw [jsIndexOf_of_get? _ j _ hndG hjuid]
      have := snap_orders G (some P) 0 hs j eb hj
      rw [this]
      simp
    · obtain ⟨b, hbG, u, t, o, h, cs, p, rfl, hebcs⟩ := hdeep
      have hbE : ExistingBlock.mk u t o h cs p ∈ E :=
        hsub _ (flatten_sub G _ hbG _ (mem_flattenOne_self _))
      have hsnb : ∃ ordb : Int, snapNode (some P) ordb
          (ExistingBlock.mk u t o h cs p) = true := by
        obtain ⟨j, hj⟩ := List.get?_of_mem hbG
        exact ⟨0 + (j : Int), snap_mem_node G (some P) 0 hs _ j hj⟩
      obtain ⟨ordb, hsnb⟩ := hsnb
      obtain ⟨hp, _, _, _, _, _, hcs⟩ :=
        snapNode_parts (some P) ordb u t o h cs p hsnb
      have hszcs : sizeOf cs ≤ n := by
        have h1 := sizeOf_mem_le G _ hbG
        have h2 : sizeOf (ExistingBlock.mk u t o h cs p) =
            1 + sizeOf u + sizeOf t + sizeOf o + sizeOf h + sizeOf cs +
              sizeOf p := by simp
        omega
      exact ih cs hszcs u hcs (hchild u t o h cs p hbE)
        (fun x hx => hsub x (flatten_sub G _ hbG x (by
          rw [show flattenOne (ExistingBlock.mk u t o h cs p) =
            ExistingBlock.mk u t o h cs p :: flattenList cs from rfl]
          exact List.mem_cons_of_mem _ hx))) eb hebcs

/-- Two parallel lists with pointwise-equal keys and values have equal
key-filtered value lists. -/
theorem filter_map_corr {α β γ : Type} (f1 : α → JStr) (g1 : β → JStr)
    (f2 : α → γ) (g2 : β → γ) :
    ∀ (xs : List α) (ys : List β), xs.map f1 = ys.map g1 →
      xs.map f2 = ys.map g2 → ∀ P : JStr,
      (xs.filter (fun x => decide (f1 x = P))).map f2 =
        (ys.filter (fun y => decide (g1 y = P))).map g2 := by
  intro xs
  induction xs with
  | nil =>
    intro ys h1 _ P
    have : ys = [] := by
      simp only [List.map_nil] at h1
      exact List.map_eq_nil.mp h1.symm
    subst this
    rfl
  | cons x xs2 ih =>
    intro ys h1 h2 P
    cases ys with
    | nil => simp at h1
    | cons y ys2 =>
      rw [List.map_cons, List.map_cons] at h1 h2
      have h1h : f1 x = g1 y := by injection h1
      have h1t : xs2.map f1 = ys2.map g1 := by injection h1
      have h2h : f2 x = g2 y := by injection h2
      have h2t : xs2.map f2 = ys2.map g2 := by injection h2
      rw [List.filter_cons, List.filter_cons]
      by_cases hP : f1 x = P
      · rw [if_pos (by simp [hP]), if_pos (by simp [← h1h, hP])]
        rw [List.map_cons, List.map_cons, h2h, ih ys2 h1t h2t P]
      · rw [if_neg (by simp [hP]), if_neg (by simp [← h1h, hP])]
        exact ih ys2 h1t h2t P

/-- Folding `Set.add` of fresh, pairwise-distinct elements appends
them. -/
theorem foldl_sadd_append :
    ∀ (l acc : List JStr), (∀ x ∈ l, x ∉ acc) → l.Nodup →
      l.foldl sadd acc = acc ++ l := by
  intro l
  induction l with
  | nil =>
    intro acc _ _
    simp
  | cons x xs ih =>
    intro acc hfr hnd
    rw [List.nodup_cons] at hnd
    rw [List.foldl_cons]
    rw [show sadd acc x = acc ++ [x] from by
      unfold sadd
      rw [if_neg (hfr x (List.mem_cons_self _ _))]]
    rw [ih (acc ++ [x]) (by
      intro y hy hmem
      rcases List.mem_append.mp hmem with hm | hm
      · exact hfr y (List.mem_cons_of_mem _ hy) hm
      · exact hnd.1 (by rw [show y = x from by simpa using hm] at hy; exact hy)) hnd.2]
    rw [List.append_assoc]
    rfl

/-- A `filterMap` that rejects every position is empty. -/
theorem filterMap_none_of_get? {α γ : Type} (f : α → Option γ)
    (xs : List α) (h : ∀ k x, xs.get? k = some x → f x = none) :
    xs.filterMap f = [] := by
  rw [List.filterMap_eq_nil]
  intro x hx
  obtain ⟨k, hk⟩ := List.get?_of_mem hx
  exact h k x hk

/-- A `filterMap` that accepts every position with values read off a
parallel list is that list's map. -/
theorem filterMap_map_zip {α β γ : Type} (f : α → Option γ) (g : β → γ) :
    ∀ (xs : List α) (ys : List β), xs.length = ys.length →
      (∀ k x y, xs.get? k = some x → ys.get? k = some y →
        f x = some (g y)) →
      xs.filterMap f = ys.map g := by
  intro xs
  induction xs with
  | nil =>
    intro ys hlen _
    cases ys with
    | nil => rfl
    | cons y ys2 => simp at hlen
  | cons x xs2 ih =>
    intro ys hlen h
    cases ys with
    | nil => simp at hlen
    | cons y ys2 =>
      rw [List.filterMap_cons, h 0 x y rfl rfl]
      rw [List.map_cons]
      rw [ih ys2 (by simpa using hlen)
        (fun k x2 y2 hx hy => h (k + 1) x2 y2 (by simpa using hx)
          (by simpa using hy))]

/-- The diff of a clean snapshot against its reparsed regenerated
markdown, with the match map spelled out. -/
theorem c2_core (F : List ExistingBlock) (pageUid : JStr)
    (gen : Nat → JStr)
    (hsnap : snapList (some pageUid) 0 F = true)
    (huid : ((flattenList F).map ExistingBlock.uid).Nodup)
    (htxt : ((flattenList F).map ExistingBlock.text).Nodup)
    (hgeninj : ∀ i j, i < (flattenList F).length →
      j < (flattenList F).length → gen i = gen j → i = j)
    (hgenpage : ∀ i, i < (flattenList F).length → gen i ≠ pageUid)
    (hpage : pageUid ∉ (flattenList F).map ExistingBlock.uid)
    (hne : F ≠ []) :
    diffBlockTrees F (nbsList gen ⟨pageUid⟩ 0 0 F) pageUid =
      { creates := [], updates := [], moves := [], deletes := [],
        preservedUids := (flattenList F).map ExistingBlock.uid } := by
  have hflatfacts := (flat_snap (sizeOf F)).2 F (Nat.le_refl _) pageUid 0
    hsnap
  have hfid : ∀ eb ∈ flattenList F, normalizeText eb.text = eb.text :=
    fun eb heb => (hflatfacts eb heb).1
  have htexts := (nbs_texts (sizeOf F)).2 F (Nat.le_refl _) gen ⟨pageUid⟩
    0 0
  have hrefs := (nbs_refs (sizeOf F)).2 F (Nat.le_refl _) gen ⟨pageUid⟩ 0 0
  have hlenE : (nbsList gen ⟨pageUid⟩ 0 0 F).length =
      (flattenList F).length := by
    rw [show (flattenList F).length = (flattenList F).length from rfl]
    rw [(nbs_lengths (sizeOf F)).2 F (Nat.le_refl _) gen ⟨pageUid⟩ 0 0]
  have hmap1 : (nbsList gen ⟨pageUid⟩ 0 0 F).map
      (fun nb => normalizeText nb.text) =
      (flattenList F).map ExistingBlock.text := by
    rw [show (nbsList gen ⟨pageUid⟩ 0 0 F).map
        (fun nb => normalizeText nb.text) =
      ((nbsList gen ⟨pageUid⟩ 0 0 F).map NewBlock.text).map normalizeText
      from by rw [List.map_map]; rfl]
    rw [htexts, List.map_map]
    apply List.map_congr_left
    intro eb heb
    exact hfid eb heb
  have hndref : ((nbsList gen ⟨pageUid⟩ 0 0 F).map
      (fun nb => nb.ref.blockUid)).Nodup := by
    rw [hrefs]
    apply List.Nodup.map_on
    · intro i hi j hj hg
      have hi2 := List.mem_range'_1.mp hi
      have hj2 := List.mem_range'_1.mp hj
      exact hgeninj i j (by omega) (by omega) hg
    · exact List.nodup_range' 0 ((flattenList F).length)
  have hms_eq := matchBlocks_full (flattenList F)
    (nbsList gen ⟨pageUid⟩ 0 0 F) htxt huid hfid hmap1 hndref
  have hmsget : ∀ k eb, (flattenList F).get? k = some eb →
      (JMap.mk (((nbsList gen ⟨pageUid⟩ 0 0 F).map
          (fun nb => nb.ref.blockUid)).zip
        ((flattenList F).map ExistingBlock.uid)) : JMap JStr).get?
        (gen k) = some eb.uid := by
    intro k eb hk
    have hklt : k < (flattenList F).length := by
      by_contra hcon
      rw [List.get?_eq_none.mpr (by omega)] at hk
      simp at hk
    apply zip_get?_pos _ _ k _ _ hndref
    · rw [hrefs, List.get?_map, range'_get? 0 _ k hklt, Nat.zero_add]
      rfl
    · rw [List.get?_map, hk]
      rfl
  have hreg : ∀ i, i < (flattenList F).length →
      (flattenList F).get? (0 + i) = (flattenList F).get? i := by
    intro i _
    rw [Nat.zero_add]
  have hres : (if (BlockRef.mk pageUid).blockUid = pageUid then pageUid
      else ((JMap.mk (((nbsList gen ⟨pageUid⟩ 0 0 F).map
          (fun nb => nb.ref.blockUid)).zip
        ((flattenList F).map ExistingBlock.uid)) : JMap JStr).get?
        (BlockRef.mk pageUid).blockUid).getD
        (BlockRef.mk pageUid).blockUid) = pageUid := by
    rw [if_pos rfl]
  obtain ⟨hdp, htgt⟩ := (nbs_dp_tgt pageUid gen
    (JMap.mk (((nbsList gen ⟨pageUid⟩ 0 0 F).map
        (fun nb => nb.ref.blockUid)).zip
      ((flattenList F).map ExistingBlock.uid)))
    (flattenList F) hmsget hgenpage (sizeOf F)).2 F (Nat.le_refl _)
    ⟨pageUid⟩ pageUid 0 0 0 hsnap hreg hres
  have hchild : ∀ u t o h cs p,
      ExistingBlock.mk u t o h cs p ∈ flattenList F →
      (flattenList F).filter
        (fun e => decide (e.parentUid.getD pageUid = u)) = cs :=
    fun u t o h cs p hm => filter_stamp_children pageUid (sizeOf F) F
      (Nat.le_refl _) pageUid 0 hsnap huid hpage u t o h cs p hm
  have hfilroots : (flattenList F).filter
      (fun e => decide (e.parentUid.getD pageUid = pageUid)) = F :=
    filter_stamp_roots pageUid F pageUid 0 hsnap hpage
  have horder := snap_order_facts pageUid (flattenList F) huid hchild
    (sizeOf F) F (Nat.le_refl _) pageUid hsnap hfilroots
    (fun x hx => hx)
  have hsibs : ∀ g,
      (((buildDesiredMaps pageUid
          (JMap.mk (((nbsList gen ⟨pageUid⟩ 0 0 F).map
              (fun nb => nb.ref.blockUid)).zip
            ((flattenList F).map ExistingBlock.uid)))
          (nbsList gen ⟨pageUid⟩ 0 0 F)).2.get? g).getD []) =
      (((flattenList F).filter
        (fun e => decide (e.parentUid.getD pageUid = g))).map
        ExistingBlock.uid) := by
    intro g
    have hcorr := filter_map_corr
      (desiredParentUid pageUid
        (JMap.mk (((nbsList gen ⟨pageUid⟩ 0 0 F).map
            (fun nb => nb.ref.blockUid)).zip
          ((flattenList F).map ExistingBlock.uid))))
      (fun eb => eb.parentUid.getD pageUid)
      (fun nb => ((JMap.mk (((nbsList gen ⟨pageUid⟩ 0 0 F).map
            (fun nb => nb.ref.blockUid)).zip
          ((flattenList F).map ExistingBlock.uid)) : JMap JStr).get?
          nb.ref.blockUid).getD nb.ref.blockUid)
      ExistingBlock.uid
      (nbsList gen ⟨pageUid⟩ 0 0 F) (flattenList F) hdp htgt g
    rw [buildDesiredMaps_snd, appendFold_get, JMap.get?_empty]
    rw [hcorr]
    cases hE : ((flattenList F).filter
        (fun e => decide (e.parentUid.getD pageUid = g))).map
        ExistingBlock.uid with
    | nil => rfl
    | cons y ys => rfl
  have hcore : ∀ k nb, (nbsList gen ⟨pageUid⟩ 0 0 F).get? k = some nb →
      ∃ eb, (flattenList F).get? k = some eb ∧ nb.text = eb.text ∧
        nb.heading = none ∧ eb.heading = none ∧
        nb.ref.blockUid = gen k ∧
        (JMap.mk (((nbsList gen ⟨pageUid⟩ 0 0 F).map
            (fun nb => nb.ref.blockUid)).zip
          ((flattenList F).map ExistingBlock.uid)) : JMap JStr).get?
          nb.ref.blockUid = some eb.uid ∧
        desiredParentUid pageUid
          (JMap.mk (((nbsList gen ⟨pageUid⟩ 0 0 F).map
              (fun nb => nb.ref.blockUid)).zip
            ((flattenList F).map ExistingBlock.uid))) nb =
          eb.parentUid.getD pageUid := by
    intro k nb hk
    have hklt : k < (nbsList gen ⟨pageUid⟩ 0 0 F).length := by
      by_contra hcon
      rw [List.get?_eq_none.mpr (by omega)] at hk
      simp at hk
    have hklt2 : k < (flattenList F).length := by omega
    obtain ⟨eb, hebk⟩ : ∃ eb, (flattenList F).get? k = some eb := by
      cases hx : (flattenList F).get? k with
      | none =>
        rw [List.get?_eq_none] at hx
        omega
      | some eb => exact ⟨eb, rfl⟩
    have htk : nb.text = eb.text := by
      have h1 : ((nbsList gen ⟨pageUid⟩ 0 0 F).map NewBlock.text).get? k =
          some nb.text := by
        rw [List.get?_map, hk]
        rfl
      rw [htexts, List.get?_map, hebk] at h1
      have h2 : eb.text = nb.text := by simpa using h1
      exact h2.symm
    have hrk : nb.ref.blockUid = gen k := by
      have h1 : ((nbsList gen ⟨pageUid⟩ 0 0 F).map
          (fun nb => nb.ref.blockUid)).get? k =
          some nb.ref.blockUid := by
        rw [List.get?_map, hk]
        rfl
      rw [hrefs, List.get?_map, range'_get? 0 _ k hklt2, Nat.zero_add]
        at h1
      have h2 : gen k = nb.ref.blockUid := by simpa using h1
      exact h2.symm
    have hnbh : nb.heading = none :=
      ((nbs_shape (sizeOf F)).2 F (Nat.le_refl _) gen ⟨pageUid⟩ 0 0 nb
        (List.get?_mem hk)).1
    have hebh : eb.heading = none :=
      (hflatfacts eb (List.get?_mem hebk)).2.1
    have hmsk : (JMap.mk (((nbsList gen ⟨pageUid⟩ 0 0 F).map
        (fun nb => nb.ref.blockUid)).zip
      ((flattenList F).map ExistingBlock.uid)) : JMap JStr).get?
        nb.ref.blockUid = some eb.uid := by
      rw [hrk]
      exact hmsget k eb hebk
    have hdpk : desiredParentUid pageUid
        (JMap.mk (((nbsList gen ⟨pageUid⟩ 0 0 F).map
            (fun nb => nb.ref.blockUid)).zip
          ((flattenList F).map ExistingBlock.uid))) nb =
        eb.parentUid.getD pageUid := by
      have h1 : ((nbsList gen ⟨pageUid⟩ 0 0 F).map
          (fun nb => desiredParentUid pageUid
            (JMap.mk (((nbsList gen ⟨pageUid⟩ 0 0 F).map
                (fun nb => nb.ref.blockUid)).zip
              ((flattenList F).map ExistingBlock.uid))) nb)).get? k =
          some (desiredParentUid pageUid
            (JMap.mk (((nbsList gen ⟨pageUid⟩ 0 0 F).map
                (fun nb => nb.ref.blockUid)).zip
              ((flattenList F).map ExistingBlock.uid))) nb) := by
        rw [List.get?_map, hk]
        rfl
      rw [hdp, List.get?_map, hebk] at h1
      have h2 : eb.parentUid.getD pageUid = desiredParentUid pageUid
          (JMap.mk (((nbsList gen ⟨pageUid⟩ 0 0 F).map
              (fun nb => nb.ref.blockUid)).zip
            ((flattenList F).map ExistingBlock.uid))) nb := by
        simpa using h1
      exact h2.symm
    exact ⟨eb, hebk, htk, hnbh, hebh, hrk, hmsk, hdpk⟩
  rw [diffBlockTrees_eq]
  rw [show flattenExistingBlocks F = flattenList F from rfl]
  rw [hms_eq]
  have hexby : ∀ eb ∈ flattenList F,
      (List.foldl (fun m eb => m.set eb.uid eb) JMap.empty
        (flattenList F)).get? eb.uid = some eb :=
    fun eb heb => exByUid_get_mem (flattenList F) JMap.empty eb huid heb
  have htoDP : ∀ nb ∈ nbsList gen ⟨pageUid⟩ 0 0 F,
      ((buildDesiredMaps pageUid
          (JMap.mk (((nbsList gen ⟨pageUid⟩ 0 0 F).map
              (fun nb => nb.ref.blockUid)).zip
            ((flattenList F).map ExistingBlock.uid)))
          (nbsList gen ⟨pageUid⟩ 0 0 F)).1.get? nb.ref.blockUid) =
        some (desiredParentUid pageUid
          (JMap.mk (((nbsList gen ⟨pageUid⟩ 0 0 F).map
              (fun nb => nb.ref.blockUid)).zip
            ((flattenList F).map ExistingBlock.uid))) nb) := by
    intro nb hnb
    rw [buildDesiredMaps_fst]
    exact setfold_get_mem (fun nb => nb.ref.blockUid)
      (fun nb => desiredParentUid pageUid
        (JMap.mk (((nbsList gen ⟨pageUid⟩ 0 0 F).map
            (fun nb => nb.ref.blockUid)).zip
          ((flattenList F).map ExistingBlock.uid))) nb)
      (nbsList gen ⟨pageUid⟩ 0 0 F) JMap.empty nb hndref hnb
  have hcreates : List.filterMap (createOf pageUid
      (JMap.mk (((nbsList gen ⟨pageUid⟩ 0 0 F).map
          (fun nb => nb.ref.blockUid)).zip
        ((flattenList F).map ExistingBlock.uid)))
      (buildDesiredMaps pageUid
        (JMap.mk (((nbsList gen ⟨pageUid⟩ 0 0 F).map
            (fun nb => nb.ref.blockUid)).zip
          ((flattenList F).map ExistingBlock.uid)))
        (nbsList gen ⟨pageUid⟩ 0 0 F)).1
      (buildDesiredMaps pageUid
        (JMap.mk (((nbsList gen ⟨pageUid⟩ 0 0 F).map
            (fun nb => nb.ref.blockUid)).zip
          ((flattenList F).map ExistingBlock.uid)))
        (nbsList gen ⟨pageUid⟩ 0 0 F)).2)
      (nbsList gen ⟨pageUid⟩ 0 0 F) = [] := by
    apply filterMap_none_of_get?
    intro k nb hk
    obtain ⟨eb, hebk, htk, hnbh, hebh, hrk, hmsk, hdpk⟩ := hcore k nb hk
    unfold createOf
    rw [hmsk]
  have hupdates : List.filterMap (updateOf
      (JMap.mk (((nbsList gen ⟨pageUid⟩ 0 0 F).map
          (fun nb => nb.ref.blockUid)).zip
        ((flattenList F).map ExistingBlock.uid)))
      (List.foldl (fun m eb => m.set eb.uid eb) JMap.empty
        (flattenList F)))
      (nbsList gen ⟨pageUid⟩ 0 0 F) = [] := by
    apply filterMap_none_of_get?
    intro k nb hk
    obtain ⟨eb, hebk, htk, hnbh, hebh, hrk, hmsk, hdpk⟩ := hcore k nb hk
    unfold updateOf matchedBlock
    rw [hmsk]
    simp only []
    rw [hexby eb (List.get?_mem hebk)]
    simp only []
    unfold mkUpdate
    rw [htk, hnbh, hebh]
    simp
  have hmoves : List.filterMap (moveOf pageUid
      (JMap.mk (((nbsList gen ⟨pageUid⟩ 0 0 F).map
          (fun nb => nb.ref.blockUid)).zip
        ((flattenList F).map ExistingBlock.uid)))
      (List.foldl (fun m eb => m.set eb.uid eb) JMap.empty
        (flattenList F))
      (buildDesiredMaps pageUid
        (JMap.mk (((nbsList gen ⟨pageUid⟩ 0 0 F).map
            (fun nb => nb.ref.blockUid)).zip
          ((flattenList F).map ExistingBlock.uid)))
        (nbsList gen ⟨pageUid⟩ 0 0 F)).1
      (buildDesiredMaps pageUid
        (JMap.mk (((nbsList gen ⟨pageUid⟩ 0 0 F).map
            (fun nb => nb.ref.blockUid)).zip
          ((flattenList F).map ExistingBlock.uid)))
        (nbsList gen ⟨pageUid⟩ 0 0 F)).2)
      (nbsList gen ⟨pageUid⟩ 0 0 F) = [] := by
    apply filterMap_none_of_get?
    intro k nb hk
    obtain ⟨eb, hebk, htk, hnbh, hebh, hrk, hmsk, hdpk⟩ := hcore k nb hk
    unfold moveOf matchedBlock
    rw [hmsk]
    simp only []
    rw [hexby eb (List.get?_mem hebk)]
    simp only []
    rw [htoDP nb (List.get?_mem hk)]
    rw [show (some (desiredParentUid pageUid
        (JMap.mk (((nbsList gen ⟨pageUid⟩ 0 0 F).map
            (fun nb => nb.ref.blockUid)).zip
          ((flattenList F).map ExistingBlock.uid))) nb)).getD pageUid =
      desiredParentUid pageUid
        (JMap.mk (((nbsList gen ⟨pageUid⟩ 0 0 F).map
            (fun nb => nb.ref.blockUid)).zip
          ((flattenList F).map ExistingBlock.uid))) nb from rfl]
    rw [hdpk]
    rw [hsibs (eb.parentUid.getD pageUid)]
    rw [horder eb (List.get?_mem hebk)]
    rw [if_neg (by simp)]
  have hvals : (JMap.mk (((nbsList gen ⟨pageUid⟩ 0 0 F).map
      (fun nb => nb.ref.blockUid)).zip
    ((flattenList F).map ExistingBlock.uid)) : JMap JStr).valuesL =
      (flattenList F).map ExistingBlock.uid := by
    apply zip_valuesL
    simp [hlenE]
  have hdel : unmatchedDeletes
      (JMap.mk (((nbsList gen ⟨pageUid⟩ 0 0 F).map
          (fun nb => nb.ref.blockUid)).zip
        ((flattenList F).map ExistingBlock.uid)) : JMap JStr).valuesL
      (flattenList F) = [] := by
    rw [hvals]
    unfold unmatchedDeletes
    rw [show (flattenList F).filter (fun eb =>
        decide (eb.uid ∉ (flattenList F).map ExistingBlock.uid)) = []
      from by
        rw [List.filter_eq_nil]
        intro eb heb
        simp only [decide_eq_true_eq]
        intro hno
        exact hno (List.mem_map_of_mem _ heb)]
    rfl
  have hpres : List.filterMap (preservedOf
      (JMap.mk (((nbsList gen ⟨pageUid⟩ 0 0 F).map
          (fun nb => nb.ref.blockUid)).zip
        ((flattenList F).map ExistingBlock.uid)))
      (List.foldl (fun m eb => m.set eb.uid eb) JMap.empty
        (flattenList F)))
      (nbsList gen ⟨pageUid⟩ 0 0 F) =
      (flattenList F).map ExistingBlock.uid := by
    apply filterMap_map_zip _ ExistingBlock.uid _ _ hlenE
    intro k nb eb hk hebk2
    obtain ⟨eb2, hebk, htk, hnbh, hebh, hrk, hmsk, hdpk⟩ := hcore k nb hk
    have hee : eb2 = eb := by
      rw [hebk] at hebk2
      simpa using hebk2
    subst hee
    unfold preservedOf matchedBlock
    rw [hmsk]
    simp only []
    rw [hexby eb2 (List.get?_mem hebk)]
    rfl
  have hsadd : List.foldl sadd []
      ((flattenList F).map ExistingBlock.uid) =
      (flattenList F).map ExistingBlock.uid := by
    rw [foldl_sadd_append ((flattenList F).map ExistingBlock.uid) []
      (fun x _ h => absurd h (List.not_mem_nil x)) huid]
    rfl
  rw [hcreates, hupdates, hmoves, hdel, hpres, hsadd]

/-- **C2 (amended).** Idempotence holds for clean snapshots: whenever
every block of the snapshot is a heading-less bullet block with trimmed,
non-empty, markdown-inert text, parent stamps and orders consistent with
the tree, pairwise-distinct uids and texts, the page uid foreign to all
block uids, and the uid supply injective and avoiding the page uid,
diffing the snapshot against the blocks reparsed from its regenerated
markdown yields empty creates, updates, moves and deletes, and a
preserved-uid set equal to the list of all existing identifiers.
Without the cleanliness provisos idempotence fails (see the
counterexample: a nested heading block is reparsed as a non-heading
block and produces an update). -/
theorem c2_roundtrip (F : List ExistingBlock) (pageUid : JStr)
    (gen : Nat → JStr)
    (hsnap : snapList (some pageUid) 0 F = true)
    (huid : ((flattenList F).map ExistingBlock.uid).Nodup)
    (htxt : ((flattenList F).map ExistingBlock.text).Nodup)
    (hgeninj : ∀ i j, i < (flattenList F).length →
      j < (flattenList F).length → gen i = gen j → i = j)
    (hgenpage : ∀ i, i < (flattenList F).length → gen i ≠ pageUid)
    (hpage : pageUid ∉ (flattenList F).map ExistingBlock.uid) :
    diffBlockTrees F
      (markdownToBlocks (blocksToMarkdown (existingToRoamList F) 0)
        pageUid gen) pageUid =
      { creates := [], updates := [], moves := [], deletes := [],
        preservedUids := (flattenList F).map ExistingBlock.uid } := by
  cases F with
  | nil => rfl
  | cons b0 bs0 =>
    rw [markdownToBlocks_clean (b0 :: bs0) (some pageUid) 0 pageUid gen
      hsnap (by simp)]
    exact c2_core (b0 :: bs0) pageUid gen hsnap huid htxt hgeninj
      hgenpage hpage (by simp)

/-- C2 is false as stated for arbitrary snapshots: a snapshot with a
nested heading block regenerates to markdown whose reparse drops the
heading, so the diff stages a non-empty update (text `## H`, heading
sentinel 0). -/
theorem c2_counterexample :
    (diffBlockTrees
      [ExistingBlock.mk "u1".data "T".data 0 none
        [ExistingBlock.mk "u2".data "H".data 0 (some 2) []
          (some "u1".data)] (some "pg".data)]
      (markdownToBlocks (blocksToMarkdown (existingToRoamList
        [ExistingBlock.mk "u1".data "T".data 0 none
          [ExistingBlock.mk "u2".data "H".data 0 (some 2) []
            (some "u1".data)] (some "pg".data)]) 0) "pg".data
        (fun n => List.replicate (n + 1) 'g')) "pg".data).updates =
      [.update "u2".data (some ['#', '#', ' ', 'H']) (some 0)] := by
  decide

/-- Witness for the amended C2 at a concrete two-block snapshot. -/
theorem c2_roundtrip_witness :
    diffBlockTrees
      [ExistingBlock.mk "a".data "one".data 0 none
        [ExistingBlock.mk "b".data "two".data 0 none []
          (some "a".data)] (some "pg".data)]
      (markdownToBlocks (blocksToMarkdown (existingToRoamList
        [ExistingBlock.mk "a".data "one".data 0 none
          [ExistingBlock.mk "b".data "two".data 0 none []
            (some "a".data)] (some "pg".data)]) 0) "pg".data
        (fun n => List.replicate (n + 1) 'g')) "pg".data =
      { creates := [], updates := [], moves := [], deletes := [],
        preservedUids := ["a".data, "b".data] } := by
  have h := c2_roundtrip
    [ExistingBlock.mk "a".data "one".data 0 none
      [ExistingBlock.mk "b".data "two".data 0 none []
        (some "a".data)] (some "pg".data)]
    "pg".data (fun n => List.replicate (n + 1) 'g')
    (by decide) (by decide) (by decide)
    (fun i j hi hj hg => by
      have hlg := congrArg List.length hg
      simp at hlg
      omega)
    (fun i hi => by
      have hi2 : i < 2 := by
        rw [show (flattenList
          [ExistingBlock.mk "a".data "one".data 0 none
            [ExistingBlock.mk "b".data "two".data 0 none []
              (some "a".data)] (some "pg".data)]).length = 2 from rfl]
          at hi
        exact hi
      interval_cases i <;> decide)
    (by decide)
  rw [h]
  rfl

end RoamDiff
